import Mathlib

/-!
Verification of the canonical Huffman encoder (`src/encoder.cpp`).

The development shallowly embeds the encoder pipeline:
`extract_frequencies`, `build_huffman_tree`, `generate_huffman_codes`,
`next_binary`, `generate_canonical_codes`, `encode_codes_length`,
`encode_content` and `create_compressed_file`.

Bytes and symbols are modelled as `Nat` (a text symbol is a 7-bit value; the
signed-`char` reinterpretation of bytes at or above 128 is outside the model).
Bit strings of `'0'`/`'1'` characters are modelled as `List Bool`
(`false` is `'0'`, `true` is `'1'`, head is the most significant bit).
The `std::unordered_map` tables are modelled as association lists keyed by
symbol: `operator[]` on a missing key appends a default entry, an update keeps
the entry in place.  The map's (unspecified) iteration order is determinized
to the insertion order of this list; the entry sets and per-key values agree
with the C++ map whenever keys are distinct, which is the case in the pipeline.
File streams are external collaborators (spec section 1): an input file is its
list of lines (`std::getline` strips the terminators), and the output artifact
is the list of bytes written to it.
-/

/-- Modelled from the spec: `FIRST_CHARACTER` is declared in `encoder.hpp`,
which is not part of the sources; the spec describes it as the minimum
supported symbol value (symbols below it are rejected).  The exact value is
not recoverable from the sources; it is fixed here as 9 (the lowest common
text control character), consistent with every constraint the spec states:
it is at most the line-terminator value and at most the end-of-stream value. -/
def FIRST_CHARACTER : Nat := 9

/-- Modelled from the spec: `SUPPORTED_CHARACTERS` is declared in
`encoder.hpp`, which is not part of the sources; the header loop emits one
length field for every symbol from `FIRST_CHARACTER` up to (excluding) this
bound, so it is one past the largest alphabet symbol.  Fixed as 127, the end
of the 7-bit printable range the spec describes. -/
def SUPPORTED_CHARACTERS : Nat := 127

/-- Modelled from the spec: `NEW_LINE` is declared in `encoder.hpp`, which is
not part of the sources; it is the line-terminator symbol appended to every
line read, so it is the ASCII line feed, 10. -/
def NEW_LINE : Nat := 10

/-- Modelled from the spec: `END_OF_TEXT` is declared in `encoder.hpp`, which
is not part of the sources; it is the reserved end-of-stream symbol.  The
spec's concrete scenario (section 8) orders it strictly between the
line terminator and the letter `a` in symbol value, so it is fixed as 11,
a control character inside the supported range. -/
def END_OF_TEXT : Nat := 11

/-- Modelled from the spec: `MAX_BITS` is declared in `encoder.hpp`, which is
not part of the sources; it is the `std::bitset` width used to render one
code-length field, an upper bound on the header bit-width `w`.  Fixed as 32,
matching the `uint32_t` type of the lengths being rendered. -/
def MAX_BITS : Nat := 32

/-- Decidable equality of `Except` results, for evaluating the pipeline on
concrete inputs. -/
instance {ε α : Type} [DecidableEq ε] [DecidableEq α] : DecidableEq (Except ε α) :=
  fun a b =>
    match a, b with
    | .ok x, .ok y =>
        if h : x = y then isTrue (by rw [h]) else isFalse (by intro hh; cases hh; exact h rfl)
    | .error x, .error y =>
        if h : x = y then isTrue (by rw [h]) else isFalse (by intro hh; cases hh; exact h rfl)
    | .ok _, .error _ => isFalse (by intro h; cases h)
    | .error _, .ok _ => isFalse (by intro h; cases h)

/-- Floor of the base-2 logarithm, with a structural iteration bound: halve
while the argument is at least 2.  `log2F n n` computes `floor(log2 n)` for
positive `n`, the value `std::log2` followed by the integral cast yields. -/
def log2F : Nat → Nat → Nat
  | 0, _ => 0
  | fuel + 1, n => if n ≥ 2 then log2F fuel (n / 2) + 1 else 0

/-- Floor of the base-2 logarithm of a positive number; 0 on 0, where the
C++ `std::log2` is undefined. -/
def flog2 (n : Nat) : Nat :=
  log2F n n

/-- Association-list increment, modelling `frequencies[character]++` on
`std::unordered_map<char, uint32_t>`: a present key is updated in place, a
missing key is appended with count 1 (a fresh `uint32_t` value-initializes to
0 and is then incremented). -/
def alistIncr : List (Nat × Nat) → Nat → List (Nat × Nat)
  | [], s => [(s, 1)]
  | (k, v) :: rest, s =>
      if k = s then (k, v + 1) :: rest else (k, v) :: alistIncr rest s

/-- The symbol stream an input file produces: each line is read without its
terminator and processed as `line + NEW_LINE` (`encoder.cpp` lines 13-14
and 162-163). -/
def contentSymbols (lines : List (List Nat)) : List Nat :=
  (lines.map (fun l => l ++ [NEW_LINE])).flatten

/-- The scanning loop of `extract_frequencies` (`encoder.cpp` lines 13-19):
each symbol below `FIRST_CHARACTER` raises `std::invalid_argument` (modelled
as `Except.error` carrying the offending symbol), every other symbol is
counted. -/
def extractLoop : List Nat → List (Nat × Nat) → Except Nat (List (Nat × Nat))
  | [], t => .ok t
  | c :: rest, t =>
      if c < FIRST_CHARACTER then .error c else extractLoop rest (alistIncr t c)

/-- Embeds `extract_frequencies` (`encoder.cpp` lines 9-24): count the symbol
stream, then increment the end-of-stream symbol once.  The
`std::unordered_map` constructor argument `SUPPORTED_CHARACTERS` is a bucket
count and inserts no entries. -/
def extract_frequencies (lines : List (List Nat)) : Except Nat (List (Nat × Nat)) :=
  (extractLoop (contentSymbols lines) []).map (fun t => alistIncr t END_OF_TEXT)

/-- Embeds the `Node` struct of `encoder.hpp` (shape visible from its uses in
`encoder.cpp`): a symbol, a frequency, and two owned optional children.  A
node built as `Node{symbol, frequency}` is a leaf with both children null; a
parent node keeps the default symbol, the null character, modelled as 0. -/
inductive Node where
  | mk (symbol : Nat) (frequency : Nat) (left : Option Node) (right : Option Node)
deriving Repr

/-- Symbol field accessor of a node. -/
def Node.symbol : Node → Nat
  | .mk s _ _ _ => s

/-- Frequency field accessor of a node. -/
def Node.frequency : Node → Nat
  | .mk _ f _ _ => f

mutual

/-- Size of a node: number of nodes of the tree rooted at it. -/
def nodeSize : Node → Nat
  | .mk _ _ l r => 1 + optNodeSize l + optNodeSize r

/-- Size of an optional node. -/
def optNodeSize : Option Node → Nat
  | none => 0
  | some n => nodeSize n

end

/-- Modelled from the spec: the `min_priority_queue` of `encoder.hpp` is not
part of the sources; the spec (section 4.2) describes a min-priority queue
ordered by cumulative weight whose ties are broken by the order of the
underlying structure, not by symbol.  It is determinized here as a
weight-sorted list with first-in-first-out ties: a pushed node goes after
every node of smaller or equal frequency.  The queue's head is its minimum. -/
def qpush (n : Node) : List Node → List Node
  | [] => [n]
  | m :: q => if m.frequency ≤ n.frequency then m :: qpush n q else n :: m :: q

/-- Length of a queue after a push. -/
theorem qpush_length (n : Node) (q : List Node) : (qpush n q).length = q.length + 1 := by
  induction q with
  | nil => rfl
  | cons m q ih =>
      unfold qpush
      by_cases h : m.frequency ≤ n.frequency <;> simp [h, ih]

/-- The merge loop of `build_huffman_tree` (`encoder.cpp` lines 32-46), with
a structural iteration bound: while more than one node remains, pop the two
minima, combine them under a parent whose frequency is their sum (left child
the first popped), and push the parent back.  A queue of `n` nodes needs
exactly `n - 1` merges, so any fuel of at least `n - 1` computes the loop's
result; the zero-fuel filler case is unreachable then.  The C++ `top` on an
empty queue is undefined behaviour; the empty case is totalized with a
default node, unreachable from nonempty frequency tables. -/
def huffLoopF : Nat → List Node → Node
  | _, [] => Node.mk 0 0 none none
  | _, [n] => n
  | 0, n :: _ :: _ => n
  | fuel + 1, a :: b :: rest =>
      huffLoopF fuel (qpush (Node.mk 0 (a.frequency + b.frequency) (some a) (some b)) rest)

/-- The merge loop run with sufficient fuel for its queue. -/
def huffLoop (q : List Node) : Node :=
  huffLoopF q.length q

/-- Embeds `build_huffman_tree` (`encoder.cpp` lines 26-47): push a leaf per
table entry in table order, then run the merge loop. -/
def build_huffman_tree (freqs : List (Nat × Nat)) : Node :=
  huffLoop (freqs.foldl (fun q sf => qpush (Node.mk sf.1 sf.2 none none) q) [])

/-- Total node count held in a traversal stack. -/
def stackMeasure (st : List (Node × List Bool)) : Nat :=
  (st.map (fun p => nodeSize p.1)).sum

/-- The traversal loop of `generate_huffman_codes` (`encoder.cpp` lines
52-68), with a structural iteration bound: an explicit stack of (node,
accumulated code) pairs, the head being the stack top.  A popped node pushes
its left child with `'0'` appended, then its right child with `'1'` appended
(so the right child is processed first), and records its (symbol, code) pair
whenever its symbol is not the null character.  Each iteration consumes one
node, so fuel of at least the stack's total node count computes the loop's
result; the zero-fuel filler case is unreachable then. -/
def codesLoopF : Nat → List (Node × List Bool) → List (Nat × List Bool) → List (Nat × List Bool)
  | 0, _, out => out
  | _ + 1, [], out => out
  | fuel + 1, (Node.mk s _ none none, code) :: rest, out =>
      codesLoopF fuel rest (if s ≠ 0 then out ++ [(s, code)] else out)
  | fuel + 1, (Node.mk s _ (some ln) none, code) :: rest, out =>
      codesLoopF fuel ((ln, code ++ [false]) :: rest) (if s ≠ 0 then out ++ [(s, code)] else out)
  | fuel + 1, (Node.mk s _ none (some rn), code) :: rest, out =>
      codesLoopF fuel ((rn, code ++ [true]) :: rest) (if s ≠ 0 then out ++ [(s, code)] else out)
  | fuel + 1, (Node.mk s _ (some ln) (some rn), code) :: rest, out =>
      codesLoopF fuel ((rn, code ++ [true]) :: (ln, code ++ [false]) :: rest)
        (if s ≠ 0 then out ++ [(s, code)] else out)

/-- The traversal loop run with sufficient fuel for its stack. -/
def codesLoop (st : List (Node × List Bool)) (out : List (Nat × List Bool)) :
    List (Nat × List Bool) :=
  codesLoopF (stackMeasure st) st out

/-- The comparator passed to `std::sort` in `generate_huffman_codes`
(`encoder.cpp` lines 70-76), as the reflexive total order it induces: by code
length, then by symbol value. -/
def codeLE (l r : Nat × List Bool) : Prop :=
  l.2.length < r.2.length ∨ (l.2.length = r.2.length ∧ l.1 ≤ r.1)

instance : DecidableRel codeLE := fun l r => by
  unfold codeLE
  infer_instance

instance : IsTotal (Nat × List Bool) codeLE :=
  ⟨by
    intro a b
    unfold codeLE
    omega⟩

instance : IsTrans (Nat × List Bool) codeLE :=
  ⟨by
    intro a b c hab hbc
    unfold codeLE at hab hbc ⊢
    omega⟩

/-- Embeds `generate_huffman_codes` (`encoder.cpp` lines 49-79): traverse from
the root with the empty code, then sort by (length, symbol).  `std::sort`
yields some permutation sorted under the comparator; it is determinized as
insertion sort, which agrees with it whenever no two entries tie (the
pipeline's entries have pairwise distinct symbols). -/
def generate_huffman_codes (root : Node) : List (Nat × List Bool) :=
  List.insertionSort codeLE (codesLoop [(root, [])] [])

/-- The body of the `next_binary` loop (`encoder.cpp` lines 88-97), with the
state passed explicitly: the bit string, the carry, and the one-based
index from the end of the string.  The extra `fuel` argument is a structural
bound on the remaining iterations; called with at least `length + 2` fuel it
never runs out, as the loop makes at most `length + 2` iterations from its
entry state (it stops at the first cleared bit or one step after growing the
string).  Reading past the front of the string, undefined behaviour in the
C++ on an empty string, is totalized by `getD`. -/
def nbLoop : Nat → List Bool → Nat → Nat → List Bool
  | 0, number, _, _ => number
  | fuel + 1, number, carry, index =>
      if index ≤ 1 + carry then
        if 0 < carry ∧ number.length < index then
          nbLoop fuel (true :: number) (carry - 1) (index + 1)
        else
          let pos := number.length - index
          let last := number.getD pos false
          nbLoop fuel (number.set pos (!last)) (if last then carry + 1 else carry) (index + 1)
      else number

/-- Embeds `next_binary` (`encoder.cpp` lines 81-100): run the carry loop from
carry 0 and index 1. -/
def next_binary (number : List Bool) : List Bool :=
  nbLoop (number.length + 2) number 0 1

/-- The trailing zero-padding of `generate_canonical_codes` (`encoder.cpp`
line 114): append `'0'` while the code is shorter than the target length. -/
def padCode (code : List Bool) (target : Nat) : List Bool :=
  code ++ List.replicate (target - code.length) false

/-- The successor loop of `generate_canonical_codes` (`encoder.cpp` lines
110-118): each remaining entry receives the padded successor of the
previously assigned code. -/
def canonLoop : List (Nat × List Bool) → List Bool → List (Nat × List Bool)
  | [], _ => []
  | (s, raw) :: rest, last_code =>
      let cur := padCode (next_binary last_code) raw.length
      (s, cur) :: canonLoop rest cur

/-- Embeds `generate_canonical_codes` (`encoder.cpp` lines 102-121): the first
entry receives the all-zero code of its raw length, each following entry the
padded successor of its predecessor.  `front()` on an empty vector is
undefined behaviour in the C++; the empty case is totalized as the empty
table. -/
def generate_canonical_codes (huffman_codes : List (Nat × List Bool)) : List (Nat × List Bool) :=
  match huffman_codes with
  | [] => []
  | (s, raw) :: rest =>
      let first := List.replicate raw.length false
      (s, first) :: canonLoop rest first

/-- Value of a big-endian bit string, as computed by `std::stoi(buffer,
nullptr, 2)` on a `'0'`/`'1'` string. -/
def byteOfBits (bs : List Bool) : Nat :=
  bs.foldl (fun a b => 2 * a + b.toNat) 0

/-- One step of the shared bit-packing idiom (`encoder.cpp` lines 140-145,
165-170, 174-179): append a bit to the buffer; once the buffer holds 8 bits,
flush it as a byte.  The state is (bytes so far, pending buffer). -/
def pushBit (st : List Nat × List Bool) (bit : Bool) : List Nat × List Bool :=
  let buffer := st.2 ++ [bit]
  if buffer.length % 8 = 0 then (st.1 ++ [byteOfBits buffer], []) else (st.1, buffer)

/-- Push a sequence of bits through the packing state. -/
def pushBits (st : List Nat × List Bool) (bits : List Bool) : List Nat × List Bool :=
  bits.foldl pushBit st

/-- The final flush (`encoder.cpp` lines 148-151, 181-184): a nonempty pending
buffer is zero-padded to 8 bits and emitted. -/
def flushPad (st : List Nat × List Bool) : List Nat :=
  if st.2.length % 8 ≠ 0 then
    st.1 ++ [byteOfBits (st.2 ++ List.replicate (8 - st.2.length % 8) false)]
  else st.1

/-- Big-endian rendering of `n` on `w` bits, as produced by
`std::bitset<MAX_BITS>(n).to_string().substr(MAX_BITS - w)`: the low `w` bits
of `n`, most significant first.  The `substr` requires `w ≤ MAX_BITS` in the
C++; the claims proved below stay within that range. -/
def natToBits : Nat → Nat → List Bool
  | 0, _ => []
  | w + 1, n => natToBits w (n / 2) ++ [n % 2 == 1]

/-- Ensure a key is present, modelling the table mutation performed by
`code_table[character]` (`encoder.cpp` line 137) on a
`std::unordered_map<char, std::string>`: a missing key is inserted with the
empty string, a present key is untouched. -/
def alistEnsure (s : Nat) (t : List (Nat × List Bool)) : List (Nat × List Bool) :=
  if (t.lookup s).isSome then t else t ++ [(s, [])]

/-- The symbols the header loop ranges over (`encoder.cpp` line 136): every
symbol from `FIRST_CHARACTER` up to, excluding, `SUPPORTED_CHARACTERS`. -/
def alphabetChars : List Nat :=
  List.range' FIRST_CHARACTER (SUPPORTED_CHARACTERS - FIRST_CHARACTER)

/-- The per-symbol loop of `encode_codes_length` (`encoder.cpp` lines
136-146): look up the symbol's code length (inserting an empty code for a
missing symbol), render it on `bit_count` bits, and push those bits through
the packing state. -/
def eclLoop (w : Nat) : List Nat → List (Nat × List Bool) → (List Nat × List Bool) →
    (List (Nat × List Bool)) × (List Nat × List Bool)
  | [], table, st => (table, st)
  | c :: rest, table, st =>
      let code_length := ((table.lookup c).getD []).length
      eclLoop w rest (alistEnsure c table) (pushBits st (natToBits w code_length))

/-- Largest code length in the table (`encoder.cpp` lines 127-131): the fold
keeps the running maximum (`continue` on a strictly smaller length,
reassignment otherwise). -/
def largestCodeLength (code_table : List (Nat × List Bool)) : Nat :=
  code_table.foldl (fun m p => if p.2.length < m then m else p.2.length) 0

/-- Embeds `encode_codes_length` (`encoder.cpp` lines 123-154): one byte
holding `bit_count = floor(log2(largest)) + 1`, then the packed length
fields, the final partial byte zero-padded.  Returns the output bytes
together with the mutated table.  `std::log2(0)` is undefined in the C++
(the cast of its negative-infinite result is unspecified); `Nat.log2 0 = 0`
totalizes that case, and the claims below require a positive largest
length. -/
def encode_codes_length (code_table : List (Nat × List Bool)) :
    List Nat × List (Nat × List Bool) :=
  let bit_count := flog2 (largestCodeLength code_table) + 1
  let res := eclLoop bit_count alphabetChars code_table ([bit_count], [])
  (flushPad res.2, res.1)

/-- Embeds `encode_content` (`encoder.cpp` lines 156-187): re-read the lines,
push each symbol's code bits (a missing symbol contributes the empty code,
matching the map's default insertion), then the end-of-stream code, then
zero-pad and flush the final byte. -/
def encode_content (lines : List (List Nat)) (code_table : List (Nat × List Bool)) : List Nat :=
  let afterText :=
    (contentSymbols lines).foldl (fun st c => pushBits st ((code_table.lookup c).getD [])) ([], [])
  flushPad (pushBits afterText ((code_table.lookup END_OF_TEXT).getD []))

/-- Embeds `create_compressed_file` (`encoder.cpp` lines 189-210): the full
pipeline, producing the bytes written to the output stream (header bytes,
then content bytes), or the unsupported symbol that aborted the encode. -/
def create_compressed_file (lines : List (List Nat)) : Except Nat (List Nat) :=
  match extract_frequencies lines with
  | .error c => .error c
  | .ok frequencies =>
      let tree := build_huffman_tree frequencies
      let huffman_codes := generate_huffman_codes tree
      let canonical_codes := generate_canonical_codes huffman_codes
      let (encoded_codes, table) := encode_codes_length canonical_codes
      let encoded_content := encode_content lines table
      .ok (encoded_codes ++ encoded_content)

/-- Unsigned binary successor of a least-significant-bit-first bit string, as
the spec describes it (section 4.4): flip trailing set bits while the carry
propagates, set the first cleared bit, and append a set bit (a prepended
`1` in most-significant-first order) when the carry passes the last bit. -/
def binSuccRev : List Bool → List Bool
  | [] => [true]
  | false :: rest => true :: rest
  | true :: rest => false :: binSuccRev rest

/-- Unsigned binary successor of a most-significant-bit-first bit string,
following the spec's words: carry propagation from the least significant bit,
growing the string by a prepended `1` exactly when the carry passes the most
significant bit. -/
def binSucc (bs : List Bool) : List Bool :=
  (binSuccRev bs.reverse).reverse

/-- The canonical-code assignment exactly as the spec words it (sections 4.4
and the C3 claim): the first symbol receives the all-zero code of its raw
length, and each subsequent symbol receives the unsigned-binary successor of
the previously assigned code, right-padded with `0` bits up to its raw
length. -/
def canonicalSpecLoop : List (Nat × List Bool) → List Bool → List (Nat × List Bool)
  | [], _ => []
  | (s, raw) :: rest, last_code =>
      let cur := padCode (binSucc last_code) raw.length
      (s, cur) :: canonicalSpecLoop rest cur

/-- Top level of the spec-worded canonical-code assignment. -/
def canonicalSpec (huffman_codes : List (Nat × List Bool)) : List (Nat × List Bool) :=
  match huffman_codes with
  | [] => []
  | (s, raw) :: rest =>
      let first := List.replicate raw.length false
      (s, first) :: canonicalSpecLoop rest first

/-- Bit stream packed into bytes: chunks of eight bits become one byte each,
a final partial chunk is zero-padded to eight bits.  This is the
specification-level description of the buffer-and-flush idiom. -/
def bytePack : List Bool → List Nat
  | [] => []
  | [b0] => [byteOfBits [b0, false, false, false, false, false, false, false]]
  | [b0, b1] => [byteOfBits [b0, b1, false, false, false, false, false, false]]
  | [b0, b1, b2] => [byteOfBits [b0, b1, b2, false, false, false, false, false]]
  | [b0, b1, b2, b3] => [byteOfBits [b0, b1, b2, b3, false, false, false, false]]
  | [b0, b1, b2, b3, b4] => [byteOfBits [b0, b1, b2, b3, b4, false, false, false]]
  | [b0, b1, b2, b3, b4, b5] => [byteOfBits [b0, b1, b2, b3, b4, b5, false, false]]
  | [b0, b1, b2, b3, b4, b5, b6] => [byteOfBits [b0, b1, b2, b3, b4, b5, b6, false]]
  | b0 :: b1 :: b2 :: b3 :: b4 :: b5 :: b6 :: b7 :: rest =>
      byteOfBits [b0, b1, b2, b3, b4, b5, b6, b7] :: bytePack rest

/-- Well-formed encoder tree: a node is either a leaf carrying a non-null
symbol with no children, or an inner node carrying the null symbol with
exactly two children.  Every tree `build_huffman_tree` makes from a table of
non-null symbols has this shape. -/
def WFTree : Node → Prop
  | .mk s _ none none => s ≠ 0
  | .mk s _ (some l) (some r) => s = 0 ∧ WFTree l ∧ WFTree r
  | .mk _ _ (some _) none => False
  | .mk _ _ none (some _) => False

/-- Strict binary tree: every inner node has exactly two children. -/
def StrictBinary : Node → Prop
  | .mk _ _ none none => True
  | .mk _ _ (some l) (some r) => StrictBinary l ∧ StrictBinary r
  | .mk _ _ (some _) none => False
  | .mk _ _ none (some _) => False

/-- Inner-node weights are consistent: each inner node's frequency is the sum
of its children's. -/
def WeightsConsistent : Node → Prop
  | .mk _ _ none none => True
  | .mk _ f (some l) (some r) =>
      f = l.frequency + r.frequency ∧ WeightsConsistent l ∧ WeightsConsistent r
  | .mk _ _ (some _) none => False
  | .mk _ _ none (some _) => False

/-- Height of a tree: the largest leaf depth. -/
def treeDepth : Node → Nat
  | .mk _ _ none none => 0
  | .mk _ _ (some l) (some r) => max (treeDepth l) (treeDepth r) + 1
  | .mk _ _ (some l) none => treeDepth l + 1
  | .mk _ _ none (some r) => treeDepth r + 1

/-- Root-to-leaf paths of a tree, each leaf paired with the path bit string
from the given accumulated code: `false` for a left edge, `true` for a right
edge, so a path's length is the leaf's depth. -/
def leafPaths : Node → List Bool → List (Nat × List Bool)
  | .mk s _ none none, code => [(s, code)]
  | .mk _ _ (some l) (some r), code =>
      leafPaths l (code ++ [false]) ++ leafPaths r (code ++ [true])
  | .mk _ _ (some l) none, code => leafPaths l (code ++ [false])
  | .mk _ _ none (some r), code => leafPaths r (code ++ [true])

/-- The entries the traversal loop emits for one node, in its processing
order: the node itself when its symbol is non-null, then the right subtree,
then the left subtree. -/
def emitRF : Node → List Bool → List (Nat × List Bool)
  | .mk s _ none none, code => if s ≠ 0 then [(s, code)] else []
  | .mk s _ (some l) none, code =>
      (if s ≠ 0 then [(s, code)] else []) ++ emitRF l (code ++ [false])
  | .mk s _ none (some r), code =>
      (if s ≠ 0 then [(s, code)] else []) ++ emitRF r (code ++ [true])
  | .mk s _ (some l) (some r), code =>
      (if s ≠ 0 then [(s, code)] else []) ++
        emitRF r (code ++ [true]) ++ emitRF l (code ++ [false])

/-- Leaf (symbol, weight) pairs of a tree, left to right. -/
def leafSyms : Node → List (Nat × Nat)
  | .mk s f none none => [(s, f)]
  | .mk _ _ (some l) (some r) => leafSyms l ++ leafSyms r
  | .mk _ _ (some l) none => leafSyms l
  | .mk _ _ none (some r) => leafSyms r

/-- Leaf (weight, depth) pairs of a tree, the depth counted from the given
starting depth. -/
def leafWD : Node → Nat → List (Nat × Nat)
  | .mk _ f none none, d => [(f, d)]
  | .mk _ _ (some l) (some r), d => leafWD l (d + 1) ++ leafWD r (d + 1)
  | .mk _ _ (some l) none, d => leafWD l (d + 1)
  | .mk _ _ none (some r), d => leafWD r (d + 1)

/-- Weighted external path length of a tree: the sum over its leaves of
weight times depth. -/
def WEPL (t : Node) : Nat :=
  ((leafWD t 0).map (fun p => p.1 * p.2)).sum

/-- Modelled from the spec: decoding is a stated non-goal of the repository
(spec section 1) and no decoder exists in the sources; the claims describe it
as splitting the bytes back into bits, eight per byte, most significant
first. -/
def bytesToBits (bytes : List Nat) : List Bool :=
  (bytes.map (natToBits 8)).flatten

/-- Modelled from the spec: the decoder's header parse (spec sections 4.5 and
6).  From the bit-unpacked header segment, read the `i`-th `w`-bit big-endian
field as the code length of the `i`-th alphabet symbol. -/
def headerLengths (w : Nat) (bits : List Bool) : List (Nat × Nat) :=
  (List.range alphabetChars.length).map
    (fun i => (FIRST_CHARACTER + i, byteOfBits ((bits.drop (i * w)).take w)))

/-- Modelled from the spec: canonical-code reconstruction from the length
table alone (spec glossary and section 8).  Symbols whose length field is
zero did not receive a code; the remaining symbols, sorted by (length,
symbol), are reassigned codes by the canonical procedure, which depends only
on lengths. -/
def tableFromLengths (lengths : List (Nat × Nat)) : List (Nat × List Bool) :=
  generate_canonical_codes
    (List.insertionSort codeLE
      ((lengths.filter (fun p => p.2 ≠ 0)).map
        (fun p => (p.1, List.replicate p.2 false))))

/-- Modelled from the spec: the decoder's content loop (spec sections 4.6 and
8).  Repeatedly match the unique table entry whose code starts the remaining
bit stream; the end-of-stream symbol terminates decoding, any other symbol is
output.  The fuel argument bounds the iterations; each match consumes at
least one bit, so fuel exceeding the stream length never runs out. -/
def decodeLoop : Nat → List (Nat × List Bool) → List Bool → Option (List Nat)
  | 0, _, _ => none
  | fuel + 1, table, bits =>
      match table.find? (fun p => p.2.isPrefixOf bits && !p.2.isEmpty) with
      | none => none
      | some (s, c) =>
          if s = END_OF_TEXT then some []
          else (decodeLoop fuel table (bits.drop c.length)).map (fun out => s :: out)

/-- Modelled from the spec: the whole decoding procedure the C1 claim
describes.  Byte 0 is the field width `w`; the next `ceil(A * w / 8)` bytes
are the header segment, whose fields rebuild the canonical table; the
remaining bytes are the content segment, bit-unpacked until the end-of-stream
code is read. -/
def decode_output (bytes : List Nat) : Option (List Nat) :=
  match bytes with
  | [] => none
  | w :: rest =>
      let a := alphabetChars.length
      let headerBytes := (a * w + 7) / 8
      let table := tableFromLengths (headerLengths w (bytesToBits (rest.take headerBytes)))
      let content := bytesToBits (rest.drop headerBytes)
      decodeLoop (content.length + 1) table content

/-- The scaled-separation relation between canonical code entries: the value
interval of the earlier code, widened to scale `L`, lies entirely below the
later code's. -/
def sepAt (L : Nat) (a b : Nat × List Bool) : Prop :=
  (byteOfBits a.2 + 1) * 2 ^ (L - a.2.length) ≤ byteOfBits b.2 * 2 ^ (L - b.2.length)

/-- The projection of `codeLE` to (symbol, length) pairs. -/
def klE (a b : Nat × Nat) : Prop :=
  a.2 < b.2 ∨ (a.2 = b.2 ∧ a.1 ≤ b.1)

instance : IsAntisymm (Nat × Nat) klE :=
  ⟨by
    intro a b hab hba
    obtain ⟨a1, a2⟩ := a
    obtain ⟨b1, b2⟩ := b
    unfold klE at hab hba
    simp only at hab hba
    have h2 : a2 = b2 := by omega
    have h1 : a1 = b1 := by omega
    rw [h1, h2]⟩

/-- Weight-level view of the queue insertion of `qpush` on frequencies: a
pushed weight goes after every queued weight less than or equal to it. -/
def winsert (w : Nat) : List Nat → List Nat
  | [] => [w]
  | v :: q => if v ≤ w then v :: winsert w q else w :: v :: q

/-- The sorted weight queue the initial pushes of `build_huffman_tree`
build, at the weight level. -/
def wqueue (ws : List Nat) : List Nat :=
  ws.foldl (fun q w => winsert w q) []

/-- Weight-level view of the merge loop of `build_huffman_tree`: the cost it
accumulates is the sum, over the merge steps, of the two merged weights,
which below is shown to equal the built tree's weighted external path
length.  The fuel argument is a structural bound on the iterations; fuel at
least the queue length never runs out. -/
def hqueue : Nat → List Nat → Nat
  | _, [] => 0
  | _, [_] => 0
  | 0, _ :: _ :: _ => 0
  | fuel + 1, x :: y :: rest => (x + y) + hqueue fuel (winsert (x + y) rest)

/-! ## Basic arithmetic and bit-string lemmas -/

theorem log2F_eq (fuel n : Nat) (h : n ≤ fuel) : log2F fuel n = Nat.log2 n := by
  induction fuel generalizing n with
  | zero =>
      have hn : n = 0 := by omega
      subst hn
      rw [Nat.log2]
      simp [log2F]
  | succ fuel ih =>
      rw [log2F]
      rw [Nat.log2]
      by_cases h2 : n ≥ 2
      · simp only [h2, if_true]
        rw [ih (n / 2) (by omega)]
      · simp [h2]

theorem flog2_eq (n : Nat) : flog2 n = Nat.log2 n :=
  log2F_eq n n (Nat.le_refl n)

theorem natToBits_length (w n : Nat) : (natToBits w n).length = w := by
  induction w generalizing n with
  | zero => rfl
  | succ w ih => simp [natToBits, ih]

theorem byteOfBits_foldl (a : Nat) (bs : List Bool) :
    bs.foldl (fun x b => 2 * x + b.toNat) a = a * 2 ^ bs.length + byteOfBits bs := by
  induction bs generalizing a with
  | nil => simp [byteOfBits]
  | cons b bs ih =>
      simp only [List.foldl_cons, byteOfBits, List.length_cons, Nat.mul_zero, Nat.zero_add]
      rw [ih (2 * a + b.toNat), ih b.toNat]
      ring

theorem byteOfBits_append (xs ys : List Bool) :
    byteOfBits (xs ++ ys) = byteOfBits xs * 2 ^ ys.length + byteOfBits ys := by
  unfold byteOfBits
  rw [List.foldl_append]
  exact byteOfBits_foldl _ ys

theorem byteOfBits_lt (bs : List Bool) : byteOfBits bs < 2 ^ bs.length := by
  induction bs with
  | nil => simp [byteOfBits]
  | cons b bs ih =>
      have h : byteOfBits (b :: bs) = b.toNat * 2 ^ bs.length + byteOfBits bs := by
        have h2 : (b :: bs) = [b] ++ bs := rfl
        rw [h2, byteOfBits_append]
        have h3 : byteOfBits [b] = b.toNat := by cases b <;> rfl
        rw [h3]
      rw [h]
      have hb : b.toNat ≤ 1 := by cases b <;> simp
      have h2 : (2 : Nat) ^ (b :: bs).length = 2 * 2 ^ bs.length := by
        rw [List.length_cons]
        ring
      rw [h2]
      nlinarith

theorem byteOfBits_replicate_false (k : Nat) : byteOfBits (List.replicate k false) = 0 := by
  induction k with
  | zero => rfl
  | succ k ih =>
      rw [List.replicate_succ]
      have h2 : (false :: List.replicate k false) = [false] ++ List.replicate k false := rfl
      rw [h2, byteOfBits_append, ih]
      simp [byteOfBits]

theorem byteOfBits_natToBits (w n : Nat) : byteOfBits (natToBits w n) = n % 2 ^ w := by
  induction w generalizing n with
  | zero => simp [natToBits, byteOfBits, Nat.mod_one]
  | succ w ih =>
      rw [natToBits, byteOfBits_append, ih]
      have hbit : byteOfBits [n % 2 == 1] = n % 2 := by
        rcases Nat.mod_two_eq_zero_or_one n with h | h <;> simp [h, byteOfBits]
      rw [hbit]
      have hlen : ([n % 2 == 1] : List Bool).length = 1 := rfl
      rw [hlen]
      have key : n % 2 ^ (w + 1) = 2 * (n / 2 % 2 ^ w) + n % 2 := by
        have hdiv := Nat.div_add_mod (n / 2) (2 ^ w)
        have h2 : n % 2 < 2 := Nat.mod_lt _ (by omega)
        have h3 : n / 2 % 2 ^ w < 2 ^ w := Nat.mod_lt _ (by positivity)
        have hsplit : n = (2 * 2 ^ w) * (n / 2 / 2 ^ w) + (2 * (n / 2 % 2 ^ w) + n % 2) := by
          calc n = 2 * (n / 2) + n % 2 := (Nat.div_add_mod n 2).symm
            _ = 2 * (2 ^ w * (n / 2 / 2 ^ w) + n / 2 % 2 ^ w) + n % 2 := by rw [hdiv]
            _ = (2 * 2 ^ w) * (n / 2 / 2 ^ w) + (2 * (n / 2 % 2 ^ w) + n % 2) := by ring
        have hpow : (2 : Nat) ^ (w + 1) = 2 * 2 ^ w := by ring
        rw [hpow]
        conv_lhs => rw [hsplit]
        rw [Nat.mul_add_mod]
        exact Nat.mod_eq_of_lt (by omega)
      omega

theorem natToBits_eq_of_lt {w n : Nat} (h : n < 2 ^ w) :
    byteOfBits (natToBits w n) = n := by
  rw [byteOfBits_natToBits]
  exact Nat.mod_eq_of_lt h

/-! ## Association-list lemmas -/

theorem lookup_cons_eq {β : Type} (k : Nat) (v : β) (t : List (Nat × β)) :
    List.lookup k ((k, v) :: t) = some v := by
  simp [List.lookup]

theorem lookup_cons_ne {β : Type} {a k : Nat} (h : a ≠ k) (v : β) (t : List (Nat × β)) :
    List.lookup a ((k, v) :: t) = List.lookup a t := by
  have hb : (a == k) = false := beq_eq_false_iff_ne.mpr h
  simp [List.lookup, hb]

theorem lookup_alistIncr_self (t : List (Nat × Nat)) (s : Nat) :
    (alistIncr t s).lookup s = some ((t.lookup s).getD 0 + 1) := by
  induction t with
  | nil => simp [alistIncr, lookup_cons_eq, List.lookup]
  | cons p t ih =>
      obtain ⟨k, v⟩ := p
      by_cases h : k = s
      · subst h
        rw [alistIncr, if_pos rfl, lookup_cons_eq, lookup_cons_eq]
        rfl
      · rw [alistIncr, if_neg h, lookup_cons_ne (fun hh => h hh.symm),
          lookup_cons_ne (fun hh => h hh.symm)]
        exact ih

theorem lookup_alistIncr_ne (t : List (Nat × Nat)) {s c : Nat} (h : c ≠ s) :
    (alistIncr t s).lookup c = t.lookup c := by
  induction t with
  | nil =>
      simp only [alistIncr]
      rw [lookup_cons_ne h]
  | cons p t ih =>
      obtain ⟨k, v⟩ := p
      by_cases hk : k = s
      · subst hk
        rw [alistIncr, if_pos rfl]
        rw [lookup_cons_ne h, lookup_cons_ne h]
      · rw [alistIncr, if_neg hk]
        by_cases hc : c = k
        · subst hc
          rw [lookup_cons_eq, lookup_cons_eq]
        · rw [lookup_cons_ne hc, lookup_cons_ne hc]
          exact ih

theorem foldl_alistIncr_lookup (cs : List Nat) :
    ∀ (t : List (Nat × Nat)) (s : Nat),
      ((cs.foldl alistIncr t).lookup s) =
        if (t.lookup s).isSome ∨ s ∈ cs then some ((t.lookup s).getD 0 + cs.count s)
        else none := by
  induction cs with
  | nil =>
      intro t s
      by_cases h : (t.lookup s).isSome
      · obtain ⟨v, hv⟩ := Option.isSome_iff_exists.mp h
        simp [hv, List.count_nil]
      · have hnone : t.lookup s = none := Option.not_isSome_iff_eq_none.mp h
        simp [hnone]
  | cons c cs ih =>
      intro t s
      rw [List.foldl_cons, ih (alistIncr t c) s]
      by_cases hcs : c = s
      · subst hcs
        rw [lookup_alistIncr_self]
        have hcount : (c :: cs).count c = cs.count c + 1 := by
          simp [List.count_cons]
        simp [hcount]
        omega
      · rw [lookup_alistIncr_ne t (fun hh => hcs hh.symm)]
        have hcount : (c :: cs).count s = cs.count s := by
          simp [List.count_cons, hcs]
        rw [hcount]
        have hmem : (s ∈ c :: cs) ↔ (s ∈ cs) := by
          constructor
          · intro hh
            rcases List.mem_cons.mp hh with rfl | hh
            · exact absurd rfl hcs
            · exact hh
          · exact fun hh => List.mem_cons_of_mem c hh
        by_cases hif : (t.lookup s).isSome ∨ s ∈ cs
        · rw [if_pos hif,
            if_pos (by rcases hif with h | h; exact Or.inl h; exact Or.inr (hmem.mpr h))]
        · rw [if_neg hif,
            if_neg (by
              intro hh
              rcases hh with h | h
              · exact hif (Or.inl h)
              · exact hif (Or.inr (hmem.mp h)))]

theorem extractLoop_ok (cs : List Nat) :
    ∀ t, (∀ c ∈ cs, ¬ c < FIRST_CHARACTER) →
      extractLoop cs t = .ok (cs.foldl alistIncr t) := by
  induction cs with
  | nil => intro t _; rfl
  | cons c cs ih =>
      intro t h
      rw [extractLoop]
      rw [if_neg (h c (List.mem_cons_self c cs))]
      exact ih (alistIncr t c) (fun x hx => h x (List.mem_cons_of_mem c hx))

theorem extractLoop_error (cs : List Nat) :
    ∀ t, (∃ e, extractLoop cs t = .error e) ↔ ∃ c ∈ cs, c < FIRST_CHARACTER := by
  induction cs with
  | nil =>
      intro t
      constructor
      · rintro ⟨e, he⟩; cases he
      · rintro ⟨c, hc, _⟩; cases hc
  | cons c cs ih =>
      intro t
      rw [extractLoop]
      by_cases hc : c < FIRST_CHARACTER
      · simp only [if_pos hc]
        constructor
        · intro _; exact ⟨c, List.mem_cons_self c cs, hc⟩
        · intro _; exact ⟨c, rfl⟩
      · simp only [if_neg hc]
        rw [ih (alistIncr t c)]
        constructor
        · rintro ⟨x, hx, hxlt⟩; exact ⟨x, List.mem_cons_of_mem c hx, hxlt⟩
        · rintro ⟨x, hx, hxlt⟩
          rcases List.mem_cons.mp hx with rfl | hx
          · exact absurd hxlt hc
          · exact ⟨x, hx, hxlt⟩

/-! ## Bit-packing lemmas -/

theorem pushBits_append (st : List Nat × List Bool) (a b : List Bool) :
    pushBits st (a ++ b) = pushBits (pushBits st a) b := by
  unfold pushBits
  rw [List.foldl_append]

theorem bytePack_append8 (c8 : List Bool) (rest : List Bool) (h : c8.length = 8) :
    bytePack (c8 ++ rest) = byteOfBits c8 :: bytePack rest := by
  cases c8 with
  | nil => exact absurd h (by simp)
  | cons b0 c =>
  cases c with
  | nil => exact absurd h (by simp)
  | cons b1 c =>
  cases c with
  | nil => exact absurd h (by simp)
  | cons b2 c =>
  cases c with
  | nil => exact absurd h (by simp)
  | cons b3 c =>
  cases c with
  | nil => exact absurd h (by simp)
  | cons b4 c =>
  cases c with
  | nil => exact absurd h (by simp)
  | cons b5 c =>
  cases c with
  | nil => exact absurd h (by simp)
  | cons b6 c =>
  cases c with
  | nil => exact absurd h (by simp)
  | cons b7 c =>
  cases c with
  | cons b8 c => exact absurd h (by simp)
  | nil => rfl

theorem flushPad_pushBits (bits : List Bool) :
    ∀ (out : List Nat) (buf : List Bool), buf.length < 8 →
      flushPad (pushBits (out, buf) bits) = out ++ bytePack (buf ++ bits) := by
  induction bits with
  | nil =>
      intro out buf hlen
      simp only [pushBits, List.foldl_nil, List.append_nil]
      cases buf with
      | nil => simp [flushPad, bytePack]
      | cons b c =>
          rw [flushPad]
          have hb : ((b :: c).length % 8 ≠ 0) := by
            have : (b :: c).length < 8 := hlen
            have hpos : 0 < (b :: c).length := by simp
            omega
          rw [if_pos hb]
          congr 1
          have hlen7 : (b :: c).length ≤ 7 := by omega
          -- the padded partial chunk is exactly the bytePack of the partial buffer
          rcases c with _ | ⟨b1, c⟩
          · rfl
          rcases c with _ | ⟨b2, c⟩
          · rfl
          rcases c with _ | ⟨b3, c⟩
          · rfl
          rcases c with _ | ⟨b4, c⟩
          · rfl
          rcases c with _ | ⟨b5, c⟩
          · rfl
          rcases c with _ | ⟨b6, c⟩
          · rfl
          rcases c with _ | ⟨b7, c⟩
          · rfl
          · simp at hlen7
  | cons b bits ih =>
      intro out buf hlen
      have hstep : pushBits (out, buf) (b :: bits) = pushBits (pushBit (out, buf) b) bits := by
        simp [pushBits]
      rw [hstep]
      by_cases hfull : (buf ++ [b]).length % 8 = 0
      · have h8 : (buf ++ [b]).length = 8 := by
          have : (buf ++ [b]).length = buf.length + 1 := by simp
          omega
        have hpb : pushBit (out, buf) b = (out ++ [byteOfBits (buf ++ [b])], []) := by
          simp only [pushBit]
          rw [if_pos hfull]
        rw [hpb, ih _ [] (by simp)]
        have hassoc : buf ++ b :: bits = (buf ++ [b]) ++ bits := by simp
        rw [hassoc, bytePack_append8 _ _ h8]
        simp
      · have hpb : pushBit (out, buf) b = (out, buf ++ [b]) := by
          simp only [pushBit]
          rw [if_neg hfull]
        have hlt : (buf ++ [b]).length < 8 := by
          have : (buf ++ [b]).length = buf.length + 1 := by simp
          omega
        rw [hpb, ih _ _ hlt]
        congr 1
        simp

theorem bytePack_length (bits : List Bool) :
    (bytePack bits).length = (bits.length + 7) / 8 := by
  induction bits using bytePack.induct with
  | case1 => simp [bytePack]
  | case2 _ => simp [bytePack]
  | case3 _ _ => simp [bytePack]
  | case4 _ _ _ => simp [bytePack]
  | case5 _ _ _ _ => simp [bytePack]
  | case6 _ _ _ _ _ => simp [bytePack]
  | case7 _ _ _ _ _ _ => simp [bytePack]
  | case8 _ _ _ _ _ _ _ => simp [bytePack]
  | case9 b0 b1 b2 b3 b4 b5 b6 b7 rest ih =>
      rw [bytePack, List.length_cons, ih]
      simp only [List.length_cons]
      omega

/-! ## Header-loop lemmas -/

theorem lookup_append_single {β : Type} (t : List (Nat × β)) (c : Nat) (v : β) (s : Nat) :
    (t ++ [(c, v)]).lookup s = ((t.lookup s).orElse (fun _ => List.lookup s [(c, v)])) := by
  induction t with
  | nil => simp [List.lookup, Option.orElse]
  | cons p t ih =>
      obtain ⟨k, w⟩ := p
      by_cases hk : s = k
      · subst hk
        simp [lookup_cons_eq, Option.orElse]
      · rw [List.cons_append, lookup_cons_ne hk, lookup_cons_ne hk, ih]

theorem lookup_alistEnsure_ne (t : List (Nat × List Bool)) {c s : Nat} (h : s ≠ c) :
    (alistEnsure c t).lookup s = t.lookup s := by
  unfold alistEnsure
  by_cases hsome : (t.lookup c).isSome
  · rw [if_pos hsome]
  · rw [if_neg hsome, lookup_append_single]
    rw [lookup_cons_ne h]
    cases hx : t.lookup s <;> simp [Option.orElse, List.lookup]

theorem lookup_alistEnsure_self (t : List (Nat × List Bool)) (c : Nat) :
    (alistEnsure c t).lookup c = some ((t.lookup c).getD []) := by
  unfold alistEnsure
  by_cases hsome : (t.lookup c).isSome
  · rw [if_pos hsome]
    obtain ⟨v, hv⟩ := Option.isSome_iff_exists.mp hsome
    simp [hv]
  · rw [if_neg hsome, lookup_append_single]
    have hnone : t.lookup c = none := Option.not_isSome_iff_eq_none.mp hsome
    simp [hnone, lookup_cons_eq, Option.orElse]

theorem foldl_alistEnsure_lookup (chars : List Nat) :
    ∀ (t : List (Nat × List Bool)) (c : Nat),
      (chars.foldl (fun tt c' => alistEnsure c' tt) t).lookup c =
        if c ∈ chars then some ((t.lookup c).getD []) else t.lookup c := by
  induction chars with
  | nil => intro t c; simp
  | cons c' rest ih =>
      intro t c
      rw [List.foldl_cons, ih (alistEnsure c' t) c]
      by_cases hc : c = c'
      · subst hc
        rw [lookup_alistEnsure_self]
        by_cases hmem : c ∈ rest
        · rw [if_pos hmem, if_pos (List.mem_cons_self c rest)]
          simp
        · rw [if_neg hmem, if_pos (List.mem_cons_self c rest)]
      · rw [lookup_alistEnsure_ne t hc]
        by_cases hmem : c ∈ rest
        · rw [if_pos hmem, if_pos (List.mem_cons_of_mem c' hmem)]
        · rw [if_neg hmem, if_neg (by
            intro hh
            rcases List.mem_cons.mp hh with h1 | h1
            · exact hc h1
            · exact hmem h1)]

theorem eclLoop_spec (w : Nat) (chars : List Nat) :
    ∀ (t : List (Nat × List Bool)) (st : List Nat × List Bool), chars.Nodup →
      eclLoop w chars t st =
        (chars.foldl (fun tt c => alistEnsure c tt) t,
         pushBits st
           ((chars.map (fun c => natToBits w (((t.lookup c).getD []).length))).flatten)) := by
  induction chars with
  | nil => intro t st _; simp [eclLoop, pushBits]
  | cons c rest ih =>
      intro t st hnd
      have hndrest : rest.Nodup := (List.nodup_cons.mp hnd).2
      have hcnotin : c ∉ rest := (List.nodup_cons.mp hnd).1
      rw [eclLoop, ih (alistEnsure c t) _ hndrest]
      have hmap :
          (rest.map (fun x => natToBits w (((alistEnsure c t).lookup x).getD []).length)) =
            rest.map (fun x => natToBits w (((t.lookup x).getD []).length)) :=
        List.map_congr_left
          (fun x hx => by
            rw [lookup_alistEnsure_ne t (fun hh => hcnotin (by rw [← hh]; exact hx))])
      rw [hmap, List.foldl_cons, List.map_cons, List.flatten_cons, pushBits_append]

theorem alphabetChars_nodup : alphabetChars.Nodup :=
  List.nodup_range' _ _

theorem encode_codes_length_eq (t : List (Nat × List Bool)) :
    encode_codes_length t =
      ((Nat.log2 (largestCodeLength t) + 1) ::
        bytePack
          ((alphabetChars.map
            (fun c => natToBits (Nat.log2 (largestCodeLength t) + 1)
              (((t.lookup c).getD []).length))).flatten),
       alphabetChars.foldl (fun tt c => alistEnsure c tt) t) := by
  simp only [encode_codes_length]
  rw [flog2_eq]
  rw [eclLoop_spec _ alphabetChars t _ alphabetChars_nodup]
  rw [flushPad_pushBits _ _ [] (by simp)]
  simp

/-! ## Largest-length and alphabet lemmas -/

theorem largestFoldl_ge_init (t : List (Nat × List Bool)) :
    ∀ m : Nat, m ≤ t.foldl (fun m p => if p.2.length < m then m else p.2.length) m := by
  induction t with
  | nil => intro m; simp
  | cons p t ih =>
      intro m
      rw [List.foldl_cons]
      have h1 : m ≤ (if p.2.length < m then m else p.2.length) := by
        split <;> omega
      exact Nat.le_trans h1 (ih _)

theorem largestCodeLength_ge (t : List (Nat × List Bool)) :
    ∀ p ∈ t, p.2.length ≤ largestCodeLength t := by
  unfold largestCodeLength
  generalize 0 = m
  induction t generalizing m with
  | nil => intro p hp; cases hp
  | cons q t ih =>
      intro p hp
      rcases List.mem_cons.mp hp with rfl | hp
      · rw [List.foldl_cons]
        have h1 : p.2.length ≤ (if p.2.length < m then m else p.2.length) := by
          split <;> omega
        exact Nat.le_trans h1 (largestFoldl_ge_init t _)
      · rw [List.foldl_cons]
        exact ih _ p hp

theorem lookup_mem {β : Type} {t : List (Nat × β)} {c : Nat} {v : β}
    (h : t.lookup c = some v) : (c, v) ∈ t := by
  induction t with
  | nil => cases h
  | cons p t ih =>
      obtain ⟨k, w⟩ := p
      by_cases hk : c = k
      · subst hk
        rw [lookup_cons_eq] at h
        cases h
        exact List.mem_cons_self _ _
      · rw [lookup_cons_ne hk] at h
        exact List.mem_cons_of_mem _ (ih h)

theorem mem_alphabetChars (c : Nat) :
    c ∈ alphabetChars ↔ FIRST_CHARACTER ≤ c ∧ c < SUPPORTED_CHARACTERS := by
  rw [alphabetChars, List.mem_range'_1]
  have h : FIRST_CHARACTER + (SUPPORTED_CHARACTERS - FIRST_CHARACTER) = SUPPORTED_CHARACTERS := by
    decide
  rw [h]

theorem mem_contentSymbols (c : Nat) (lines : List (List Nat)) :
    c ∈ contentSymbols lines ↔ ∃ l ∈ lines, c ∈ l ++ [NEW_LINE] := by
  rw [contentSymbols, List.mem_flatten]
  constructor
  · rintro ⟨x, hx, hcx⟩
    obtain ⟨l, hl, rfl⟩ := List.mem_map.mp hx
    exact ⟨l, hl, hcx⟩
  · rintro ⟨l, hl, hcl⟩
    exact ⟨l ++ [NEW_LINE], List.mem_map.mpr ⟨l, hl, rfl⟩, hcl⟩

/-- The claim C4 names the alphabet size `A`; it is the number of symbols the
header loop ranges over. -/
theorem alphabetChars_length : alphabetChars.length = SUPPORTED_CHARACTERS - FIRST_CHARACTER := by
  rw [alphabetChars, List.length_range']

/-- Every length field the header stores fits its width: each table entry's
code length is at most the largest code length, which is below
`2 ^ (log2 + 1)`. -/
theorem table_length_lt_pow (t : List (Nat × List Bool)) (c : Nat) :
    ((t.lookup c).getD []).length < 2 ^ (Nat.log2 (largestCodeLength t) + 1) := by
  have hmax : ((t.lookup c).getD []).length ≤ largestCodeLength t := by
    cases hl : t.lookup c with
    | none => simp
    | some v =>
        have hmem : (c, v) ∈ t := lookup_mem hl
        simpa using largestCodeLength_ge t (c, v) hmem
  have hlt : largestCodeLength t < 2 ^ (Nat.log2 (largestCodeLength t) + 1) :=
    Nat.lt_log2_self
  omega

/-! ## Claim C4: the header layout -/

/-- Claim C4: for every canonical code table whose largest code length is at
least 1, the bytes `encode_codes_length` produces are one byte holding
`w = floor(log2 max_length) + 1` followed by one `w`-bit big-endian
code-length field per alphabet symbol in increasing symbol order, packed
contiguously into bytes with the final partial byte zero-padded, for a total
of `1 + ceil(A * w / 8)` bytes, `A` being the alphabet size. -/
theorem c4_header_layout (t : List (Nat × List Bool)) (hmax : 1 ≤ largestCodeLength t) :
    (encode_codes_length t).1 =
      (Nat.log2 (largestCodeLength t) + 1) ::
        bytePack ((alphabetChars.map
          (fun c => natToBits (Nat.log2 (largestCodeLength t) + 1)
            (((t.lookup c).getD []).length))).flatten)
    ∧ (∀ c ∈ alphabetChars,
        (natToBits (Nat.log2 (largestCodeLength t) + 1) (((t.lookup c).getD []).length)).length =
          Nat.log2 (largestCodeLength t) + 1
        ∧ byteOfBits (natToBits (Nat.log2 (largestCodeLength t) + 1)
            (((t.lookup c).getD []).length)) = ((t.lookup c).getD []).length)
    ∧ (encode_codes_length t).1.length =
        1 + (alphabetChars.length * (Nat.log2 (largestCodeLength t) + 1) + 7) / 8 := by
  refine ⟨?_, ?_, ?_⟩
  · rw [encode_codes_length_eq]
  · intro c _
    exact ⟨natToBits_length _ _, natToBits_eq_of_lt (table_length_lt_pow t c)⟩
  · rw [encode_codes_length_eq]
    simp only [List.length_cons, bytePack_length]
    have hflat : ((alphabetChars.map
        (fun c => natToBits (Nat.log2 (largestCodeLength t) + 1)
          (((t.lookup c).getD []).length))).flatten).length =
        alphabetChars.length * (Nat.log2 (largestCodeLength t) + 1) := by
      rw [List.length_flatten]
      rw [List.map_map]
      have hmap : (alphabetChars.map
          (List.length ∘ fun c => natToBits (Nat.log2 (largestCodeLength t) + 1)
            (((t.lookup c).getD []).length))) =
          alphabetChars.map (fun _ => Nat.log2 (largestCodeLength t) + 1) :=
        List.map_congr_left (fun c _ => natToBits_length _ _)
      rw [hmap, List.map_const']
      rw [List.sum_replicate, smul_eq_mul]
    rw [hflat]
    omega

/-- Witness for C4 at a concrete one-entry table. -/
theorem c4_header_layout_witness :
    1 ≤ largestCodeLength [(97, [true])] ∧
      (encode_codes_length [(97, [true])]).1.length =
        1 + (alphabetChars.length * (Nat.log2 (largestCodeLength [(97, [true])]) + 1) + 7) / 8 :=
  ⟨by decide, (c4_header_layout [(97, [true])] (by decide)).2.2⟩

/-! ## Claim C10: the header encoder's table mutation -/

/-- Claim C10: `encode_codes_length` mutates the table it is given: after the
call every alphabet symbol has an entry, a symbol that had none is now mapped
to the empty code, and every pre-existing entry (inside the alphabet range or
not) keeps its value. -/
theorem c10_table_mutation (t : List (Nat × List Bool)) (c : Nat) :
    (FIRST_CHARACTER ≤ c → c < SUPPORTED_CHARACTERS →
      (encode_codes_length t).2.lookup c = some ((t.lookup c).getD []))
    ∧ ((c < FIRST_CHARACTER ∨ SUPPORTED_CHARACTERS ≤ c) →
      (encode_codes_length t).2.lookup c = t.lookup c) := by
  constructor
  · intro h1 h2
    rw [encode_codes_length_eq]
    simp only
    rw [foldl_alistEnsure_lookup]
    rw [if_pos ((mem_alphabetChars c).mpr ⟨h1, h2⟩)]
  · intro h
    rw [encode_codes_length_eq]
    simp only
    rw [foldl_alistEnsure_lookup]
    rw [if_neg (fun hmem => by
      rcases (mem_alphabetChars c).mp hmem with ⟨ha, hb⟩
      omega)]

/-- Witness for C10 at a concrete table: symbol 12 had no entry and is mapped
to the empty code afterwards; symbol 5 is outside the alphabet and stays
absent. -/
theorem c10_table_mutation_witness :
    (encode_codes_length [(97, [true])]).2.lookup 12 =
      some ((List.lookup 12 [(97, [true])]).getD [])
    ∧ (encode_codes_length [(97, [true])]).2.lookup 5 = List.lookup 5 [(97, [true])] :=
  ⟨(c10_table_mutation [(97, [true])] 12).1 (by decide) (by decide),
   (c10_table_mutation [(97, [true])] 5).2 (by decide)⟩

/-! ## Claim C6: the frequency table (corrected) -/

/-- Characterization of the frequency table: a symbol's entry is its count in
the line-plus-terminator stream, plus one for the end-of-stream symbol, and
the entry exists exactly when that total is positive. -/
theorem extract_frequencies_lookup (lines : List (List Nat))
    (h : ∀ c ∈ contentSymbols lines, ¬ c < FIRST_CHARACTER) (s : Nat) :
    (extract_frequencies lines).map (fun t => t.lookup s) =
      .ok (if 0 < (contentSymbols lines).count s + (if s = END_OF_TEXT then 1 else 0)
           then some ((contentSymbols lines).count s + (if s = END_OF_TEXT then 1 else 0))
           else none) := by
  unfold extract_frequencies
  rw [extractLoop_ok _ _ h]
  simp only [Except.map]
  congr 1
  by_cases hs : s = END_OF_TEXT
  · subst hs
    rw [lookup_alistIncr_self, foldl_alistIncr_lookup]
    rw [if_pos rfl, if_pos (Nat.succ_pos _)]
    by_cases hmem : END_OF_TEXT ∈ contentSymbols lines
    · rw [if_pos (Or.inr hmem)]
      simp [List.lookup]
    · rw [if_neg (by simp [List.lookup, hmem])]
      have hcount : (contentSymbols lines).count END_OF_TEXT = 0 :=
        List.count_eq_zero.mpr hmem
      simp [hcount]
  · rw [lookup_alistIncr_ne _ hs, foldl_alistIncr_lookup]
    rw [if_neg hs]
    by_cases hmem : s ∈ contentSymbols lines
    · rw [if_pos (Or.inr hmem)]
      have hcount : 0 < (contentSymbols lines).count s := List.count_pos_iff.mpr hmem
      rw [if_pos (by omega)]
      simp [List.lookup]
    · have hcount : (contentSymbols lines).count s = 0 :=
        List.count_eq_zero.mpr hmem
      rw [if_neg (by simp [List.lookup, hmem])]
      rw [if_neg (by omega)]

/-- Counterexample to C6 as stated: symbol 99 (the letter `c`) lies in the
supported alphabet, yet the table extracted from the input `"ab\n"` has no
entry for it — the map's bucket-count constructor inserts no entries, so the
table is input-sparse, not alphabet-complete. -/
theorem c6_counterexample :
    (extract_frequencies [[97, 98]]).map (fun t => t.lookup 99) = .ok none ∧
      FIRST_CHARACTER ≤ 99 ∧ 99 < SUPPORTED_CHARACTERS := by
  refine ⟨?_, by decide, by decide⟩
  decide

/-- Claim C6 as amended: for an in-range input, the returned table has an
entry exactly for each symbol whose total is positive, where a symbol's total
counts every line as its characters plus one line terminator, and the
end-of-stream symbol receives one extra count (so its entry always exists and
is nonzero).  Symbols that never occur have no entry at all (rather than an
entry with count zero). -/
theorem c6_frequency_table (lines : List (List Nat))
    (h : ∀ c ∈ contentSymbols lines, ¬ c < FIRST_CHARACTER) (s : Nat) :
    (extract_frequencies lines).map (fun t => t.lookup s) =
      .ok (if 0 < (contentSymbols lines).count s + (if s = END_OF_TEXT then 1 else 0)
           then some ((contentSymbols lines).count s + (if s = END_OF_TEXT then 1 else 0))
           else none) :=
  extract_frequencies_lookup lines h s

/-- Witness for the amended C6 on the input `"ab\n"`, at the symbol `a`. -/
theorem c6_frequency_table_witness :
    (extract_frequencies [[97, 98]]).map (fun t => t.lookup 97) =
      .ok (if 0 < (contentSymbols [[97, 98]]).count 97 + (if 97 = END_OF_TEXT then 1 else 0)
           then some ((contentSymbols [[97, 98]]).count 97 + (if 97 = END_OF_TEXT then 1 else 0))
           else none) :=
  c6_frequency_table [[97, 98]] (by decide) 97

/-! ## Claim C5: the unsupported-symbol error -/

/-- Error propagation: the pipeline fails exactly when frequency extraction
fails. -/
theorem create_error_iff (lines : List (List Nat)) :
    (∃ e, create_compressed_file lines = .error e) ↔
      ∃ e, extract_frequencies lines = .error e := by
  cases hx : extract_frequencies lines with
  | error c =>
      constructor
      · intro _; exact ⟨c, rfl⟩
      · intro _
        refine ⟨c, ?_⟩
        rw [create_compressed_file, hx]
  | ok t =>
      constructor
      · rintro ⟨e, he⟩
        rw [create_compressed_file, hx] at he
        cases he
      · rintro ⟨e, he⟩
        cases he

/-- Claim C5: the encode raises the unsupported-symbol error exactly when
some input byte lies below the minimum supported symbol value, and in that
case it produces no output bytes.  The hypothesis restricts inputs to the
byte range the `Nat` model of `char` covers. -/
theorem c5_unsupported_symbol (lines : List (List Nat))
    (hbytes : ∀ c ∈ lines.flatten, c < 128) :
    ((∃ e, create_compressed_file lines = .error e) ↔
      ∃ c ∈ lines.flatten, c < FIRST_CHARACTER)
    ∧ ∀ e bs, create_compressed_file lines = .error e →
        create_compressed_file lines ≠ .ok bs := by
  constructor
  · rw [create_error_iff]
    have hmap : (∃ e, extract_frequencies lines = .error e) ↔
        ∃ e, extractLoop (contentSymbols lines) [] = .error e := by
      unfold extract_frequencies
      cases hx : extractLoop (contentSymbols lines) [] with
      | error c => simp [hx, Except.map]
      | ok t => simp [hx, Except.map]
    rw [hmap, extractLoop_error]
    constructor
    · rintro ⟨c, hc, hlt⟩
      rcases (mem_contentSymbols c lines).mp hc with ⟨l, hl, hcl⟩
      rcases List.mem_append.mp hcl with hcl | hcl
      · exact ⟨c, List.mem_flatten.mpr ⟨l, hl, hcl⟩, hlt⟩
      · have : c = NEW_LINE := by simpa using hcl
        subst this
        exact absurd hlt (by decide)
    · rintro ⟨c, hc, hlt⟩
      rcases List.mem_flatten.mp hc with ⟨l, hl, hcl⟩
      exact ⟨c, (mem_contentSymbols c lines).mpr ⟨l, hl, List.mem_append.mpr (Or.inl hcl)⟩, hlt⟩
  · intro e bs he hb
    rw [he] at hb
    cases hb

/-- Witness for C5 on the input `"ab\n"` (no error) — the hypothesis and both
directions are discharged at a concrete input. -/
theorem c5_unsupported_symbol_witness :
    (∀ c ∈ ([[97, 98]] : List (List Nat)).flatten, c < 128) ∧
      ((∃ e, create_compressed_file [[97, 98]] = .error e) ↔
        ∃ c ∈ ([[97, 98]] : List (List Nat)).flatten, c < FIRST_CHARACTER) :=
  ⟨by decide, (c5_unsupported_symbol [[97, 98]] (by decide)).1⟩

/-! ## Claim C9: the concrete scenario for the input string of a, b, newline -/

/-- Claim C9: on the input `"ab\n"`, the frequency table holds one count each
for `a`, `b`, the line terminator and the end-of-stream symbol; the tree has
four leaves; all four canonical code lengths equal 2 and the canonical codes
are, in ascending symbol order, 00 for the terminator, 01 for end-of-stream,
10 for `a` and 11 for `b`; and the first output byte is
`floor(log2 2) + 1 = 2`. -/
theorem c9_concrete_scenario :
    extract_frequencies [[97, 98]] = .ok [(97, 1), (98, 1), (10, 1), (11, 1)]
    ∧ (leafSyms (build_huffman_tree [(97, 1), (98, 1), (10, 1), (11, 1)])).length = 4
    ∧ generate_canonical_codes
        (generate_huffman_codes (build_huffman_tree [(97, 1), (98, 1), (10, 1), (11, 1)])) =
        [(10, [false, false]), (11, [false, true]), (97, [true, false]), (98, [true, true])]
    ∧ (∀ p ∈ generate_canonical_codes
        (generate_huffman_codes (build_huffman_tree [(97, 1), (98, 1), (10, 1), (11, 1)])),
        p.2.length = 2)
    ∧ Nat.log2 2 + 1 = 2
    ∧ (create_compressed_file [[97, 98]]).map List.head? = .ok (some 2) := by
  have hlog : Nat.log2 2 + 1 = 2 := by
    rw [← flog2_eq]
    decide
  have hfreq : extract_frequencies [[97, 98]] = .ok [(97, 1), (98, 1), (10, 1), (11, 1)] := by
    decide
  have hcanon : generate_canonical_codes
      (generate_huffman_codes (build_huffman_tree [(97, 1), (98, 1), (10, 1), (11, 1)])) =
      [(10, [false, false]), (11, [false, true]), (97, [true, false]), (98, [true, true])] := by
    decide
  refine ⟨hfreq, by decide, hcanon, ?_, hlog, ?_⟩
  · rw [hcanon]
    intro p hp
    rcases List.mem_cons.mp hp with rfl | hp
    · rfl
    rcases List.mem_cons.mp hp with rfl | hp
    · rfl
    rcases List.mem_cons.mp hp with rfl | hp
    · rfl
    rcases List.mem_cons.mp hp with rfl | hp
    · rfl
    cases hp
  · rw [create_compressed_file, hfreq]
    simp only [Except.map]
    rw [hcanon, encode_codes_length_eq]
    have hmax : largestCodeLength
        [(10, [false, false]), (11, [false, true]), (97, [true, false]), (98, [true, true])] = 2 := by
      decide
    rw [hmax, hlog]
    rfl

/-! ## Claim C3: the canonical successor step -/

theorem nbLoop_stop (fuel : Nat) (number : List Bool) (carry index : Nat)
    (h : ¬ index ≤ 1 + carry) : nbLoop (fuel + 1) number carry index = number := by
  rw [nbLoop, if_neg h]

theorem nbLoop_step_grow (fuel : Nat) (number : List Bool) (carry index : Nat)
    (hguard : index ≤ 1 + carry) (hgrow : 0 < carry ∧ number.length < index) :
    nbLoop (fuel + 1) number carry index = nbLoop fuel (true :: number) (carry - 1) (index + 1) := by
  rw [nbLoop, if_pos hguard, if_pos hgrow]

theorem nbLoop_step_flip (fuel : Nat) (number : List Bool) (carry index : Nat)
    (hguard : index ≤ 1 + carry) (hnogrow : ¬(0 < carry ∧ number.length < index)) :
    nbLoop (fuel + 1) number carry index =
      nbLoop fuel (number.set (number.length - index)
          (!(number.getD (number.length - index) false)))
        (if number.getD (number.length - index) false then carry + 1 else carry)
        (index + 1) := by
  rw [nbLoop, if_pos hguard, if_neg hnogrow]

theorem getD_append_middle (P : List Bool) (b : Bool) (R : List Bool) (d : Bool) :
    (P ++ b :: R).getD P.length d = b := by
  induction P with
  | nil => rfl
  | cons x P ih => simpa using ih

theorem set_append_middle (P : List Bool) (b b' : Bool) (R : List Bool) :
    (P ++ b :: R).set P.length b' = P ++ b' :: R := by
  induction P with
  | nil => rfl
  | cons x P ih => simpa using ih

/-- One flip iteration of the carry loop, at the bit just before the suffix
`R` the loop has already processed. -/
theorem nbLoop_flip_at (fuel : Nat) (P : List Bool) (b : Bool) (R : List Bool)
    (carry index : Nat) (hguard : index ≤ 1 + carry)
    (hidx : (P ++ b :: R).length - index = P.length)
    (hnogrow : ¬(0 < carry ∧ (P ++ b :: R).length < index)) :
    nbLoop (fuel + 1) (P ++ b :: R) carry index =
      nbLoop fuel (P ++ (!b) :: R) (if b then carry + 1 else carry) (index + 1) := by
  rw [nbLoop_step_flip _ _ _ _ hguard hnogrow]
  simp only [hidx, getD_append_middle, set_append_middle]

/-- Run of the carry loop over a bit string with a cleared bit before its
trailing set bits: the loop clears the `m` remaining set bits, then sets the
cleared bit and stops. -/
theorem nbLoop_flip_run (m : Nat) :
    ∀ (j fuel : Nat) (zs : List Bool), m + 2 ≤ fuel →
      nbLoop fuel (zs ++ false :: (List.replicate m true ++ List.replicate j false)) j (j + 1) =
        zs ++ true :: List.replicate (m + j) false := by
  induction m with
  | zero =>
      intro j fuel zs hfuel
      obtain ⟨f1, rfl⟩ : ∃ f1, fuel = f1 + 1 := ⟨fuel - 1, by omega⟩
      simp only [List.replicate_zero, List.nil_append]
      have hlen : (zs ++ false :: List.replicate j false).length = zs.length + 1 + j := by
        simp
        omega
      rw [nbLoop_flip_at f1 zs false (List.replicate j false) j (j + 1)
        (by omega) (by rw [hlen]; omega) (by rw [hlen]; omega)]
      simp only [Bool.not_false, Bool.false_eq_true, if_false]
      obtain ⟨f2, rfl⟩ : ∃ f2, f1 = f2 + 1 := ⟨f1 - 1, by omega⟩
      rw [nbLoop_stop _ _ _ _ (by omega)]
      simp
  | succ m ih =>
      intro j fuel zs hfuel
      obtain ⟨f1, rfl⟩ : ∃ f1, fuel = f1 + 1 := ⟨fuel - 1, by omega⟩
      have hsplit : zs ++ false :: (List.replicate (m + 1) true ++ List.replicate j false) =
          (zs ++ false :: List.replicate m true) ++ true :: List.replicate j false := by
        rw [List.replicate_succ']
        simp
      rw [hsplit]
      have hplen : (zs ++ false :: List.replicate m true).length = zs.length + 1 + m := by
        simp
        omega
      have hlen : ((zs ++ false :: List.replicate m true) ++ true :: List.replicate j false).length
          = zs.length + 1 + m + 1 + j := by
        simp
        omega
      rw [nbLoop_flip_at f1 (zs ++ false :: List.replicate m true) true (List.replicate j false)
        j (j + 1) (by omega) (by rw [hlen, hplen]; omega) (by rw [hlen]; omega)]
      simp only [Bool.not_true, if_pos]
      have hmerge : (zs ++ false :: List.replicate m true) ++ false :: List.replicate j false =
          zs ++ false :: (List.replicate m true ++ List.replicate (j + 1) false) := by
        rw [List.replicate_succ]
        simp
      rw [hmerge]
      rw [ih (j + 1) f1 zs (by omega)]
      have harith : m + (j + 1) = m + 1 + j := by omega
      rw [harith]

/-- Run of the carry loop over a bit string of set bits only: the loop clears
them all, then grows the string by a leading set bit and stops. -/
theorem nbLoop_ones_run (m : Nat) :
    ∀ (j fuel : Nat), 1 ≤ m + j → m + 2 ≤ fuel →
      nbLoop fuel (List.replicate m true ++ List.replicate j false) j (j + 1) =
        true :: List.replicate (m + j) false := by
  induction m with
  | zero =>
      intro j fuel hj hfuel
      obtain ⟨f1, rfl⟩ : ∃ f1, fuel = f1 + 1 := ⟨fuel - 1, by omega⟩
      simp only [List.replicate_zero, List.nil_append]
      have hlen : (List.replicate j false).length = j := by simp
      rw [nbLoop_step_grow _ _ _ _ (by omega) (by rw [hlen]; omega)]
      obtain ⟨f2, rfl⟩ : ∃ f2, f1 = f2 + 1 := ⟨f1 - 1, by omega⟩
      rw [nbLoop_stop _ _ _ _ (by omega)]
      simp
  | succ m ih =>
      intro j fuel _ hfuel
      obtain ⟨f1, rfl⟩ : ∃ f1, fuel = f1 + 1 := ⟨fuel - 1, by omega⟩
      have hsplit : List.replicate (m + 1) true ++ List.replicate j false =
          List.replicate m true ++ true :: List.replicate j false := by
        rw [List.replicate_succ']
        simp
      rw [hsplit]
      have hplen : (List.replicate m true).length = m := by simp
      have hlen : (List.replicate m true ++ true :: List.replicate j false).length = m + 1 + j := by
        simp
        omega
      rw [nbLoop_flip_at f1 (List.replicate m true) true (List.replicate j false)
        j (j + 1) (by omega) (by rw [hlen, hplen]; omega) (by rw [hlen]; omega)]
      simp only [Bool.not_true, if_pos]
      have hmerge : List.replicate m true ++ false :: List.replicate j false =
          List.replicate m true ++ List.replicate (j + 1) false := by
        rw [List.replicate_succ]
      rw [hmerge]
      rw [ih (j + 1) f1 (by omega) (by omega)]
      have harith : m + (j + 1) = m + 1 + j := by omega
      rw [harith]

/-- Every nonempty bit string either has a cleared bit followed by its
trailing set bits, or consists of set bits only. -/
theorem bits_decomposition (bs : List Bool) (h : bs ≠ []) :
    (∃ zs k, bs = zs ++ false :: List.replicate k true) ∨
      ∃ n, 1 ≤ n ∧ bs = List.replicate n true := by
  induction bs with
  | nil => exact absurd rfl h
  | cons b bs ih =>
      by_cases hnil : bs = []
      · subst hnil
        cases b with
        | false => exact Or.inl ⟨[], 0, rfl⟩
        | true => exact Or.inr ⟨1, by omega, rfl⟩
      · rcases ih hnil with ⟨zs, k, hz⟩ | ⟨n, hn, hz⟩
        · refine Or.inl ⟨b :: zs, k, ?_⟩
          rw [hz]
          rfl
        · cases b with
          | false =>
              refine Or.inl ⟨[], n, ?_⟩
              rw [hz]
              simp
          | true =>
              refine Or.inr ⟨n + 1, by omega, ?_⟩
              rw [hz, List.replicate_succ]

theorem binSuccRev_ones_cons (k : Nat) (R : List Bool) :
    binSuccRev (List.replicate k true ++ false :: R) = List.replicate k false ++ true :: R := by
  induction k with
  | zero => simp [binSuccRev]
  | succ k ih =>
      rw [List.replicate_succ, List.replicate_succ]
      simp only [List.cons_append, binSuccRev]
      rw [List.append_eq, ih]

theorem binSuccRev_ones (n : Nat) :
    binSuccRev (List.replicate n true) = List.replicate n false ++ [true] := by
  induction n with
  | zero => rfl
  | succ n ih =>
      rw [List.replicate_succ, List.replicate_succ]
      simp only [binSuccRev]
      rw [ih]
      simp

theorem binSucc_split (zs : List Bool) (k : Nat) :
    binSucc (zs ++ false :: List.replicate k true) = zs ++ true :: List.replicate k false := by
  unfold binSucc
  rw [List.reverse_append]
  have h1 : (false :: List.replicate k true).reverse = List.replicate k true ++ [false] := by
    simp [List.reverse_replicate]
  rw [h1]
  have h2 : (List.replicate k true ++ [false]) ++ zs.reverse =
      List.replicate k true ++ false :: zs.reverse := by simp
  rw [h2, binSuccRev_ones_cons]
  simp [List.reverse_replicate]

theorem binSucc_ones (n : Nat) :
    binSucc (List.replicate n true) = true :: List.replicate n false := by
  unfold binSucc
  rw [List.reverse_replicate, binSuccRev_ones]
  simp [List.reverse_replicate]

/-- The carry loop of `next_binary` computes the unsigned binary successor
the spec describes, on every nonempty bit string. -/
theorem next_binary_eq_binSucc (bs : List Bool) (h : bs ≠ []) :
    next_binary bs = binSucc bs := by
  rcases bits_decomposition bs h with ⟨zs, k, rfl⟩ | ⟨n, hn, rfl⟩
  · rw [binSucc_split]
    unfold next_binary
    have hshape : zs ++ false :: List.replicate k true =
        zs ++ false :: (List.replicate k true ++ List.replicate 0 false) := by simp
    rw [hshape]
    have hfuel : (zs ++ false :: (List.replicate k true ++ List.replicate 0 false)).length + 2 =
        zs.length + 1 + k + 2 := by
      simp
      omega
    rw [hfuel]
    have hrun := nbLoop_flip_run k 0 (zs.length + 1 + k + 2) zs (by omega)
    rw [show (0 + 1 : Nat) = 1 from rfl] at hrun
    rw [hrun]
    simp
  · rw [binSucc_ones]
    unfold next_binary
    have hshape : List.replicate n true = List.replicate n true ++ List.replicate 0 false := by
      simp
    rw [hshape]
    have hfuel : (List.replicate n true ++ List.replicate 0 false).length + 2 = n + 2 := by
      simp
    rw [hfuel]
    have hrun := nbLoop_ones_run n 0 (n + 2) (by omega) (by omega)
    rw [show (0 + 1 : Nat) = 1 from rfl] at hrun
    rw [hrun]
    simp

theorem binSucc_ne_nil (bs : List Bool) : binSucc bs ≠ [] := by
  unfold binSucc
  intro h
  have h2 : binSuccRev bs.reverse = [] := by
    have := congrArg List.reverse h
    simpa using this
  cases hb : bs.reverse with
  | nil => rw [hb] at h2; cases h2
  | cons x xs =>
      rw [hb] at h2
      cases x <;> simp [binSuccRev] at h2

theorem padCode_ne_nil {c : List Bool} (h : c ≠ []) (t : Nat) : padCode c t ≠ [] := by
  unfold padCode
  intro hh
  rcases List.append_eq_nil.mp hh with ⟨h1, _⟩
  exact h h1

theorem canonLoop_eq_spec (rest : List (Nat × List Bool)) :
    ∀ last_code, last_code ≠ [] → canonLoop rest last_code = canonicalSpecLoop rest last_code := by
  induction rest with
  | nil => intro last_code _; rfl
  | cons p rest ih =>
      intro last_code hne
      obtain ⟨s, raw⟩ := p
      rw [canonLoop, canonicalSpecLoop]
      rw [next_binary_eq_binSucc _ hne]
      rw [ih _ (padCode_ne_nil (binSucc_ne_nil last_code) raw.length)]

/-- Claim C3: on every non-empty, (length, symbol)-sorted code list whose raw
codes are nonempty bit strings, `generate_canonical_codes` performs exactly
the assignment the spec words: the all-zero code of the first raw length,
then, for each subsequent symbol, the unsigned-binary successor of the
previous assigned code (carry from the least significant bit, a `1` prepended
exactly when the carry passes the most significant bit), right-padded with
`0` bits up to that symbol's raw code length.  The nonempty-code hypothesis
reflects that the C++ successor on an empty string reads out of bounds. -/
theorem c3_canonical_assignment (hc : List (Nat × List Bool)) (hne : hc ≠ [])
    (hsorted : List.Sorted codeLE hc) (hcodes : ∀ p ∈ hc, p.2 ≠ []) :
    generate_canonical_codes hc = canonicalSpec hc := by
  cases hc with
  | nil => exact absurd rfl hne
  | cons p rest =>
      obtain ⟨s, raw⟩ := p
      rw [generate_canonical_codes, canonicalSpec]
      have hraw : raw ≠ [] := hcodes (s, raw) (List.mem_cons_self _ _)
      have hfirst : List.replicate raw.length false ≠ [] := by
        intro hh
        have : raw.length = 0 := by simpa using congrArg List.length hh
        exact hraw (List.length_eq_zero.mp this)
      rw [canonLoop_eq_spec _ _ hfirst]

/-- Witness for C3 at the canonical table of the concrete scenario. -/
theorem c3_canonical_assignment_witness :
    generate_canonical_codes
        [(10, [false, false]), (11, [false, true]), (97, [true, false]), (98, [true, true])] =
      canonicalSpec
        [(10, [false, false]), (11, [false, true]), (97, [true, false]), (98, [true, true])] :=
  c3_canonical_assignment _ (by decide)
    (by
      unfold codeLE
      decide)
    (by decide)

/-! ## Claim C8: the code-generation traversal -/

theorem nodeSize_pos (t : Node) : 1 ≤ nodeSize t := by
  cases t with
  | mk s f l r => rw [nodeSize]; omega

theorem emit_append (c : Prop) [Decidable c] (out : List (Nat × List Bool))
    (x : List (Nat × List Bool)) :
    (if c then out ++ x else out) = out ++ (if c then x else []) := by
  split <;> simp

/-- The traversal loop emits, for each stacked node in order, its node-first
right-then-left entry list. -/
theorem codesLoopF_spec (fuel : Nat) :
    ∀ (st : List (Node × List Bool)) (out : List (Nat × List Bool)),
      stackMeasure st ≤ fuel →
      codesLoopF fuel st out = out ++ (st.map (fun p => emitRF p.1 p.2)).flatten := by
  induction fuel with
  | zero =>
      intro st out hst
      cases st with
      | nil => simp [codesLoopF]
      | cons p rest =>
          exfalso
          have h1 : 1 ≤ nodeSize p.1 := nodeSize_pos p.1
          have h2 : stackMeasure (p :: rest) = nodeSize p.1 + stackMeasure rest := by
            simp [stackMeasure]
          omega
  | succ fuel ih =>
      intro st out hst
      cases st with
      | nil => simp [codesLoopF]
      | cons p rest =>
          obtain ⟨node, code⟩ := p
          have hm : stackMeasure ((node, code) :: rest) = nodeSize node + stackMeasure rest := by
            simp [stackMeasure]
          cases node with
          | mk s f l r =>
          have hsize : nodeSize (Node.mk s f l r) = 1 + optNodeSize l + optNodeSize r := by
            rw [nodeSize]
          cases l with
          | none =>
              cases r with
              | none =>
                  rw [codesLoopF, ih rest _ (by
                    rw [hm, hsize] at hst
                    simp [optNodeSize] at hst
                    omega)]
                  rw [emit_append]
                  simp [emitRF]
              | some rn =>
                  rw [codesLoopF, ih _ _ (by
                    rw [hm, hsize] at hst
                    simp only [optNodeSize] at hst
                    have : stackMeasure ((rn, code ++ [true]) :: rest) =
                        nodeSize rn + stackMeasure rest := by simp [stackMeasure]
                    omega)]
                  rw [emit_append]
                  simp [emitRF]
          | some ln =>
              cases r with
              | none =>
                  rw [codesLoopF, ih _ _ (by
                    rw [hm, hsize] at hst
                    simp only [optNodeSize] at hst
                    have : stackMeasure ((ln, code ++ [false]) :: rest) =
                        nodeSize ln + stackMeasure rest := by simp [stackMeasure]
                    omega)]
                  rw [emit_append]
                  simp [emitRF]
              | some rn =>
                  rw [codesLoopF, ih _ _ (by
                    rw [hm, hsize] at hst
                    simp only [optNodeSize] at hst
                    have : stackMeasure ((rn, code ++ [true]) :: (ln, code ++ [false]) :: rest) =
                        nodeSize rn + (nodeSize ln + stackMeasure rest) := by simp [stackMeasure]
                    omega)]
                  rw [emit_append]
                  simp [emitRF]

/-- The traversal loop started on a single root yields that root's entry
list. -/
theorem codesLoop_eq_emitRF (t : Node) : codesLoop [(t, [])] [] = emitRF t [] := by
  rw [codesLoop, codesLoopF_spec _ _ _ (Nat.le_refl _)]
  simp

/-- On a well-formed tree the loop's entries are, up to order, exactly the
root-to-leaf path entries. -/
theorem emitRF_perm_aux (n : Nat) :
    ∀ (t : Node), nodeSize t ≤ n → WFTree t →
      ∀ code, (emitRF t code).Perm (leafPaths t code) := by
  induction n with
  | zero =>
      intro t hsz _ _
      exact absurd hsz (by have := nodeSize_pos t; omega)
  | succ n ih =>
      intro t hsz hwf code
      cases t with
      | mk s f l r =>
      have hsize : nodeSize (Node.mk s f l r) = 1 + optNodeSize l + optNodeSize r := by
        rw [nodeSize]
      cases l with
      | none =>
          cases r with
          | none =>
              have hs : s ≠ 0 := hwf
              simp [emitRF, leafPaths, hs]
          | some rn => cases hwf
      | some ln =>
          cases r with
          | none => cases hwf
          | some rn =>
              obtain ⟨hs, hwl, hwr⟩ := hwf
              have hsl : optNodeSize (some ln) = nodeSize ln := rfl
              have hsr : optNodeSize (some rn) = nodeSize rn := rfl
              rw [hsize, hsl, hsr] at hsz
              have hl := ih ln (by have := nodeSize_pos rn; omega) hwl (code ++ [false])
              have hr := ih rn (by have := nodeSize_pos ln; omega) hwr (code ++ [true])
              rw [emitRF, leafPaths]
              have hite : (if s ≠ 0 then [(s, code)] else []) = [] := by simp [hs]
              rw [hite, List.nil_append]
              exact (List.Perm.append hr hl).trans List.perm_append_comm

theorem emitRF_perm (t : Node) (h : WFTree t) (code : List Bool) :
    (emitRF t code).Perm (leafPaths t code) :=
  emitRF_perm_aux (nodeSize t) t (Nat.le_refl _) h code

/-- Path lengths are leaf depths: entry by entry, the path bit string of each
leaf has length equal to that leaf's depth. -/
theorem leafPaths_length_depth_aux (n : Nat) :
    ∀ (t : Node), nodeSize t ≤ n → ∀ code,
      (leafPaths t code).map (fun p => p.2.length) = (leafWD t code.length).map Prod.snd := by
  induction n with
  | zero =>
      intro t hsz _
      exact absurd hsz (by have := nodeSize_pos t; omega)
  | succ n ih =>
      intro t hsz code
      cases t with
      | mk s f l r =>
      have hsize : nodeSize (Node.mk s f l r) = 1 + optNodeSize l + optNodeSize r := by
        rw [nodeSize]
      cases l with
      | none =>
          cases r with
          | none => simp [leafPaths, leafWD]
          | some rn =>
              have hsr : optNodeSize (some rn) = nodeSize rn := rfl
              rw [hsize, hsr] at hsz
              have hr := ih rn (by omega) (code ++ [true])
              simp only [leafPaths, leafWD]
              rw [hr]
              simp
      | some ln =>
          cases r with
          | none =>
              have hsl : optNodeSize (some ln) = nodeSize ln := rfl
              rw [hsize, hsl] at hsz
              have hl := ih ln (by omega) (code ++ [false])
              simp only [leafPaths, leafWD]
              rw [hl]
              simp
          | some rn =>
              have hsl : optNodeSize (some ln) = nodeSize ln := rfl
              have hsr : optNodeSize (some rn) = nodeSize rn := rfl
              rw [hsize, hsl, hsr] at hsz
              have hl := ih ln (by have := nodeSize_pos rn; omega) (code ++ [false])
              have hr := ih rn (by have := nodeSize_pos ln; omega) (code ++ [true])
              simp only [leafPaths, leafWD, List.map_append]
              rw [hl, hr]
              simp

theorem leafPaths_length_depth (t : Node) :
    (leafPaths t []).map (fun p => p.2.length) = (leafWD t 0).map Prod.snd :=
  leafPaths_length_depth_aux (nodeSize t) t (Nat.le_refl _) []

/-- Claim C8: on a well-formed tree, `generate_huffman_codes` returns, up to
the sort it ends with, exactly one entry per leaf carrying that leaf's
root-to-leaf path (`false` for a left edge, `true` for a right edge); the
entries' bit lengths are the leaf depths, and the returned list is sorted by
code length, then symbol value. -/
theorem c8_code_generation (t : Node) (h : WFTree t) :
    (generate_huffman_codes t).Perm (leafPaths t [])
    ∧ List.Sorted codeLE (generate_huffman_codes t)
    ∧ (leafPaths t []).map (fun p => p.2.length) = (leafWD t 0).map Prod.snd := by
  refine ⟨?_, ?_, leafPaths_length_depth t⟩
  · unfold generate_huffman_codes
    have h1 := List.perm_insertionSort codeLE (codesLoop [(t, [])] [])
    have h2 : (codesLoop [(t, [])] []).Perm (leafPaths t []) := by
      rw [codesLoop_eq_emitRF t]
      exact emitRF_perm t h []
    exact h1.trans h2
  · exact List.sorted_insertionSort codeLE _

/-- Witness for C8 at a concrete three-node tree. -/
theorem c8_code_generation_witness :
    (generate_huffman_codes
        (Node.mk 0 2 (some (Node.mk 3 1 none none)) (some (Node.mk 4 1 none none)))).Perm
      (leafPaths (Node.mk 0 2 (some (Node.mk 3 1 none none)) (some (Node.mk 4 1 none none))) []) :=
  (c8_code_generation (Node.mk 0 2 (some (Node.mk 3 1 none none)) (some (Node.mk 4 1 none none)))
    (by simp [WFTree])).1

/-! ## Canonical code values and prefix-freeness -/

theorem natToBits_zero (w : Nat) : natToBits w 0 = List.replicate w false := by
  induction w with
  | zero => rfl
  | succ w ih =>
      rw [natToBits]
      simp only [Nat.zero_div, Nat.zero_mod, ih]
      rw [List.replicate_succ']
      simp

theorem natToBits_byteOfBits (c : List Bool) : natToBits c.length (byteOfBits c) = c := by
  induction c using List.reverseRecOn with
  | nil => rfl
  | append_singleton xs b ih =>
      have hlen : (xs ++ [b]).length = xs.length + 1 := by simp
      rw [hlen, natToBits]
      have hval : byteOfBits (xs ++ [b]) = 2 * byteOfBits xs + b.toNat := by
        rw [byteOfBits_append]
        have : byteOfBits [b] = b.toNat := by cases b <;> rfl
        rw [this]
        simp
        ring
      rw [hval]
      have hdiv : (2 * byteOfBits xs + b.toNat) / 2 = byteOfBits xs := by
        cases b <;> simp [Bool.toNat] <;> omega
      have hmod : ((2 * byteOfBits xs + b.toNat) % 2 == 1) = b := by
        cases b <;> simp [Bool.toNat] <;> omega
      rw [hdiv, hmod, ih]

theorem natToBits_mul_pow (l k v : Nat) :
    natToBits l v ++ List.replicate k false = natToBits (l + k) (v * 2 ^ k) := by
  induction k with
  | zero => simp [natToBits]
  | succ k ih =>
      have hsplit : natToBits (l + (k + 1)) (v * 2 ^ (k + 1)) =
          natToBits (l + k) (v * 2 ^ (k + 1) / 2) ++ [v * 2 ^ (k + 1) % 2 == 1] := by
        rw [show l + (k + 1) = (l + k) + 1 from rfl, natToBits]
      have hform : v * 2 ^ (k + 1) = (v * 2 ^ k) * 2 := by
        rw [Nat.pow_succ]
        ring
      have hdiv : v * 2 ^ (k + 1) / 2 = v * 2 ^ k := by
        rw [hform]
        exact Nat.mul_div_cancel _ (by omega)
      have hmod : (v * 2 ^ (k + 1) % 2 == 1) = false := by
        have h0 : v * 2 ^ (k + 1) % 2 = 0 := by
          rw [hform]
          exact Nat.mul_mod_left _ 2
        simp [h0]
      rw [hsplit, hdiv, hmod, ← ih]
      rw [List.replicate_succ']
      simp

theorem binSucc_append_false (xs : List Bool) :
    binSucc (xs ++ [false]) = xs ++ [true] := by
  have h := binSucc_split xs 0
  simpa using h

theorem binSucc_append_true (xs : List Bool) :
    binSucc (xs ++ [true]) = binSucc xs ++ [false] := by
  unfold binSucc
  rw [List.reverse_append]
  simp only [List.reverse_cons, List.reverse_nil, List.nil_append, List.singleton_append]
  rw [binSuccRev]
  simp

theorem binSucc_natToBits (l v : Nat) (h : v + 1 < 2 ^ l) :
    binSucc (natToBits l v) = natToBits l (v + 1) := by
  induction l generalizing v with
  | zero => simp at h
  | succ l ih =>
      rw [natToBits, natToBits]
      rcases Nat.mod_two_eq_zero_or_one v with hv | hv
      · have hbit : (v % 2 == 1) = false := by simp [hv]
        rw [hbit]
        rw [show ([false] : List Bool) = [false] from rfl]
        rw [binSucc_append_false]
        have hdiv : (v + 1) / 2 = v / 2 := by omega
        have hbit2 : ((v + 1) % 2 == 1) = true := by
          have : (v + 1) % 2 = 1 := by omega
          simp [this]
        rw [hdiv, hbit2]
      · have hbit : (v % 2 == 1) = true := by simp [hv]
        rw [hbit]
        rw [binSucc_append_true]
        have hlt : v / 2 + 1 < 2 ^ l := by
          rw [Nat.pow_succ] at h
          omega
        rw [ih _ hlt]
        have hdiv : (v + 1) / 2 = v / 2 + 1 := by omega
        have hbit2 : ((v + 1) % 2 == 1) = false := by
          have : (v + 1) % 2 = 0 := by omega
          simp [this]
        rw [hdiv, hbit2]

theorem byteOfBits_take (b : List Bool) (k : Nat) (hk : k ≤ b.length) :
    byteOfBits (b.take k) = byteOfBits b / 2 ^ (b.length - k) := by
  have hsplit : b = b.take k ++ b.drop k := (List.take_append_drop k b).symm
  have hdrop : (b.drop k).length = b.length - k := by simp
  have hval : byteOfBits b =
      byteOfBits (b.take k) * 2 ^ (b.length - k) + byteOfBits (b.drop k) := by
    conv_lhs => rw [hsplit]
    rw [byteOfBits_append, hdrop]
  rw [hval]
  have hlt := byteOfBits_lt (b.drop k)
  rw [hdrop] at hlt
  have hpos : (0 : Nat) < 2 ^ (b.length - k) := by positivity
  have hdivide : (byteOfBits (b.take k) * 2 ^ (b.length - k) + byteOfBits (b.drop k)) /
      2 ^ (b.length - k) = byteOfBits (b.take k) := by
    rw [Nat.mul_comm, Nat.mul_add_div hpos, Nat.div_eq_of_lt hlt]
    omega
  rw [hdivide]

theorem bits_eq_of_val_eq {a b : List Bool} (hlen : a.length = b.length)
    (hval : byteOfBits a = byteOfBits b) : a = b := by
  have h1 := natToBits_byteOfBits a
  have h2 := natToBits_byteOfBits b
  rw [← h1, ← h2, hlen, hval]

theorem prefix_iff_val (a b : List Bool) (hab : a.length ≤ b.length) :
    a <+: b ↔ byteOfBits b / 2 ^ (b.length - a.length) = byteOfBits a := by
  constructor
  · intro h
    rw [List.prefix_iff_eq_take] at h
    rw [← byteOfBits_take b a.length hab, ← h]
  · intro h
    rw [List.prefix_iff_eq_take]
    apply bits_eq_of_val_eq
    · simp [List.length_take]
      omega
    · rw [byteOfBits_take b a.length hab, h]

/-- Two codes whose scaled values are separated at a common scale `L` are not
prefixes of one another. -/
theorem not_prefix_of_scaled (a b : List Bool) (L : Nat)
    (hla : a.length ≤ L) (hlb : b.length ≤ L) (hab : a.length ≤ b.length)
    (hsep : (byteOfBits a + 1) * 2 ^ (L - a.length) ≤ byteOfBits b * 2 ^ (L - b.length)) :
    ¬ a <+: b ∧ ¬ b <+: a := by
  have hexp : 2 ^ (L - a.length) = 2 ^ (b.length - a.length) * 2 ^ (L - b.length) := by
    rw [← Nat.pow_add]
    congr 1
    omega
  have hpos : (0 : Nat) < 2 ^ (L - b.length) := by positivity
  have hsep2 : (byteOfBits a + 1) * 2 ^ (b.length - a.length) ≤ byteOfBits b := by
    rw [hexp] at hsep
    have h3 : ((byteOfBits a + 1) * 2 ^ (b.length - a.length)) * 2 ^ (L - b.length) ≤
        byteOfBits b * 2 ^ (L - b.length) := by
      calc ((byteOfBits a + 1) * 2 ^ (b.length - a.length)) * 2 ^ (L - b.length)
          = (byteOfBits a + 1) * (2 ^ (b.length - a.length) * 2 ^ (L - b.length)) := by ring
        _ ≤ byteOfBits b * 2 ^ (L - b.length) := hsep
    exact Nat.le_of_mul_le_mul_right h3 hpos
  constructor
  · intro hpre
    rw [prefix_iff_val a b hab] at hpre
    have hdivpos : (0 : Nat) < 2 ^ (b.length - a.length) := by positivity
    have hge : (byteOfBits a + 1) ≤ byteOfBits b / 2 ^ (b.length - a.length) :=
      (Nat.le_div_iff_mul_le hdivpos).mpr hsep2
    omega
  · intro hpre
    have hlen : b.length ≤ a.length := hpre.length_le
    have hba : b = a := hpre.eq_of_length (by omega)
    subst hba
    simp at hsep2

/-- Kraft equality for well-formed trees, scaled by `2 ^ L`: the path weights
`2 ^ (L - depth)` of all leaves sum to the weight of the subtree root. -/
theorem kraft_leafPaths_aux (n : Nat) :
    ∀ (t : Node), nodeSize t ≤ n → WFTree t → ∀ (code : List Bool) (L : Nat),
      code.length + treeDepth t ≤ L →
      ((leafPaths t code).map (fun p => 2 ^ (L - p.2.length))).sum = 2 ^ (L - code.length) := by
  induction n with
  | zero =>
      intro t hsz _ _ _ _
      exact absurd hsz (by have := nodeSize_pos t; omega)
  | succ n ih =>
      intro t hsz hwf code L hL
      cases t with
      | mk s f l r =>
      have hsize : nodeSize (Node.mk s f l r) = 1 + optNodeSize l + optNodeSize r := by
        rw [nodeSize]
      cases l with
      | none =>
          cases r with
          | none => simp [leafPaths]
          | some rn => cases hwf
      | some ln =>
          cases r with
          | none => cases hwf
          | some rn =>
              obtain ⟨hs, hwl, hwr⟩ := hwf
              have hsl : optNodeSize (some ln) = nodeSize ln := rfl
              have hsr : optNodeSize (some rn) = nodeSize rn := rfl
              rw [hsize, hsl, hsr] at hsz
              have hdep : treeDepth (Node.mk s f (some ln) (some rn)) =
                  max (treeDepth ln) (treeDepth rn) + 1 := by rw [treeDepth]
              rw [hdep] at hL
              have hlenl : (code ++ [false]).length = code.length + 1 := by simp
              have hlenr : (code ++ [true]).length = code.length + 1 := by simp
              have hLl : (code ++ [false]).length + treeDepth ln ≤ L := by
                rw [hlenl]; omega
              have hLr : (code ++ [true]).length + treeDepth rn ≤ L := by
                rw [hlenr]; omega
              have hl := ih ln (by have := nodeSize_pos rn; omega) hwl (code ++ [false]) L hLl
              have hr := ih rn (by have := nodeSize_pos ln; omega) hwr (code ++ [true]) L hLr
              rw [leafPaths]
              rw [List.map_append, List.sum_append, hl, hr, hlenl, hlenr]
              have hclen : code.length + 1 ≤ L := by omega
              have hstep : L - code.length = (L - (code.length + 1)) + 1 := by omega
              rw [hstep, Nat.pow_succ]
              ring

theorem kraft_leafPaths (t : Node) (hwf : WFTree t) :
    ((leafPaths t []).map (fun p => 2 ^ (treeDepth t - p.2.length))).sum = 2 ^ treeDepth t := by
  have h := kraft_leafPaths_aux (nodeSize t) t (Nat.le_refl _) hwf [] (treeDepth t) (by simp)
  simpa using h

/-- Each leaf path's length is at most the starting length plus the tree's
depth. -/
theorem leafPaths_length_le_aux (n : Nat) :
    ∀ (t : Node), nodeSize t ≤ n → ∀ code, ∀ p ∈ leafPaths t code,
      p.2.length ≤ code.length + treeDepth t := by
  induction n with
  | zero =>
      intro t hsz _ _ _
      exact absurd hsz (by have := nodeSize_pos t; omega)
  | succ n ih =>
      intro t hsz code p hp
      cases t with
      | mk s f l r =>
      have hsize : nodeSize (Node.mk s f l r) = 1 + optNodeSize l + optNodeSize r := by
        rw [nodeSize]
      cases l with
      | none =>
          cases r with
          | none =>
              rw [leafPaths] at hp
              rcases List.mem_singleton.mp hp with rfl
              simp [treeDepth]
          | some rn =>
              have hsr : optNodeSize (some rn) = nodeSize rn := rfl
              rw [hsize, hsr] at hsz
              rw [leafPaths] at hp
              have := ih rn (by omega) (code ++ [true]) p hp
              rw [treeDepth]
              simp at this
              omega
      | some ln =>
          cases r with
          | none =>
              have hsl : optNodeSize (some ln) = nodeSize ln := rfl
              rw [hsize, hsl] at hsz
              rw [leafPaths] at hp
              have := ih ln (by omega) (code ++ [false]) p hp
              rw [treeDepth]
              simp at this
              omega
          | some rn =>
              have hsl : optNodeSize (some ln) = nodeSize ln := rfl
              have hsr : optNodeSize (some rn) = nodeSize rn := rfl
              rw [hsize, hsl, hsr] at hsz
              rw [leafPaths] at hp
              rcases List.mem_append.mp hp with hp | hp
              · have := ih ln (by have := nodeSize_pos rn; omega) (code ++ [false]) p hp
                rw [treeDepth]
                simp at this
                omega
              · have := ih rn (by have := nodeSize_pos ln; omega) (code ++ [true]) p hp
                rw [treeDepth]
                simp at this
                omega

theorem leafPaths_length_le (t : Node) (p : Nat × List Bool) (hp : p ∈ leafPaths t []) :
    p.2.length ≤ treeDepth t := by
  have h := leafPaths_length_le_aux (nodeSize t) t (Nat.le_refl _) [] p hp
  simpa using h

/-- The sorted code list keeps nondecreasing lengths. -/
theorem sorted_codeLE_lengths (hc : List (Nat × List Bool)) (h : List.Sorted codeLE hc) :
    List.Sorted (· ≤ ·) (hc.map (fun p => p.2.length)) := by
  unfold List.Sorted at h ⊢
  rw [List.pairwise_map]
  apply h.imp
  intro a b hab
  unfold codeLE at hab
  omega

/-- Invariant of the canonical successor loop: starting from the rendered
value `vprev` on `lprev` bits, with nondecreasing lengths bounded by `L` and
the Kraft budget respected, the loop preserves symbols and lengths, all
produced codes lie at or above the threshold, and they are pairwise
separated. -/
theorem canonLoop_chain (rest : List (Nat × List Bool)) :
    ∀ (lprev vprev L : Nat),
      1 ≤ lprev → lprev ≤ L → vprev < 2 ^ lprev →
      List.Sorted (· ≤ ·) (lprev :: rest.map (fun p => p.2.length)) →
      (∀ p ∈ rest, p.2.length ≤ L) →
      (vprev + 1) * 2 ^ (L - lprev) + (rest.map (fun p => 2 ^ (L - p.2.length))).sum ≤ 2 ^ L →
      (canonLoop rest (natToBits lprev vprev)).map (fun q => q.1) = rest.map (fun p => p.1)
      ∧ (canonLoop rest (natToBits lprev vprev)).map (fun q => q.2.length) =
          rest.map (fun p => p.2.length)
      ∧ (∀ q ∈ canonLoop rest (natToBits lprev vprev),
          (vprev + 1) * 2 ^ (L - lprev) ≤ byteOfBits q.2 * 2 ^ (L - q.2.length))
      ∧ List.Pairwise (sepAt L) (canonLoop rest (natToBits lprev vprev))
      ∧ (∀ q ∈ canonLoop rest (natToBits lprev vprev), q.2.length ≤ L) := by
  induction rest with
  | nil =>
      intro lprev vprev L _ _ _ _ _ _
      refine ⟨rfl, rfl, ?_, ?_, ?_⟩
      · intro q hq; cases hq
      · exact List.Pairwise.nil
      · intro q hq; cases hq
  | cons p rest ih =>
      intro lprev vprev L h1 hlL hv hsorted hlens hkraft
      obtain ⟨s, raw⟩ := p
      obtain ⟨hhead, htail⟩ := List.sorted_cons.mp hsorted
      have hl1 : lprev ≤ raw.length := by
        apply hhead
        simp
      have hlL2 : raw.length ≤ L := by
        have := hlens (s, raw) (List.mem_cons_self _ _)
        simpa using this
      have hkraft' : (vprev + 1) * 2 ^ (L - lprev) +
          (2 ^ (L - raw.length) + (rest.map (fun p => 2 ^ (L - p.2.length))).sum) ≤ 2 ^ L := by
        simpa using hkraft
      have hpowL : 2 ^ lprev * 2 ^ (L - lprev) = 2 ^ L := by
        rw [← Nat.pow_add]
        congr 1
        omega
      have hvsucc : vprev + 1 < 2 ^ lprev := by
        by_contra hcon
        push_neg at hcon
        have h2 : 2 ^ L ≤ (vprev + 1) * 2 ^ (L - lprev) := by
          calc 2 ^ L = 2 ^ lprev * 2 ^ (L - lprev) := hpowL.symm
            _ ≤ (vprev + 1) * 2 ^ (L - lprev) :=
                Nat.mul_le_mul_right _ hcon
        have h3 : (0 : Nat) < 2 ^ (L - raw.length) := by positivity
        omega
      have hne : natToBits lprev vprev ≠ [] := by
        intro hemp
        have := natToBits_length lprev vprev
        rw [hemp] at this
        simp at this
        omega
      have hnext : next_binary (natToBits lprev vprev) = natToBits lprev (vprev + 1) := by
        rw [next_binary_eq_binSucc _ hne, binSucc_natToBits _ _ hvsucc]
      have hpad : padCode (natToBits lprev (vprev + 1)) raw.length =
          natToBits raw.length ((vprev + 1) * 2 ^ (raw.length - lprev)) := by
        unfold padCode
        rw [natToBits_length, natToBits_mul_pow]
        congr 1
        omega
      have hscale : ((vprev + 1) * 2 ^ (raw.length - lprev)) * 2 ^ (L - raw.length) =
          (vprev + 1) * 2 ^ (L - lprev) := by
        have : 2 ^ (raw.length - lprev) * 2 ^ (L - raw.length) = 2 ^ (L - lprev) := by
          rw [← Nat.pow_add]
          congr 1
          omega
        calc ((vprev + 1) * 2 ^ (raw.length - lprev)) * 2 ^ (L - raw.length)
            = (vprev + 1) * (2 ^ (raw.length - lprev) * 2 ^ (L - raw.length)) := by ring
          _ = (vprev + 1) * 2 ^ (L - lprev) := by rw [this]
      have hposL : (0 : Nat) < 2 ^ (L - raw.length) := by positivity
      have hvnew_lt : (vprev + 1) * 2 ^ (raw.length - lprev) < 2 ^ raw.length := by
        have hpowl : 2 ^ raw.length * 2 ^ (L - raw.length) = 2 ^ L := by
          rw [← Nat.pow_add]
          congr 1
          omega
        by_contra hcon
        push_neg at hcon
        have h2 : 2 ^ L ≤ ((vprev + 1) * 2 ^ (raw.length - lprev)) * 2 ^ (L - raw.length) := by
          calc 2 ^ L = 2 ^ raw.length * 2 ^ (L - raw.length) := hpowl.symm
            _ ≤ ((vprev + 1) * 2 ^ (raw.length - lprev)) * 2 ^ (L - raw.length) :=
                Nat.mul_le_mul_right _ hcon
        rw [hscale] at h2
        have h3 : (0 : Nat) < 2 ^ (L - raw.length) := by positivity
        omega
      have hloop : canonLoop ((s, raw) :: rest) (natToBits lprev vprev) =
          (s, natToBits raw.length ((vprev + 1) * 2 ^ (raw.length - lprev))) ::
            canonLoop rest (natToBits raw.length ((vprev + 1) * 2 ^ (raw.length - lprev))) := by
        rw [canonLoop]
        rw [hnext, hpad]
      have hkraft2 : ((vprev + 1) * 2 ^ (raw.length - lprev) + 1) * 2 ^ (L - raw.length) +
          (rest.map (fun p => 2 ^ (L - p.2.length))).sum ≤ 2 ^ L := by
        have hexpand : ((vprev + 1) * 2 ^ (raw.length - lprev) + 1) * 2 ^ (L - raw.length) =
            (vprev + 1) * 2 ^ (L - lprev) + 2 ^ (L - raw.length) := by
          rw [Nat.add_mul, Nat.one_mul, hscale]
        rw [hexpand]
        omega
      have hIH := ih raw.length ((vprev + 1) * 2 ^ (raw.length - lprev)) L
        (by omega) hlL2 hvnew_lt htail
        (fun q hq => hlens q (List.mem_cons_of_mem _ hq)) hkraft2
      obtain ⟨ih1, ih2, ih3, ih4, ih5⟩ := hIH
      have hcurval : byteOfBits (natToBits raw.length ((vprev + 1) * 2 ^ (raw.length - lprev))) =
          (vprev + 1) * 2 ^ (raw.length - lprev) := natToBits_eq_of_lt hvnew_lt
      have hcurlen : (natToBits raw.length ((vprev + 1) * 2 ^ (raw.length - lprev))).length =
          raw.length := natToBits_length _ _
      rw [hloop]
      refine ⟨?_, ?_, ?_, ?_, ?_⟩
      · rw [List.map_cons, List.map_cons, ih1]
      · rw [List.map_cons, List.map_cons, ih2, hcurlen]
      · intro q hq
        rcases List.mem_cons.mp hq with rfl | hq
        · rw [hcurval, hcurlen, hscale]
        · have h3 := ih3 q hq
          have hexpand : ((vprev + 1) * 2 ^ (raw.length - lprev) + 1) * 2 ^ (L - raw.length) =
              (vprev + 1) * 2 ^ (L - lprev) + 2 ^ (L - raw.length) := by
            rw [Nat.add_mul, Nat.one_mul, hscale]
          rw [hexpand] at h3
          omega
      · refine List.Pairwise.cons ?_ ih4
        intro q hq
        unfold sepAt
        rw [hcurval, hcurlen]
        exact ih3 q hq
      · intro q hq
        rcases List.mem_cons.mp hq with rfl | hq
        · rw [hcurlen]; exact hlL2
        · exact ih5 q hq

/-- Properties of the full canonical table built from a sorted, Kraft-tight
code list: symbols and lengths are preserved entrywise, and distinct entries
are never prefixes of one another. -/
theorem canonical_table_props (hc : List (Nat × List Bool)) (L : Nat)
    (hsorted : List.Sorted codeLE hc)
    (hlens : ∀ p ∈ hc, p.2.length ≤ L)
    (hkraft : (hc.map (fun p => 2 ^ (L - p.2.length))).sum = 2 ^ L) :
    (generate_canonical_codes hc).map (fun q => q.1) = hc.map (fun p => p.1)
    ∧ (generate_canonical_codes hc).map (fun q => q.2.length) = hc.map (fun p => p.2.length)
    ∧ List.Pairwise (fun a b => ¬ a.2 <+: b.2 ∧ ¬ b.2 <+: a.2) (generate_canonical_codes hc) := by
  cases hc with
  | nil =>
      refine ⟨rfl, rfl, ?_⟩
      exact List.Pairwise.nil
  | cons p rest =>
      obtain ⟨s0, raw0⟩ := p
      cases hrest : rest with
      | nil =>
          subst hrest
          refine ⟨rfl, ?_, ?_⟩
          · simp [generate_canonical_codes, canonLoop]
          · simp [generate_canonical_codes, canonLoop]
      | cons q0 rest2 =>
          rw [← hrest]
          have hrne : rest ≠ [] := by rw [hrest]; simp
          have hkraft' : 2 ^ (L - raw0.length) +
              (rest.map (fun p => 2 ^ (L - p.2.length))).sum = 2 ^ L := by
            simpa using hkraft
          have hsum_pos : 0 < (rest.map (fun p => 2 ^ (L - p.2.length))).sum := by
            rw [hrest]
            rw [List.map_cons, List.sum_cons]
            have : (0 : Nat) < 2 ^ (L - q0.2.length) := by positivity
            omega
          have hl0L : raw0.length ≤ L := by
            have := hlens (s0, raw0) (List.mem_cons_self _ _)
            simpa using this
          have hl0 : 1 ≤ raw0.length := by
            by_contra hcon
            push_neg at hcon
            have h0 : raw0.length = 0 := by omega
            rw [h0, Nat.sub_zero] at hkraft'
            omega
          have hsortlen := sorted_codeLE_lengths _ hsorted
          rw [List.map_cons] at hsortlen
          have hchain := canonLoop_chain rest raw0.length 0 L hl0 hl0L (by positivity)
            hsortlen (fun q hq => hlens q (List.mem_cons_of_mem _ hq))
            (by rw [Nat.zero_add, Nat.one_mul]; omega)
          obtain ⟨ch1, ch2, ch3, ch4, ch5⟩ := hchain
          have hfirst : List.replicate raw0.length false = natToBits raw0.length 0 :=
            (natToBits_zero _).symm
          have hgen : generate_canonical_codes ((s0, raw0) :: rest) =
              (s0, natToBits raw0.length 0) :: canonLoop rest (natToBits raw0.length 0) := by
            rw [generate_canonical_codes]
            rw [hfirst]
          have hval0 : byteOfBits (natToBits raw0.length 0) = 0 := by
            rw [byteOfBits_natToBits]
            exact Nat.zero_mod _
          have hlen0 : (natToBits raw0.length 0).length = raw0.length := natToBits_length _ _
          have hsep_full : List.Pairwise (sepAt L)
              ((s0, natToBits raw0.length 0) :: canonLoop rest (natToBits raw0.length 0)) := by
            refine List.Pairwise.cons ?_ ch4
            intro q hq
            unfold sepAt
            rw [hval0, hlen0]
            have := ch3 q hq
            rw [Nat.zero_add, Nat.one_mul] at this
            rw [Nat.zero_add, Nat.one_mul]
            exact this
          have hlen_le_full : ∀ q ∈ (s0, natToBits raw0.length 0) ::
              canonLoop rest (natToBits raw0.length 0), q.2.length ≤ L := by
            intro q hq
            rcases List.mem_cons.mp hq with rfl | hq
            · rw [hlen0]; exact hl0L
            · exact ch5 q hq
          have hmap : ((s0, natToBits raw0.length 0) ::
              canonLoop rest (natToBits raw0.length 0)).map (fun p => p.2.length) =
              raw0.length :: rest.map (fun p => p.2.length) := by
            rw [List.map_cons, ch2, hlen0]
          have hpw0 : List.Pairwise (· ≤ ·)
              (((s0, natToBits raw0.length 0) ::
                canonLoop rest (natToBits raw0.length 0)).map (fun p => p.2.length)) := by
            rw [hmap]
            simpa using hsortlen
          have hlenpw := List.pairwise_map.mp hpw0
          refine ⟨?_, ?_, ?_⟩
          · rw [hgen, List.map_cons, List.map_cons, ch1]
          · rw [hgen, List.map_cons, List.map_cons, ch2, hlen0]
          · rw [hgen]
            have hcomb := hsep_full.and hlenpw
            apply hcomb.imp_of_mem
            intro a b ha hb hab
            obtain ⟨hsep, hlenab⟩ := hab
            exact not_prefix_of_scaled a.2 b.2 L
              (hlen_le_full a ha) (hlen_le_full b hb) hlenab hsep

/-- Sortedness of the generated code list, shared helper. -/
theorem generate_huffman_codes_sorted (t : Node) :
    List.Sorted codeLE (generate_huffman_codes t) := by
  unfold generate_huffman_codes
  exact List.sorted_insertionSort codeLE _

/-- The generated code list is, up to order, the leaf path list. -/
theorem generate_huffman_codes_perm (t : Node) (h : WFTree t) :
    (generate_huffman_codes t).Perm (leafPaths t []) := by
  unfold generate_huffman_codes
  have h1 := List.perm_insertionSort codeLE (codesLoop [(t, [])] [])
  have h2 : (codesLoop [(t, [])] []).Perm (leafPaths t []) := by
    rw [codesLoop_eq_emitRF t]
    exact emitRF_perm t h []
  exact h1.trans h2

/-- Membership transfer and Kraft equality for the generated code list. -/
theorem generate_lens_le (t : Node) (h : WFTree t) :
    ∀ p ∈ generate_huffman_codes t, p.2.length ≤ treeDepth t := by
  intro p hp
  have hperm := generate_huffman_codes_perm t h
  exact leafPaths_length_le t p (hperm.mem_iff.mp hp)

theorem generate_kraft (t : Node) (h : WFTree t) :
    ((generate_huffman_codes t).map (fun p => 2 ^ (treeDepth t - p.2.length))).sum =
      2 ^ treeDepth t := by
  have hperm := (generate_huffman_codes_perm t h).map (fun p => 2 ^ (treeDepth t - p.2.length))
  rw [hperm.sum_eq]
  exact kraft_leafPaths t h

/-- Claim C2: for the (length, symbol)-sorted code list of any well-formed
tree with pairwise distinct leaf symbols, the canonical table is prefix-free:
no assigned code is a prefix of a distinct symbol's assigned code. -/
theorem c2_prefix_free (t : Node) (hwf : WFTree t)
    (hnodup : ((leafPaths t []).map (fun p => p.1)).Nodup)
    (s1 s2 : Nat) (d1 d2 : List Bool) (hne : s1 ≠ s2)
    (h1 : (generate_canonical_codes (generate_huffman_codes t)).lookup s1 = some d1)
    (h2 : (generate_canonical_codes (generate_huffman_codes t)).lookup s2 = some d2) :
    ¬ d1 <+: d2 := by
  have hprops := canonical_table_props (generate_huffman_codes t) (treeDepth t)
    (generate_huffman_codes_sorted t) (generate_lens_le t hwf) (generate_kraft t hwf)
  obtain ⟨_, _, hpw⟩ := hprops
  have hm1 : (s1, d1) ∈ generate_canonical_codes (generate_huffman_codes t) := lookup_mem h1
  have hm2 : (s2, d2) ∈ generate_canonical_codes (generate_huffman_codes t) := lookup_mem h2
  obtain ⟨i, hi⟩ := List.mem_iff_get.mp hm1
  obtain ⟨j, hj⟩ := List.mem_iff_get.mp hm2
  have hij : (i : Nat) ≠ (j : Nat) := by
    intro hcon
    have : i = j := Fin.ext hcon
    rw [this, hj] at hi
    have : s2 = s1 := congrArg Prod.fst hi
    exact hne this.symm
  have hget := List.pairwise_iff_get.mp hpw
  rcases Nat.lt_or_ge (i : Nat) (j : Nat) with hlt | hge
  · have := hget i j hlt
    rw [hi, hj] at this
    exact this.1
  · have hlt2 : (j : Nat) < (i : Nat) := by omega
    have := hget j i hlt2
    rw [hi, hj] at this
    exact this.2

/-- Witness for C2 at a concrete two-leaf tree: the codes of the two leaves
are 0 and 1, neither a prefix of the other. -/
theorem c2_prefix_free_witness :
    ¬ ([false] : List Bool) <+: [true] :=
  c2_prefix_free (Node.mk 0 2 (some (Node.mk 3 1 none none)) (some (Node.mk 4 1 none none)))
    (by simp [WFTree]) (by decide) 3 4 [false] [true] (by decide) (by decide) (by decide)

/-! ## Structure of the built tree -/

theorem huffLoopF_congr (fuel : Nat) :
    ∀ (fuel' : Nat) (q : List Node), q.length ≤ fuel + 1 → q.length ≤ fuel' + 1 →
      huffLoopF fuel q = huffLoopF fuel' q := by
  induction fuel with
  | zero =>
      intro fuel' q hq _
      match q with
      | [] => cases fuel' <;> rfl
      | [n] => cases fuel' <;> rfl
      | a :: b :: rest => simp at hq
  | succ fuel ih =>
      intro fuel' q hq hq'
      match q with
      | [] => cases fuel' <;> rfl
      | [n] => cases fuel' <;> rfl
      | a :: b :: rest =>
          match fuel' with
          | 0 => simp at hq'
          | fuel' + 1 =>
              rw [huffLoopF, huffLoopF]
              apply ih
              · rw [qpush_length]
                simp at hq
                omega
              · rw [qpush_length]
                simp at hq'
                omega

theorem huffLoop_cons2 (a b : Node) (rest : List Node) :
    huffLoop (a :: b :: rest) =
      huffLoop (qpush (Node.mk 0 (a.frequency + b.frequency) (some a) (some b)) rest) := by
  unfold huffLoop
  rw [show (a :: b :: rest).length = rest.length + 2 by simp]
  rw [huffLoopF]
  apply huffLoopF_congr
  · rw [qpush_length]
    omega
  · rw [qpush_length]
    omega

theorem qpush_perm (n : Node) (q : List Node) : (qpush n q).Perm (n :: q) := by
  induction q with
  | nil => exact List.Perm.refl _
  | cons m q ih =>
      rw [qpush]
      split
      · exact (List.Perm.cons m ih).trans (List.Perm.swap n m q)
      · exact List.Perm.refl _

/-- The leaves of the merged tree are the leaves of the queue members. -/
theorem huffLoop_leafSyms (n : Nat) :
    ∀ q : List Node, q.length ≤ n → q ≠ [] →
      (leafSyms (huffLoop q)).Perm ((q.map leafSyms).flatten) := by
  induction n with
  | zero =>
      intro q hq hne
      cases q with
      | nil => exact absurd rfl hne
      | cons a rest => simp at hq
  | succ n ih =>
      intro q hq hne
      match q with
      | [a] =>
          simp [huffLoop, huffLoopF]
      | a :: b :: rest =>
          rw [huffLoop_cons2]
          have hql : (qpush (Node.mk 0 (a.frequency + b.frequency) (some a) (some b)) rest).length =
              rest.length + 1 := qpush_length _ _
          have hqne : qpush (Node.mk 0 (a.frequency + b.frequency) (some a) (some b)) rest ≠ [] := by
            intro hcon
            rw [hcon] at hql
            simp at hql
          have hIH := ih _ (by simp at hq; omega) hqne
          refine hIH.trans ?_
          have hperm := (qpush_perm (Node.mk 0 (a.frequency + b.frequency) (some a) (some b)) rest)
          have hmap := (hperm.map leafSyms).flatten
          refine hmap.trans ?_
          rw [List.map_cons, List.flatten_cons]
          have hpar : leafSyms (Node.mk 0 (a.frequency + b.frequency) (some a) (some b)) =
              leafSyms a ++ leafSyms b := by rw [leafSyms]
          rw [hpar]
          simp [List.append_assoc]

/-- The leaves of the built tree are exactly the frequency-table entries. -/
theorem build_leafSyms (freqs : List (Nat × Nat)) (hne : freqs ≠ []) :
    (leafSyms (build_huffman_tree freqs)).Perm freqs := by
  unfold build_huffman_tree
  have hq : ∀ (fs : List (Nat × Nat)) (q0 : List Node),
      ((fs.foldl (fun q sf => qpush (Node.mk sf.1 sf.2 none none) q) q0).map leafSyms).flatten.Perm
        ((q0.map leafSyms).flatten ++ fs) := by
    intro fs
    induction fs with
    | nil => intro q0; simp
    | cons sf fs ih =>
        intro q0
        rw [List.foldl_cons]
        refine (ih _).trans ?_
        have hperm := (qpush_perm (Node.mk sf.1 sf.2 none none) q0).map leafSyms
        have hflat := hperm.flatten
        refine (List.Perm.append hflat (List.Perm.refl fs)).trans ?_
        rw [List.map_cons, List.flatten_cons]
        have hleaf : leafSyms (Node.mk sf.1 sf.2 none none) = [(sf.1, sf.2)] := by rw [leafSyms]
        rw [hleaf]
        have h1 : ([(sf.1, sf.2)] ++ (q0.map leafSyms).flatten) ++ fs =
            (sf.1, sf.2) :: ((q0.map leafSyms).flatten ++ fs) := by simp
        rw [h1]
        have h2 : (q0.map leafSyms).flatten ++ sf :: fs =
            (q0.map leafSyms).flatten ++ [sf] ++ fs := by simp
        rw [h2]
        have h3 : ((q0.map leafSyms).flatten ++ [sf]).Perm (sf :: (q0.map leafSyms).flatten) := by
          have := @List.perm_append_comm _ ((q0.map leafSyms).flatten) [sf]
          simpa using this
        have h4 := List.Perm.append h3 (List.Perm.refl fs)
        simpa using h4.symm
  have hqlen : (freqs.foldl (fun q sf => qpush (Node.mk sf.1 sf.2 none none) q) []).length =
      freqs.length := by
    have : ∀ (fs : List (Nat × Nat)) (q0 : List Node),
        (fs.foldl (fun q sf => qpush (Node.mk sf.1 sf.2 none none) q) q0).length =
          q0.length + fs.length := by
      intro fs
      induction fs with
      | nil => intro q0; simp
      | cons sf fs ih =>
          intro q0
          rw [List.foldl_cons, ih, qpush_length]
          simp only [List.length_cons]
          omega
    rw [this freqs []]
    simp
  have hne2 : (freqs.foldl (fun q sf => qpush (Node.mk sf.1 sf.2 none none) q) []) ≠ [] := by
    intro hcon
    rw [hcon] at hqlen
    simp at hqlen
    exact hne (List.length_eq_zero.mp hqlen.symm)
  refine (huffLoop_leafSyms _ _ (Nat.le_refl _) hne2).trans ?_
  refine (hq freqs []).trans ?_
  simp

/-! ## Content packing and byte-stream lemmas -/

theorem foldl_pushBits_flatten (f : Nat → List Bool) (cs : List Nat) :
    ∀ st : List Nat × List Bool,
      cs.foldl (fun st c => pushBits st (f c)) st = pushBits st ((cs.map f).flatten) := by
  induction cs with
  | nil => intro st; simp [pushBits]
  | cons c rest ih =>
      intro st
      rw [List.foldl_cons, ih, List.map_cons, List.flatten_cons, pushBits_append]

/-- The content bytes are the byte-packing of the concatenated codes of the
content symbols followed by the end-of-stream code. -/
theorem encode_content_eq (lines : List (List Nat)) (table : List (Nat × List Bool)) :
    encode_content lines table =
      bytePack
        (((contentSymbols lines).map (fun c => (table.lookup c).getD [])).flatten ++
          (table.lookup END_OF_TEXT).getD []) := by
  simp only [encode_content]
  rw [foldl_pushBits_flatten, ← pushBits_append]
  rw [flushPad_pushBits _ [] [] (by simp)]
  simp

theorem natToBits8_cons (b0 b1 b2 b3 b4 b5 b6 b7 : Bool) :
    natToBits 8 (byteOfBits [b0, b1, b2, b3, b4, b5, b6, b7]) =
      [b0, b1, b2, b3, b4, b5, b6, b7] :=
  natToBits_byteOfBits [b0, b1, b2, b3, b4, b5, b6, b7]

theorem bytesToBits_cons (x : Nat) (l : List Nat) :
    bytesToBits (x :: l) = natToBits 8 x ++ bytesToBits l := by
  rw [bytesToBits, List.map_cons, List.flatten_cons, bytesToBits]

/-- Unpacking the packed bytes recovers the bit stream followed by the final
byte's zero padding. -/
theorem bytesToBits_bytePack (bits : List Bool) :
    bytesToBits (bytePack bits) =
      bits ++ List.replicate ((8 - bits.length % 8) % 8) false := by
  induction bits using bytePack.induct with
  | case1 => rfl
  | case2 b0 =>
      rw [bytePack, bytesToBits_cons, natToBits8_cons]
      rfl
  | case3 b0 b1 =>
      rw [bytePack, bytesToBits_cons, natToBits8_cons]
      rfl
  | case4 b0 b1 b2 =>
      rw [bytePack, bytesToBits_cons, natToBits8_cons]
      rfl
  | case5 b0 b1 b2 b3 =>
      rw [bytePack, bytesToBits_cons, natToBits8_cons]
      rfl
  | case6 b0 b1 b2 b3 b4 =>
      rw [bytePack, bytesToBits_cons, natToBits8_cons]
      rfl
  | case7 b0 b1 b2 b3 b4 b5 =>
      rw [bytePack, bytesToBits_cons, natToBits8_cons]
      rfl
  | case8 b0 b1 b2 b3 b4 b5 b6 =>
      rw [bytePack, bytesToBits_cons, natToBits8_cons]
      rfl
  | case9 b0 b1 b2 b3 b4 b5 b6 b7 rest ih =>
      rw [bytePack, bytesToBits_cons, natToBits8_cons, ih]
      have hlen : (8 - (b0 :: b1 :: b2 :: b3 :: b4 :: b5 :: b6 :: b7 :: rest).length % 8) % 8 =
          (8 - rest.length % 8) % 8 := by
        simp only [List.length_cons]
        omega
      rw [hlen]
      simp

/-- Reading the `i`-th `w`-bit field of a flattened list of `w`-bit blocks
recovers the `i`-th block, any suffix notwithstanding. -/
theorem flatten_extract {α : Type} (w : Nat) :
    ∀ (blocks : List (List α)) (suffix : List α),
      (∀ b ∈ blocks, b.length = w) →
      ∀ i, i < blocks.length →
        ((blocks.flatten ++ suffix).drop (i * w)).take w = blocks.getD i [] := by
  intro blocks
  induction blocks with
  | nil =>
      intro suffix _ i hi
      simp at hi
  | cons b bs ih =>
      intro suffix hw i hi
      have hbw : b.length = w := hw b (List.mem_cons_self _ _)
      cases i with
      | zero =>
          simp only [Nat.zero_mul, List.drop_zero, List.flatten_cons, List.getD_cons_zero]
          rw [List.append_assoc]
          exact List.take_left' hbw
      | succ i =>
          rw [List.flatten_cons, List.append_assoc, List.getD_cons_succ]
          have hmul : (i + 1) * w = w + i * w := by ring
          rw [hmul, ← List.drop_drop, List.drop_left' hbw]
          exact ih suffix (fun x hx => hw x (List.mem_cons_of_mem b hx)) i
            (by simpa using hi)

/-! ## Header field extraction -/

/-- Parsing the header fields of an encoded length map recovers the map. -/
theorem headerLengths_encode (w : Nat) (lens : Nat → Nat)
    (hlt : ∀ c ∈ alphabetChars, lens c < 2 ^ w) (suffix : List Bool) :
    headerLengths w ((alphabetChars.map (fun c => natToBits w (lens c))).flatten ++ suffix) =
      alphabetChars.map (fun c => (c, lens c)) := by
  rw [headerLengths]
  have hrange : alphabetChars = (List.range alphabetChars.length).map
      (fun i => FIRST_CHARACTER + i) := by
    rw [alphabetChars_length, alphabetChars, List.range'_eq_map_range]
  conv_rhs => rw [hrange]
  rw [List.map_map]
  apply List.map_congr_left
  intro i hi
  have hiA : i < alphabetChars.length := List.mem_range.mp hi
  have hmem : FIRST_CHARACTER + i ∈ alphabetChars := by
    rw [mem_alphabetChars]
    rw [alphabetChars_length] at hiA
    have hfs : FIRST_CHARACTER + (SUPPORTED_CHARACTERS - FIRST_CHARACTER) =
        SUPPORTED_CHARACTERS := by decide
    omega
  have hblocks : ∀ b ∈ alphabetChars.map (fun c => natToBits w (lens c)), b.length = w := by
    intro b hb
    obtain ⟨c, _, rfl⟩ := List.mem_map.mp hb
    exact natToBits_length _ _
  have hext := flatten_extract w (alphabetChars.map (fun c => natToBits w (lens c))) suffix
    hblocks i (by simpa using hiA)
  rw [hext]
  have hgetD : (alphabetChars.map (fun c => natToBits w (lens c))).getD i [] =
      natToBits w (lens (FIRST_CHARACTER + i)) := by
    rw [List.getD_eq_getElem _ _ (by simpa using hiA), List.getElem_map]
    have hval : alphabetChars[i] = FIRST_CHARACTER + i := by
      simp [alphabetChars, List.getElem_range']
    rw [hval]
  rw [hgetD, natToBits_eq_of_lt (hlt _ hmem)]
  simp

/-! ## Association-list key lemmas -/

theorem lookup_of_mem_nodup {β : Type} :
    ∀ (l : List (Nat × β)), (l.map (fun p => p.1)).Nodup →
      ∀ {s : Nat} {v : β}, (s, v) ∈ l → l.lookup s = some v := by
  intro l
  induction l with
  | nil => intro _ s v h; cases h
  | cons p rest ih =>
      intro hnd s v hmem
      obtain ⟨p1, p2⟩ := p
      simp only [List.map_cons] at hnd
      have hnd' := List.nodup_cons.mp hnd
      rcases List.mem_cons.mp hmem with heq | hmem'
      · cases heq
        exact lookup_cons_eq _ _ _
      · have hne : s ≠ p1 := by
          intro hcon
          subst hcon
          exact hnd'.1 (List.mem_map.mpr ⟨(s, v), hmem', rfl⟩)
        rw [lookup_cons_ne hne, ih hnd'.2 hmem']

theorem lookup_isSome_of_mem_fst {β : Type} :
    ∀ (l : List (Nat × β)) {s : Nat}, s ∈ l.map (fun p => p.1) →
      (l.lookup s).isSome := by
  intro l
  induction l with
  | nil => intro s h; cases h
  | cons p rest ih =>
      intro s h
      obtain ⟨p1, p2⟩ := p
      by_cases hs : s = p1
      · subst hs
        rw [lookup_cons_eq]
        rfl
      · rw [lookup_cons_ne hs]
        simp only [List.map_cons, List.mem_cons] at h
        rcases h with h | h
        · exact absurd h hs
        · exact ih h

theorem mem_fst_of_lookup {β : Type} {l : List (Nat × β)} {s : Nat} {v : β}
    (h : l.lookup s = some v) : s ∈ l.map (fun p => p.1) :=
  List.mem_map.mpr ⟨(s, v), lookup_mem h, rfl⟩

/-- An association list with distinct keys is the graph of its lookup
function over its key list. -/
theorem map_graph_of_nodup {β γ : Type} (f : β → γ) (d : β) :
    ∀ (l : List (Nat × β)), (l.map (fun p => p.1)).Nodup →
      l.map (fun p => (p.1, f p.2)) =
        (l.map (fun p => p.1)).map (fun c => (c, f ((l.lookup c).getD d))) := by
  intro l
  induction l with
  | nil => intro _; rfl
  | cons p rest ih =>
      intro hnd
      obtain ⟨p1, p2⟩ := p
      simp only [List.map_cons] at hnd ⊢
      have hnd' := List.nodup_cons.mp hnd
      rw [lookup_cons_eq]
      simp only [Option.getD_some]
      congr 1
      rw [ih hnd'.2]
      apply List.map_congr_left
      intro c hc
      have hne : c ≠ p1 := fun hcon => hnd'.1 (hcon ▸ hc)
      rw [lookup_cons_ne hne]

/-! ## (symbol, length) projection order -/

theorem sorted_codeLE_proj (l : List (Nat × List Bool)) (h : List.Sorted codeLE l) :
    List.Sorted klE (l.map (fun p => (p.1, p.2.length))) := by
  unfold List.Sorted at h ⊢
  rw [List.pairwise_map]
  apply h.imp
  intro a b hab
  exact hab

theorem map_pair_congr {α β γ : Type} (f : α → β) (g : α → γ) :
    ∀ (l₁ l₂ : List α), l₁.map f = l₂.map f → l₁.map g = l₂.map g →
      l₁.map (fun x => (f x, g x)) = l₂.map (fun x => (f x, g x)) := by
  intro l₁
  induction l₁ with
  | nil =>
      intro l₂ hf _
      cases l₂ with
      | nil => rfl
      | cons b l₂ => simp at hf
  | cons a l₁ ih =>
      intro l₂ hf hg
      cases l₂ with
      | nil => simp at hf
      | cons b l₂ =>
          simp only [List.map_cons, List.cons.injEq] at hf hg ⊢
          exact ⟨by rw [hf.1, hg.1], ih l₂ hf.2 hg.2⟩

/-! ## Canonical assignment depends only on symbols and lengths -/

theorem canonLoop_congr :
    ∀ (l₁ l₂ : List (Nat × List Bool)) (code : List Bool),
      l₁.map (fun p => (p.1, p.2.length)) = l₂.map (fun p => (p.1, p.2.length)) →
      canonLoop l₁ code = canonLoop l₂ code := by
  intro l₁
  induction l₁ with
  | nil =>
      intro l₂ code h
      cases l₂ with
      | nil => rfl
      | cons q l₂ => simp at h
  | cons p l₁ ih =>
      intro l₂ code h
      cases l₂ with
      | nil => simp at h
      | cons q l₂ =>
          obtain ⟨p1, p2⟩ := p
          obtain ⟨q1, q2⟩ := q
          simp only [List.map_cons, List.cons.injEq, Prod.mk.injEq] at h
          obtain ⟨⟨h1, h2⟩, htail⟩ := h
          simp only [canonLoop]
          rw [h1, h2, ih l₂ (padCode (next_binary code) q2.length) htail]

/-- The canonical table is a function of the (symbol, raw length) list
alone. -/
theorem generate_canonical_congr (l₁ l₂ : List (Nat × List Bool))
    (h : l₁.map (fun p => (p.1, p.2.length)) = l₂.map (fun p => (p.1, p.2.length))) :
    generate_canonical_codes l₁ = generate_canonical_codes l₂ := by
  cases l₁ with
  | nil =>
      cases l₂ with
      | nil => rfl
      | cons q l₂ => simp at h
  | cons p l₁ =>
      cases l₂ with
      | nil => simp at h
      | cons q l₂ =>
          obtain ⟨p1, p2⟩ := p
          obtain ⟨q1, q2⟩ := q
          simp only [List.map_cons, List.cons.injEq, Prod.mk.injEq] at h
          obtain ⟨⟨h1, h2⟩, htail⟩ := h
          simp only [generate_canonical_codes]
          rw [h1, h2, canonLoop_congr l₁ l₂ _ htail]

/-! ## A filtered enumeration is a permutation of a key list -/

theorem filter_perm_of_nodup (l₁ l₂ : List Nat) (p : Nat → Bool)
    (hnd₁ : l₁.Nodup) (hnd₂ : l₂.Nodup) (hsub : ∀ a ∈ l₂, a ∈ l₁)
    (hiff : ∀ a, p a = true ↔ a ∈ l₂) :
    (l₁.filter p).Perm l₂ := by
  rw [List.perm_iff_count]
  intro a
  by_cases hp : p a = true
  · rw [List.count_filter hp]
    have ha₂ : a ∈ l₂ := (hiff a).mp hp
    rw [List.count_eq_one_of_mem hnd₁ (hsub a ha₂), List.count_eq_one_of_mem hnd₂ ha₂]
  · have ha₂ : a ∉ l₂ := fun h => hp ((hiff a).mpr h)
    have hnot : a ∉ l₁.filter p := by
      intro h
      exact hp (List.of_mem_filter h)
    rw [List.count_eq_zero.mpr ha₂, List.count_eq_zero.mpr hnot]

/-! ## Well-formedness and shape of the built tree -/

theorem huffLoop_WF (n : Nat) :
    ∀ q : List Node, q.length ≤ n → q ≠ [] → (∀ t ∈ q, WFTree t) →
      WFTree (huffLoop q) := by
  induction n with
  | zero =>
      intro q hq hne _
      cases q with
      | nil => exact absurd rfl hne
      | cons a rest => simp at hq
  | succ n ih =>
      intro q hq hne hwf
      match q with
      | [a] =>
          have ha : huffLoop [a] = a := by simp [huffLoop, huffLoopF]
          rw [ha]
          exact hwf a (List.mem_cons_self _ _)
      | a :: b :: rest =>
          rw [huffLoop_cons2]
          have hq' :
              (qpush (Node.mk 0 (a.frequency + b.frequency) (some a) (some b)) rest).length ≤
                n := by
            rw [qpush_length]
            simp at hq
            omega
          apply ih _ hq'
          · intro hcon
            have hl := congrArg List.length hcon
            rw [qpush_length] at hl
            simp at hl
          · intro t ht
            have hmem := (qpush_perm _ _).mem_iff.mp ht
            rcases List.mem_cons.mp hmem with h | h
            · subst h
              exact ⟨rfl, hwf a (List.mem_cons_self _ _),
                hwf b (List.mem_cons_of_mem _ (List.mem_cons_self _ _))⟩
            · exact hwf t (List.mem_cons_of_mem _ (List.mem_cons_of_mem _ h))

theorem buildQueue_length (freqs : List (Nat × Nat)) :
    ∀ q0 : List Node,
      (freqs.foldl (fun q sf => qpush (Node.mk sf.1 sf.2 none none) q) q0).length =
        q0.length + freqs.length := by
  induction freqs with
  | nil => intro q0; simp
  | cons sf freqs ih =>
      intro q0
      rw [List.foldl_cons, ih, qpush_length]
      simp only [List.length_cons]
      omega

theorem buildQueue_mem (freqs : List (Nat × Nat)) :
    ∀ (q0 : List Node) (t : Node),
      t ∈ freqs.foldl (fun q sf => qpush (Node.mk sf.1 sf.2 none none) q) q0 →
      t ∈ q0 ∨ ∃ sf ∈ freqs, t = Node.mk sf.1 sf.2 none none := by
  induction freqs with
  | nil =>
      intro q0 t ht
      exact Or.inl ht
  | cons sf freqs ih =>
      intro q0 t ht
      rcases ih _ t ht with h | ⟨sf', hsf', rfl⟩
      · have hmem := (qpush_perm _ _).mem_iff.mp h
        rcases List.mem_cons.mp hmem with h1 | h1
        · exact Or.inr ⟨sf, List.mem_cons_self _ _, h1⟩
        · exact Or.inl h1
      · exact Or.inr ⟨sf', List.mem_cons_of_mem _ hsf', rfl⟩

/-- A tree built from a table of non-null symbols is well formed. -/
theorem build_WF (freqs : List (Nat × Nat)) (hne : freqs ≠ [])
    (hsym : ∀ p ∈ freqs, p.1 ≠ 0) :
    WFTree (build_huffman_tree freqs) := by
  unfold build_huffman_tree
  apply huffLoop_WF freqs.length
  · rw [buildQueue_length]
    simp
  · intro hcon
    have hl := congrArg List.length hcon
    rw [buildQueue_length] at hl
    simp at hl
    exact hne hl
  · intro t ht
    rcases buildQueue_mem freqs [] t ht with h | ⟨sf, hsf, rfl⟩
    · cases h
    · exact hsym sf hsf

/-- A queue of at least two nodes merges into an inner node. -/
theorem huffLoop_internal (n : Nat) :
    ∀ q : List Node, q.length ≤ n → 2 ≤ q.length →
      ∃ s f a b, huffLoop q = Node.mk s f (some a) (some b) := by
  induction n with
  | zero =>
      intro q hq h2
      omega
  | succ n ih =>
      intro q hq h2
      match q with
      | a :: b :: rest =>
          rw [huffLoop_cons2]
          cases rest with
          | nil =>
              refine ⟨0, a.frequency + b.frequency, a, b, ?_⟩
              simp [qpush, huffLoop, huffLoopF]
          | cons c rest2 =>
              apply ih
              · rw [qpush_length]
                simp at hq ⊢
                omega
              · rw [qpush_length]
                simp

/-- The root of a tree built from at least two entries is an inner node. -/
theorem build_internal (freqs : List (Nat × Nat)) (h2 : 2 ≤ freqs.length) :
    ∃ s f a b, build_huffman_tree freqs = Node.mk s f (some a) (some b) := by
  unfold build_huffman_tree
  apply huffLoop_internal freqs.length
  · rw [buildQueue_length]
    simp
  · rw [buildQueue_length]
    simpa using h2

/-- Every emitted path is at least as long as the starting code. -/
theorem leafPaths_length_ge (n : Nat) :
    ∀ (t : Node), nodeSize t ≤ n → ∀ code, ∀ p ∈ leafPaths t code,
      code.length ≤ p.2.length := by
  induction n with
  | zero =>
      intro t hsz _ _ _
      exact absurd hsz (by have := nodeSize_pos t; omega)
  | succ n ih =>
      intro t hsz code p hp
      cases t with
      | mk s f l r =>
      have hsize : nodeSize (Node.mk s f l r) = 1 + optNodeSize l + optNodeSize r := by
        rw [nodeSize]
      cases l with
      | none =>
          cases r with
          | none =>
              rw [leafPaths] at hp
              rcases List.mem_singleton.mp hp with rfl
              simp
          | some rn =>
              have hsr : optNodeSize (some rn) = nodeSize rn := rfl
              rw [hsize, hsr] at hsz
              rw [leafPaths] at hp
              have hrec := ih rn (by omega) (code ++ [true]) p hp
              simp at hrec
              omega
      | some ln =>
          cases r with
          | none =>
              have hsl : optNodeSize (some ln) = nodeSize ln := rfl
              rw [hsize, hsl] at hsz
              rw [leafPaths] at hp
              have hrec := ih ln (by omega) (code ++ [false]) p hp
              simp at hrec
              omega
          | some rn =>
              have hsl : optNodeSize (some ln) = nodeSize ln := rfl
              have hsr : optNodeSize (some rn) = nodeSize rn := rfl
              rw [hsize, hsl, hsr] at hsz
              rw [leafPaths] at hp
              rcases List.mem_append.mp hp with h | h
              · have hrec := ih ln (by omega) (code ++ [false]) p h
                simp at hrec
                omega
              · have hrec := ih rn (by omega) (code ++ [true]) p h
                simp at hrec
                omega

/-- The path list's symbols are the leaf symbols, in order. -/
theorem leafPaths_fst (n : Nat) :
    ∀ (t : Node), nodeSize t ≤ n → ∀ code,
      (leafPaths t code).map (fun p => p.1) = (leafSyms t).map (fun p => p.1) := by
  induction n with
  | zero =>
      intro t hsz _
      exact absurd hsz (by have := nodeSize_pos t; omega)
  | succ n ih =>
      intro t hsz code
      cases t with
      | mk s f l r =>
      have hsize : nodeSize (Node.mk s f l r) = 1 + optNodeSize l + optNodeSize r := by
        rw [nodeSize]
      cases l with
      | none =>
          cases r with
          | none =>
              rw [leafPaths, leafSyms]
              simp
          | some rn =>
              have hsr : optNodeSize (some rn) = nodeSize rn := rfl
              rw [hsize, hsr] at hsz
              rw [leafPaths, leafSyms]
              exact ih rn (by omega) _
      | some ln =>
          cases r with
          | none =>
              have hsl : optNodeSize (some ln) = nodeSize ln := rfl
              rw [hsize, hsl] at hsz
              rw [leafPaths, leafSyms]
              exact ih ln (by omega) _
          | some rn =>
              have hsl : optNodeSize (some ln) = nodeSize ln := rfl
              have hsr : optNodeSize (some rn) = nodeSize rn := rfl
              rw [hsize, hsl, hsr] at hsz
              rw [leafPaths, leafSyms]
              rw [List.map_append, List.map_append]
              rw [ih ln (by omega) _, ih rn (by omega) _]

/-! ## Frequency-table key structure -/

theorem alistIncr_fst (t : List (Nat × Nat)) (s : Nat) :
    (alistIncr t s).map (fun p => p.1) =
      if s ∈ t.map (fun p => p.1) then t.map (fun p => p.1)
      else t.map (fun p => p.1) ++ [s] := by
  induction t with
  | nil => simp [alistIncr]
  | cons p rest ih =>
      obtain ⟨k, v⟩ := p
      rw [alistIncr]
      by_cases hk : k = s
      · subst hk
        simp
      · rw [if_neg hk]
        simp only [List.map_cons, ih]
        by_cases hmem : s ∈ rest.map (fun p => p.1)
        · rw [if_pos hmem, if_pos (by simp [hmem])]
        · rw [if_neg hmem, if_neg (by
            simp only [List.mem_cons]
            push_neg
            exact ⟨fun h => hk h.symm, hmem⟩)]
          simp

theorem alistIncr_nodup (t : List (Nat × Nat)) (s : Nat)
    (h : (t.map (fun p => p.1)).Nodup) :
    ((alistIncr t s).map (fun p => p.1)).Nodup := by
  rw [alistIncr_fst]
  split
  · exact h
  · next hmem =>
      rw [List.nodup_append]
      exact ⟨h, List.nodup_singleton s, List.disjoint_singleton.mpr hmem⟩

theorem mem_alistIncr_fst (t : List (Nat × Nat)) (s s' : Nat) :
    s' ∈ (alistIncr t s).map (fun p => p.1) ↔ s' ∈ t.map (fun p => p.1) ∨ s' = s := by
  rw [alistIncr_fst]
  split
  · next hmem =>
      constructor
      · exact Or.inl
      · rintro (h | rfl)
        · exact h
        · exact hmem
  · next hmem =>
      simp [List.mem_append]

theorem foldl_alistIncr_fst_nodup (cs : List Nat) :
    ∀ t : List (Nat × Nat), (t.map (fun p => p.1)).Nodup →
      ((cs.foldl alistIncr t).map (fun p => p.1)).Nodup := by
  induction cs with
  | nil => intro t h; exact h
  | cons c cs ih =>
      intro t h
      exact ih _ (alistIncr_nodup t c h)

theorem foldl_alistIncr_fst_mem (cs : List Nat) :
    ∀ (t : List (Nat × Nat)) (s : Nat),
      s ∈ (cs.foldl alistIncr t).map (fun p => p.1) ↔
        s ∈ t.map (fun p => p.1) ∨ s ∈ cs := by
  induction cs with
  | nil => intro t s; simp
  | cons c cs ih =>
      intro t s
      rw [List.foldl_cons, ih, mem_alistIncr_fst]
      simp only [List.mem_cons]
      tauto

theorem two_le_length_of_mem_ne {l : List Nat} {a b : Nat} (ha : a ∈ l) (hb : b ∈ l)
    (hne : a ≠ b) : 2 ≤ l.length := by
  match l with
  | [] => cases ha
  | [x] =>
      rw [List.mem_singleton] at ha hb
      exact absurd (ha.trans hb.symm) hne
  | x :: y :: rest => simp

/-! ## Decoder loop correctness -/

/-- In a pairwise-nonprefix table, the first matching entry is the unique
entry whose code starts the stream. -/
theorem find?_unique_of_pairwise :
    ∀ (table : List (Nat × List Bool)),
      List.Pairwise (fun a b => ¬ a.2 <+: b.2 ∧ ¬ b.2 <+: a.2) table →
      ∀ (stream : List Bool) (s : Nat) (c : List Bool),
        (s, c) ∈ table → c <+: stream → c ≠ [] →
        table.find? (fun p => p.2.isPrefixOf stream && !p.2.isEmpty) = some (s, c) := by
  intro table
  induction table with
  | nil =>
      intro _ stream s c hmem
      cases hmem
  | cons q rest ih =>
      intro hpw stream s c hmem hpre hcne
      have hpw' := List.pairwise_cons.mp hpw
      by_cases hq : (q.2.isPrefixOf stream && !q.2.isEmpty) = true
      · rw [List.find?_cons_of_pos (p := fun x => x.2.isPrefixOf stream && !x.2.isEmpty)
          rest hq]
        rcases List.mem_cons.mp hmem with heq | hmem'
        · rw [heq]
        · exfalso
          have hrel := hpw'.1 (s, c) hmem'
          simp only [Bool.and_eq_true] at hq
          have hqpre : q.2 <+: stream := List.isPrefixOf_iff_prefix.mp hq.1
          rcases List.prefix_or_prefix_of_prefix hqpre hpre with h | h
          · exact hrel.1 h
          · exact hrel.2 h
      · rw [List.find?_cons_of_neg (p := fun x => x.2.isPrefixOf stream && !x.2.isEmpty)
          rest hq]
        rcases List.mem_cons.mp hmem with heq | hmem'
        · exfalso
          apply hq
          rw [← heq]
          simp only [Bool.and_eq_true, Bool.not_eq_true']
          exact ⟨List.isPrefixOf_iff_prefix.mpr hpre, List.isEmpty_eq_false.mpr hcne⟩
        · exact ih hpw'.2 stream s c hmem' hpre hcne

/-- The decoder loop recovers the encoded symbol sequence from the
concatenated codes followed by the end-of-stream code and arbitrary
trailing bits. -/
theorem decodeLoop_spec (table : List (Nat × List Bool))
    (hpw : List.Pairwise (fun a b => ¬ a.2 <+: b.2 ∧ ¬ b.2 <+: a.2) table)
    (cEOT : List Bool) (hEOT : (END_OF_TEXT, cEOT) ∈ table) (hEOTne : cEOT ≠ []) :
    ∀ (ss : List Nat) (fuel : Nat) (extra : List Bool),
      (∀ s ∈ ss, s ≠ END_OF_TEXT ∧ (s, (table.lookup s).getD []) ∈ table ∧
        (table.lookup s).getD [] ≠ []) →
      ss.length + 1 ≤ fuel →
      decodeLoop fuel table
        ((ss.map (fun s => (table.lookup s).getD [])).flatten ++ (cEOT ++ extra)) =
        some ss := by
  intro ss
  induction ss with
  | nil =>
      intro fuel extra _ hfuel
      obtain ⟨f1, rfl⟩ : ∃ f1, fuel = f1 + 1 := ⟨fuel - 1, by omega⟩
      rw [decodeLoop]
      simp only [List.map_nil, List.flatten_nil, List.nil_append]
      rw [find?_unique_of_pairwise table hpw (cEOT ++ extra) END_OF_TEXT cEOT hEOT
        (List.prefix_append _ _) hEOTne]
      dsimp only
      rw [if_pos rfl]
  | cons s ss ih =>
      intro fuel extra hss hfuel
      obtain ⟨f1, rfl⟩ : ∃ f1, fuel = f1 + 1 := ⟨fuel - 1, by omega⟩
      obtain ⟨hsne, hsmem, hscne⟩ := hss s (List.mem_cons_self _ _)
      rw [decodeLoop]
      simp only [List.map_cons, List.flatten_cons]
      rw [List.append_assoc]
      rw [find?_unique_of_pairwise table hpw _ s ((table.lookup s).getD []) hsmem
        (List.prefix_append _ _) hscne]
      dsimp only
      rw [if_neg hsne]
      rw [List.drop_left' rfl]
      rw [ih f1 extra (fun x hx => hss x (List.mem_cons_of_mem _ hx))
        (by simp only [List.length_cons] at hfuel; omega)]
      rfl

/-- A concatenation of nonempty codes is at least as long as the symbol
list producing it. -/
theorem flatten_length_ge (f : Nat → List Bool) :
    ∀ ss : List Nat, (∀ s ∈ ss, f s ≠ []) →
      ss.length ≤ ((ss.map f).flatten).length := by
  intro ss
  induction ss with
  | nil =>
      intro _
      simp
  | cons s ss ih =>
      intro h
      simp only [List.map_cons, List.flatten_cons, List.length_append, List.length_cons]
      have h1 : 0 < (f s).length := List.length_pos.mpr (h s (List.mem_cons_self _ _))
      have h2 := ih (fun x hx => h x (List.mem_cons_of_mem _ hx))
      omega

/-! ## Assembly lemmas for the round trip -/

theorem flatten_natToBits_length (w : Nat) (lens : Nat → Nat) (l : List Nat) :
    ((l.map (fun c => natToBits w (lens c))).flatten).length = l.length * w := by
  rw [List.length_flatten, List.map_map]
  have hmap : l.map (List.length ∘ fun c => natToBits w (lens c)) = l.map (fun _ => w) :=
    List.map_congr_left (fun c _ => natToBits_length _ _)
  rw [hmap, List.map_const', List.sum_replicate, smul_eq_mul]

/-- The pipeline's output on a successfully extracted frequency table. -/
theorem create_compressed_file_ok (lines : List (List Nat)) (fq : List (Nat × Nat))
    (hok : extract_frequencies lines = .ok fq) :
    create_compressed_file lines =
      .ok ((encode_codes_length (generate_canonical_codes (generate_huffman_codes
        (build_huffman_tree fq)))).1 ++
        encode_content lines (encode_codes_length (generate_canonical_codes
          (generate_huffman_codes (build_huffman_tree fq)))).2) := by
  unfold create_compressed_file
  rw [hok]

/-! ## Claim C1: the encode-decode round trip -/

/-- Claim C1: for every non-empty line-oriented input whose bytes all lie in
the supported text range (at least `FIRST_CHARACTER`, below
`SUPPORTED_CHARACTERS`, and distinct from the reserved end-of-stream
symbol), the pipeline succeeds and decoding its output — reading the field
width from byte 0, rebuilding the canonical table from the header's
per-symbol length fields, then bit-unpacking the content segment until the
end-of-stream code — reproduces the input symbol stream byte-for-byte,
line terminators included, the end-of-stream marker consuming the
terminating code. -/
theorem c1_roundtrip (lines : List (List Nat)) (hne : lines ≠ [])
    (hchars : ∀ c ∈ lines.flatten,
      FIRST_CHARACTER ≤ c ∧ c < SUPPORTED_CHARACTERS ∧ c ≠ END_OF_TEXT) :
    ∃ bytes, create_compressed_file lines = Except.ok bytes ∧
      decode_output bytes = some (contentSymbols lines) := by
  -- the content stream is in range
  have hcontent : ∀ c ∈ contentSymbols lines,
      FIRST_CHARACTER ≤ c ∧ c < SUPPORTED_CHARACTERS ∧ c ≠ END_OF_TEXT := by
    intro c hcm
    rcases (mem_contentSymbols c lines).mp hcm with ⟨l, hl, hcl⟩
    rcases List.mem_append.mp hcl with h | h
    · exact hchars c (List.mem_flatten.mpr ⟨l, hl, h⟩)
    · rw [List.mem_singleton] at h
      subst h
      exact ⟨by decide, by decide, by decide⟩
  have hnotlt : ∀ c ∈ contentSymbols lines, ¬ c < FIRST_CHARACTER := by
    intro c hcm
    have h1 := (hcontent c hcm).1
    omega
  -- the frequency table
  obtain ⟨fq, hfq⟩ : ∃ fq,
      fq = alistIncr ((contentSymbols lines).foldl alistIncr []) END_OF_TEXT := ⟨_, rfl⟩
  have hok : extract_frequencies lines = .ok fq := by
    rw [hfq]
    unfold extract_frequencies
    rw [extractLoop_ok _ _ hnotlt]
    rfl
  have hkeysnd : (fq.map (fun p => p.1)).Nodup := by
    rw [hfq]
    exact alistIncr_nodup _ _ (foldl_alistIncr_fst_nodup _ [] (by simp))
  have hkeymem : ∀ s : Nat,
      s ∈ fq.map (fun p => p.1) ↔ s ∈ contentSymbols lines ∨ s = END_OF_TEXT := by
    intro s
    rw [hfq, mem_alistIncr_fst, foldl_alistIncr_fst_mem]
    simp
  have hEOTkey : END_OF_TEXT ∈ fq.map (fun p => p.1) := (hkeymem _).mpr (Or.inr rfl)
  have hNLmem : NEW_LINE ∈ contentSymbols lines := by
    cases lines with
    | nil => exact absurd rfl hne
    | cons l rest =>
        exact (mem_contentSymbols _ _).mpr ⟨l, List.mem_cons_self _ _, by simp⟩
  have hNLkey : NEW_LINE ∈ fq.map (fun p => p.1) := (hkeymem _).mpr (Or.inl hNLmem)
  have hfqlen : 2 ≤ fq.length := by
    have h2 := two_le_length_of_mem_ne hNLkey hEOTkey (by decide)
    simpa using h2
  have hfqne : fq ≠ [] := by
    intro hcon
    rw [hcon] at hfqlen
    simp at hfqlen
  have hfqsym : ∀ p ∈ fq, p.1 ≠ 0 := by
    intro p hp
    have hmem : p.1 ∈ fq.map (fun p => p.1) := List.mem_map.mpr ⟨p, hp, rfl⟩
    rcases (hkeymem _).mp hmem with h | h
    · have h1 := (hcontent _ h).1
      intro hcon
      rw [hcon] at h1
      exact absurd h1 (by decide)
    · rw [h]
      decide
  have hfqrange : ∀ s ∈ fq.map (fun p => p.1),
      FIRST_CHARACTER ≤ s ∧ s < SUPPORTED_CHARACTERS := by
    intro s hs
    rcases (hkeymem s).mp hs with h | h
    · exact ⟨(hcontent s h).1, (hcontent s h).2.1⟩
    · rw [h]
      exact ⟨by decide, by decide⟩
  -- the tree, the raw codes, the canonical table
  obtain ⟨tr, htr⟩ : ∃ t, t = build_huffman_tree fq := ⟨_, rfl⟩
  obtain ⟨gc, hgc⟩ : ∃ l, l = generate_huffman_codes tr := ⟨_, rfl⟩
  obtain ⟨cn, hcn⟩ : ∃ l, l = generate_canonical_codes gc := ⟨_, rfl⟩
  have hwf : WFTree tr := by
    rw [htr]
    exact build_WF fq hfqne hfqsym
  have hleafperm : (leafSyms tr).Perm fq := by
    rw [htr]
    exact build_leafSyms fq hfqne
  obtain ⟨rs, rf, ra, rb, hroot⟩ := build_internal fq hfqlen
  rw [← htr] at hroot
  have hlp_fst : (leafPaths tr []).map (fun p => p.1) = (leafSyms tr).map (fun p => p.1) :=
    leafPaths_fst (nodeSize tr) tr (Nat.le_refl _) []
  have hlp_len : ∀ p ∈ leafPaths tr [], 1 ≤ p.2.length := by
    intro p hp
    rw [hroot, leafPaths] at hp
    simp only [List.nil_append] at hp
    rcases List.mem_append.mp hp with h | h
    · exact leafPaths_length_ge (nodeSize ra) ra (Nat.le_refl _) [false] p h
    · exact leafPaths_length_ge (nodeSize rb) rb (Nat.le_refl _) [true] p h
  have hhcperm : gc.Perm (leafPaths tr []) := by
    rw [hgc]
    exact generate_huffman_codes_perm tr hwf
  have hhc_fst_perm : (gc.map (fun p => p.1)).Perm (fq.map (fun p => p.1)) := by
    refine (hhcperm.map _).trans ?_
    rw [hlp_fst]
    exact hleafperm.map _
  have hhc_nodup : (gc.map (fun p => p.1)).Nodup :=
    hhc_fst_perm.nodup_iff.mpr hkeysnd
  have hhc_len : ∀ p ∈ gc, 1 ≤ p.2.length :=
    fun p hp => hlp_len p (hhcperm.mem_iff.mp hp)
  have hsortedgc : List.Sorted codeLE gc := by
    rw [hgc]
    exact generate_huffman_codes_sorted tr
  have hlensle : ∀ p ∈ gc, p.2.length ≤ treeDepth tr := by
    rw [hgc]
    exact generate_lens_le tr hwf
  have hkraft : (gc.map (fun p => 2 ^ (treeDepth tr - p.2.length))).sum = 2 ^ treeDepth tr := by
    rw [hgc]
    exact generate_kraft tr hwf
  obtain ⟨hcan_fst, hcan_len, hcan_pw⟩ :=
    canonical_table_props gc (treeDepth tr) hsortedgc hlensle hkraft
  rw [← hcn] at hcan_fst hcan_len hcan_pw
  have hcn_codes_ne : ∀ q ∈ cn, q.2 ≠ [] := by
    intro q hq
    have hmap : q.2.length ∈ cn.map (fun p => p.2.length) := List.mem_map.mpr ⟨q, hq, rfl⟩
    rw [hcan_len] at hmap
    rcases List.mem_map.mp hmap with ⟨p, hp, hlenq⟩
    have h1 := hhc_len p hp
    intro hcon
    rw [hcon] at hlenq
    simp only [List.length_nil] at hlenq
    omega
  have hcn_nodup : (cn.map (fun p => p.1)).Nodup := by
    rw [hcan_fst]
    exact hhc_nodup
  have hcn_sub_alpha : ∀ s ∈ cn.map (fun p => p.1), s ∈ alphabetChars := by
    intro s hs
    rw [hcan_fst] at hs
    have hmem := hhc_fst_perm.mem_iff.mp hs
    rcases hfqrange s hmem with ⟨h1, h2⟩
    exact (mem_alphabetChars s).mpr ⟨h1, h2⟩
  have hcn_lookup_mem : ∀ s ∈ cn.map (fun p => p.1),
      (s, (cn.lookup s).getD []) ∈ cn ∧ (cn.lookup s).getD [] ≠ [] := by
    intro s hs
    have hsome := lookup_isSome_of_mem_fst cn hs
    obtain ⟨v, hv⟩ := Option.isSome_iff_exists.mp hsome
    rw [hv]
    have hmem := lookup_mem hv
    simp only [Option.getD_some]
    exact ⟨hmem, hcn_codes_ne _ hmem⟩
  have hkeys_iff : ∀ s : Nat, s ∈ cn.map (fun p => p.1) ↔ s ∈ fq.map (fun p => p.1) := by
    intro s
    rw [hcan_fst]
    exact hhc_fst_perm.mem_iff
  -- the header encoder's output
  obtain ⟨w, hwdef⟩ : ∃ x, x = Nat.log2 (largestCodeLength cn) + 1 := ⟨_, rfl⟩
  obtain ⟨hbits, hbitsdef⟩ : ∃ b, b = (alphabetChars.map
      (fun c => natToBits w (((cn.lookup c).getD []).length))).flatten := ⟨_, rfl⟩
  have hecl : encode_codes_length cn =
      (w :: bytePack hbits, alphabetChars.foldl (fun tt c => alistEnsure c tt) cn) := by
    rw [hbitsdef, hwdef]
    exact encode_codes_length_eq cn
  have hmut_lookup : ∀ c ∈ alphabetChars,
      ((alphabetChars.foldl (fun tt c => alistEnsure c tt) cn).lookup c).getD [] =
        (cn.lookup c).getD [] := by
    intro c hcmem
    rw [foldl_alistEnsure_lookup, if_pos hcmem]
    simp
  have hcontent_eq :
      encode_content lines (alphabetChars.foldl (fun tt c => alistEnsure c tt) cn) =
        bytePack (((contentSymbols lines).map (fun c => (cn.lookup c).getD [])).flatten ++
          (cn.lookup END_OF_TEXT).getD []) := by
    rw [encode_content_eq]
    have h1 : (contentSymbols lines).map
        (fun c => ((alphabetChars.foldl (fun tt c => alistEnsure c tt) cn).lookup c).getD []) =
        (contentSymbols lines).map (fun c => (cn.lookup c).getD []) :=
      List.map_congr_left (fun c hcm => hmut_lookup c ((mem_alphabetChars c).mpr
        ⟨(hcontent c hcm).1, (hcontent c hcm).2.1⟩))
    rw [h1, hmut_lookup END_OF_TEXT ((mem_alphabetChars END_OF_TEXT).mpr ⟨by decide, by decide⟩)]
  have hcreate : create_compressed_file lines = .ok ((w :: bytePack hbits) ++
      bytePack (((contentSymbols lines).map (fun c => (cn.lookup c).getD [])).flatten ++
        (cn.lookup END_OF_TEXT).getD [])) := by
    rw [create_compressed_file_ok lines fq hok, ← htr, ← hgc, ← hcn, hecl, hcontent_eq]
  -- decoding
  refine ⟨_, hcreate, ?_⟩
  have hhblen : hbits.length = alphabetChars.length * w := by
    rw [hbitsdef]
    exact flatten_natToBits_length w _ alphabetChars
  have hpacklen : (bytePack hbits).length = (alphabetChars.length * w + 7) / 8 := by
    rw [bytePack_length, hhblen]
  have hheader : headerLengths w (bytesToBits (bytePack hbits)) =
      alphabetChars.map (fun c => (c, ((cn.lookup c).getD []).length)) := by
    rw [hbitsdef, bytesToBits_bytePack]
    refine headerLengths_encode w _ (fun c hcm => ?_) _
    rw [hwdef]
    exact table_length_lt_pow cn c
  have hfilterperm : (alphabetChars.filter ((fun p => decide (p.2 ≠ 0)) ∘
      (fun c => (c, ((cn.lookup c).getD []).length)))).Perm (cn.map (fun p => p.1)) := by
    apply filter_perm_of_nodup _ _ _ alphabetChars_nodup hcn_nodup hcn_sub_alpha
    intro a
    simp only [Function.comp_apply, decide_eq_true_eq]
    constructor
    · intro h
      cases hl : cn.lookup a with
      | none =>
          rw [hl] at h
          simp at h
      | some v => exact mem_fst_of_lookup hl
    · intro h
      have hne2 := (hcn_lookup_mem a h).2
      intro hzero
      exact hne2 (List.length_eq_zero.mp hzero)
  have hgraph : (cn.map (fun p => p.1)).map
      (fun c => (c, ((cn.lookup c).getD []).length)) =
      cn.map (fun p => (p.1, p.2.length)) :=
    (map_graph_of_nodup List.length [] cn hcn_nodup).symm
  have hcnproj : cn.map (fun p => (p.1, p.2.length)) = gc.map (fun p => (p.1, p.2.length)) :=
    map_pair_congr (fun p => p.1) (fun p => p.2.length) cn gc hcan_fst hcan_len
  have htable : tableFromLengths (alphabetChars.map
      (fun c => (c, ((cn.lookup c).getD []).length))) = cn := by
    unfold tableFromLengths
    rw [List.filter_map, List.map_map]
    conv_rhs => rw [hcn]
    apply generate_canonical_congr
    refine List.eq_of_perm_of_sorted ?_
      (sorted_codeLE_proj _ (List.sorted_insertionSort _ _))
      (sorted_codeLE_proj _ hsortedgc)
    refine ((List.perm_insertionSort codeLE _).map _).trans ?_
    rw [List.map_map]
    have hrw : (alphabetChars.filter ((fun p => decide (p.2 ≠ 0)) ∘
        (fun c => (c, ((cn.lookup c).getD []).length)))).map
          ((fun p => (p.1, p.2.length)) ∘ ((fun p => (p.1, List.replicate p.2 false)) ∘
            (fun c => (c, ((cn.lookup c).getD []).length)))) =
        (alphabetChars.filter ((fun p => decide (p.2 ≠ 0)) ∘
          (fun c => (c, ((cn.lookup c).getD []).length)))).map
            (fun c => (c, ((cn.lookup c).getD []).length)) :=
      List.map_congr_left (fun c _ => by simp)
    rw [hrw]
    refine (hfilterperm.map _).trans ?_
    rw [hgraph, hcnproj]
  have hEOTcn : END_OF_TEXT ∈ cn.map (fun p => p.1) := (hkeys_iff _).mpr hEOTkey
  obtain ⟨hEOTmem, hEOTcne⟩ := hcn_lookup_mem END_OF_TEXT hEOTcn
  have hss : ∀ s ∈ contentSymbols lines, s ≠ END_OF_TEXT ∧
      (s, (cn.lookup s).getD []) ∈ cn ∧ (cn.lookup s).getD [] ≠ [] := by
    intro s hs
    have hskey : s ∈ cn.map (fun p => p.1) := (hkeys_iff s).mpr ((hkeymem s).mpr (Or.inl hs))
    exact ⟨(hcontent s hs).2.2, (hcn_lookup_mem s hskey).1, (hcn_lookup_mem s hskey).2⟩
  rw [List.cons_append]
  simp only [decode_output]
  rw [List.take_left' hpacklen, List.drop_left' hpacklen, hheader, htable]
  rw [bytesToBits_bytePack, List.append_assoc]
  apply decodeLoop_spec cn hcan_pw ((cn.lookup END_OF_TEXT).getD []) hEOTmem hEOTcne
    (contentSymbols lines) _ _ hss
  have h1 := flatten_length_ge (fun c => (cn.lookup c).getD []) (contentSymbols lines)
    (fun s hs => (hss s hs).2.2)
  simp only [List.length_append]
  omega

/-- Witness for C1 on the one-line input `"a\n"`. -/
theorem c1_roundtrip_witness :
    ∃ bytes, create_compressed_file [[97]] = Except.ok bytes ∧
      decode_output bytes = some (contentSymbols [[97]]) :=
  c1_roundtrip [[97]] (by decide) (by decide)

/-! ## Weight-queue lemmas -/

theorem winsert_perm (w : Nat) : ∀ q : List Nat, (winsert w q).Perm (w :: q) := by
  intro q
  induction q with
  | nil => exact List.Perm.refl _
  | cons v q ih =>
      rw [winsert]
      split
      · exact (List.Perm.cons v ih).trans (List.Perm.swap w v q)
      · exact List.Perm.refl _

theorem winsert_sorted (w : Nat) :
    ∀ q : List Nat, List.Sorted (· ≤ ·) q → List.Sorted (· ≤ ·) (winsert w q) := by
  intro q
  induction q with
  | nil =>
      intro _
      simp [winsert]
  | cons v q ih =>
      intro hs
      rw [List.sorted_cons] at hs
      rw [winsert]
      split
      · next hvw =>
          rw [List.sorted_cons]
          refine ⟨?_, ih hs.2⟩
          intro b hb
          rcases List.mem_cons.mp ((winsert_perm w q).mem_iff.mp hb) with h | h
          · rw [h]
            exact hvw
          · exact hs.1 b h
      · next hvw =>
          have hwv : w ≤ v := Nat.le_of_not_le hvw
          rw [List.sorted_cons]
          refine ⟨?_, List.sorted_cons.mpr hs⟩
          intro b hb
          rcases List.mem_cons.mp hb with rfl | h
          · exact hwv
          · exact le_trans hwv (hs.1 b h)

theorem foldl_winsert_sorted (ws : List Nat) :
    ∀ q : List Nat, List.Sorted (· ≤ ·) q →
      List.Sorted (· ≤ ·) (ws.foldl (fun q w => winsert w q) q) := by
  induction ws with
  | nil => intro q h; exact h
  | cons w ws ih =>
      intro q h
      exact ih _ (winsert_sorted w q h)

theorem foldl_winsert_perm (ws : List Nat) :
    ∀ q : List Nat, (ws.foldl (fun q w => winsert w q) q).Perm (q ++ ws) := by
  induction ws with
  | nil => intro q; simp
  | cons w ws ih =>
      intro q
      rw [List.foldl_cons]
      refine (ih _).trans ?_
      refine (List.Perm.append (winsert_perm w q) (List.Perm.refl ws)).trans ?_
      have h1 : w :: q ++ ws = w :: (q ++ ws) := rfl
      rw [h1]
      have h2 : (w :: (q ++ ws)).Perm (q ++ w :: ws) := by
        have := @List.perm_middle _ w q ws
        exact this.symm
      exact h2

theorem wqueue_sorted (ws : List Nat) : List.Sorted (· ≤ ·) (wqueue ws) :=
  foldl_winsert_sorted ws [] (by simp)

theorem wqueue_perm (ws : List Nat) : (wqueue ws).Perm ws := by
  have h := foldl_winsert_perm ws []
  simpa using h

theorem wqueue_congr {ws ws' : List Nat} (h : ws.Perm ws') : wqueue ws = wqueue ws' :=
  List.eq_of_perm_of_sorted (r := (· ≤ ·))
    ((wqueue_perm ws).trans (h.trans (wqueue_perm ws').symm))
    (wqueue_sorted ws) (wqueue_sorted ws')

theorem winsert_wqueue (w : Nat) (Z : List Nat) :
    winsert w (wqueue Z) = wqueue (w :: Z) := by
  apply List.eq_of_perm_of_sorted (r := (· ≤ ·))
  · refine (winsert_perm w _).trans ?_
    refine (List.Perm.cons w (wqueue_perm Z)).trans ?_
    exact (wqueue_perm (w :: Z)).symm
  · exact winsert_sorted w _ (wqueue_sorted Z)
  · exact wqueue_sorted _

/-! ## Minimum and maximum extraction helpers -/

theorem foldl_min_spec :
    ∀ (l : List Nat) (a : Nat),
      (l.foldl min a = a ∨ l.foldl min a ∈ l) ∧
      l.foldl min a ≤ a ∧ ∀ x ∈ l, l.foldl min a ≤ x := by
  intro l
  induction l with
  | nil =>
      intro a
      refine ⟨Or.inl rfl, Nat.le_refl _, ?_⟩
      intro x hx
      cases hx
  | cons b l ih =>
      intro a
      rw [List.foldl_cons]
      obtain ⟨hor, hle, hall⟩ := ih (min a b)
      refine ⟨?_, le_trans hle (min_le_left a b), ?_⟩
      · rcases hor with h | h
        · rcases le_total a b with hab | hab
          · left
            rw [h, min_eq_left hab]
          · right
            rw [h, min_eq_right hab]
            exact List.mem_cons_self _ _
        · exact Or.inr (List.mem_cons_of_mem b h)
      · intro x hx
        rcases List.mem_cons.mp hx with rfl | hx
        · exact le_trans hle (min_le_right a x)
        · exact hall x hx

theorem foldl_max_spec :
    ∀ (l : List Nat) (a : Nat),
      (l.foldl max a = a ∨ l.foldl max a ∈ l) ∧
      a ≤ l.foldl max a ∧ ∀ x ∈ l, x ≤ l.foldl max a := by
  intro l
  induction l with
  | nil =>
      intro a
      refine ⟨Or.inl rfl, Nat.le_refl _, ?_⟩
      intro x hx
      cases hx
  | cons b l ih =>
      intro a
      rw [List.foldl_cons]
      obtain ⟨hor, hle, hall⟩ := ih (max a b)
      refine ⟨?_, le_trans (le_max_left a b) hle, ?_⟩
      · rcases hor with h | h
        · rcases le_total a b with hab | hab
          · right
            rw [h, max_eq_right hab]
            exact List.mem_cons_self _ _
          · left
            rw [h, max_eq_left hab]
        · exact Or.inr (List.mem_cons_of_mem b h)
      · intro x hx
        rcases List.mem_cons.mp hx with rfl | hx
        · exact le_trans (le_max_right a x) hle
        · exact hall x hx

theorem extract_weight {R : List (Nat × Nat)} {x : Nat}
    (h : x ∈ R.map (fun p => p.1)) :
    ∃ (d : Nat) (R₀ : List (Nat × Nat)), R.Perm ((x, d) :: R₀) := by
  rcases List.mem_map.mp h with ⟨p, hp, hpx⟩
  have hx : (x, p.2) = p := by
    rw [← hpx]
  have hperm := List.perm_cons_erase hp
  rw [← hx] at hperm
  exact ⟨p.2, _, hperm⟩

theorem sum_map_split {α : Type} (q : α → Bool) (f : α → Nat) :
    ∀ l : List α,
      (l.map f).sum = ((l.filter q).map f).sum + ((l.filter (fun a => !(q a))).map f).sum := by
  intro l
  induction l with
  | nil => rfl
  | cons a l ih =>
      by_cases hq : q a = true
      · rw [List.map_cons, List.sum_cons, List.filter_cons_of_pos hq,
          List.filter_cons_of_neg (by simp [hq]), List.map_cons, List.sum_cons, ih]
        omega
      · rw [List.map_cons, List.sum_cons, List.filter_cons_of_neg hq,
          List.filter_cons_of_pos (by simp at hq; simp [hq]), List.map_cons, List.sum_cons, ih]
        omega

theorem extract_two_filter (q : Nat × Nat → Bool) (P : List (Nat × Nat))
    (h2 : 2 ≤ (P.filter q).length) :
    ∃ a b R, P.Perm (a :: b :: R) ∧ q a = true ∧ q b = true := by
  match hf : P.filter q with
  | [] =>
      rw [hf] at h2
      simp at h2
  | [e] =>
      rw [hf] at h2
      simp at h2
  | e₁ :: e₂ :: rest =>
      have he₁ : e₁ ∈ P.filter q := by
        rw [hf]
        exact List.mem_cons_self _ _
      have hq₁ : q e₁ = true := List.of_mem_filter he₁
      have hmem₁ : e₁ ∈ P := List.mem_of_mem_filter he₁
      obtain ⟨P₁, hperm₁⟩ : ∃ P₁, P.Perm (e₁ :: P₁) := ⟨_, List.perm_cons_erase hmem₁⟩
      have hfil : (P.filter q).Perm ((e₁ :: P₁).filter q) := hperm₁.filter q
      rw [hf, List.filter_cons_of_pos hq₁] at hfil
      have htail : (e₂ :: rest).Perm (P₁.filter q) := hfil.cons_inv
      have he₂ : e₂ ∈ P₁.filter q := htail.mem_iff.mp (List.mem_cons_self _ _)
      have hq₂ : q e₂ = true := List.of_mem_filter he₂
      have hmem₂ : e₂ ∈ P₁ := List.mem_of_mem_filter he₂
      obtain ⟨P₂, hperm₂⟩ : ∃ P₂, P₁.Perm (e₂ :: P₂) := ⟨_, List.perm_cons_erase hmem₂⟩
      exact ⟨e₁, e₂, _, hperm₁.trans (hperm₂.cons e₁), hq₁, hq₂⟩

/-! ## Exchange lemmas: moving minimal weights to deepest slots -/

/-- Product-swap inequality: giving the smaller weight the larger depth does
not increase the weighted sum. -/
theorem mul_swap_le {x a d D : Nat} (hxa : x ≤ a) (hdD : d ≤ D) :
    x * D + a * d ≤ a * D + x * d := by
  obtain ⟨s, rfl⟩ : ∃ s, a = x + s := ⟨a - x, by omega⟩
  obtain ⟨t, rfl⟩ : ∃ t, D = d + t := ⟨D - d, by omega⟩
  have h1 : x * (d + t) + (x + s) * d = x * d + x * t + x * d + s * d := by ring
  have h2 : (x + s) * (d + t) + x * d = x * d + x * t + s * d + s * t + x * d := by ring
  rw [h1, h2]
  omega

/-- One slot at depth `D` with weight `b`, and a pool `R` of deeper-or-equal
slots: the minimum available weight can be brought to the `D` slot without
increasing the weighted sum. -/
theorem pull_min_front (b D : Nat) (R : List (Nat × Nat)) (hd : ∀ p ∈ R, p.2 ≤ D) :
    ∃ (y : Nat) (R' : List (Nat × Nat)),
      (y :: R'.map (fun p => p.1)).Perm (b :: R.map (fun p => p.1)) ∧
      (R'.map (fun p => p.2)).Perm (R.map (fun p => p.2)) ∧
      (∀ p ∈ R', p.2 ≤ D) ∧
      (∀ w ∈ R'.map (fun p => p.1), y ≤ w) ∧ y ≤ b ∧
      y * D + (R'.map (fun p => p.1 * p.2)).sum ≤
        b * D + (R.map (fun p => p.1 * p.2)).sum := by
  obtain ⟨hor, hleb, hall⟩ := foldl_min_spec (R.map (fun p => p.1)) b
  rcases hor with hy | hy
  · refine ⟨b, R, List.Perm.refl _, List.Perm.refl _, hd, ?_, Nat.le_refl _, Nat.le_refl _⟩
    intro w hw
    have h1 := hall w hw
    omega
  · obtain ⟨d, R₀, hperm⟩ := extract_weight hy
    have hdD : d ≤ D := by
      have h1 := hd _ (hperm.mem_iff.mpr (List.mem_cons_self _ _))
      exact h1
    have hRw : (R.map (fun p => p.1)).Perm
        ((R.map (fun p => p.1)).foldl min b :: R₀.map (fun p => p.1)) := by
      have h1 := hperm.map (fun p => p.1)
      simpa using h1
    have hRd : (R.map (fun p => p.2)).Perm (d :: R₀.map (fun p => p.2)) := by
      have h1 := hperm.map (fun p => p.2)
      simpa using h1
    refine ⟨(R.map (fun p => p.1)).foldl min b, (b, d) :: R₀, ?_, ?_, ?_, ?_, hleb, ?_⟩
    · simp only [List.map_cons]
      refine List.Perm.trans (List.Perm.swap b _ _) ?_
      exact (hRw.symm).cons b
    · simp only [List.map_cons]
      exact hRd.symm
    · intro p hp
      rcases List.mem_cons.mp hp with rfl | hp
      · exact hdD
      · exact hd p (hperm.mem_iff.mpr (List.mem_cons_of_mem _ hp))
    · intro w hw
      simp only [List.map_cons] at hw
      rcases List.mem_cons.mp hw with rfl | hw
      · exact hleb
      · apply hall
        exact hRw.mem_iff.mpr (List.mem_cons_of_mem _ hw)
    · have hsum : (R.map (fun p => p.1 * p.2)).sum =
          (R.map (fun p => p.1)).foldl min b * d + (R₀.map (fun p => p.1 * p.2)).sum := by
        have h1 := (hperm.map (fun p => p.1 * p.2)).sum_eq
        simpa using h1
      rw [hsum]
      simp only [List.map_cons, List.sum_cons]
      have hswap := mul_swap_le (x := (R.map (fun p => p.1)).foldl min b) (a := b) hleb hdD
      omega

/-- Two slots at depth `D` and a pool `R` of deeper-or-equal slots: the two
minimal available weights can be brought to the `D` slots without increasing
the weighted sum. -/
theorem swap_to_front (a b D : Nat) (R : List (Nat × Nat)) (hd : ∀ p ∈ R, p.2 ≤ D) :
    ∃ (x y : Nat) (R' : List (Nat × Nat)),
      (x :: y :: R'.map (fun p => p.1)).Perm (a :: b :: R.map (fun p => p.1)) ∧
      (R'.map (fun p => p.2)).Perm (R.map (fun p => p.2)) ∧
      (∀ p ∈ R', p.2 ≤ D) ∧
      x ≤ y ∧ (∀ w ∈ R'.map (fun p => p.1), y ≤ w) ∧
      x * D + y * D + (R'.map (fun p => p.1 * p.2)).sum ≤
        a * D + b * D + (R.map (fun p => p.1 * p.2)).sum := by
  obtain ⟨hor, hlea, hall⟩ := foldl_min_spec (b :: R.map (fun p => p.1)) a
  rcases hor with hx | hx
  · obtain ⟨y, R', h1, h2, h3, h4, h5, h6⟩ := pull_min_front b D R hd
    refine ⟨a, y, R', h1.cons a, h2, h3, ?_, h4, by omega⟩
    rw [← hx]
    apply hall
    exact h1.mem_iff.mp (List.mem_cons_self _ _)
  · rcases List.mem_cons.mp hx with hxb | hxR
    · obtain ⟨y, R', h1, h2, h3, h4, h5, h6⟩ := pull_min_front a D R hd
      refine ⟨b, y, R', ?_, h2, h3, ?_, h4, by omega⟩
      · refine List.Perm.trans (h1.cons b) ?_
        exact List.Perm.swap a b _
      · have hymem : y ∈ a :: R.map (fun p => p.1) := h1.mem_iff.mp (List.mem_cons_self _ _)
        rcases List.mem_cons.mp hymem with h7 | h7
        · rw [← hxb, h7]
          exact hlea
        · rw [← hxb]
          exact hall y (List.mem_cons_of_mem _ h7)
    · obtain ⟨d, R₀, hperm⟩ := extract_weight hxR
      have hdD : d ≤ D := by
        have h1 := hd _ (hperm.mem_iff.mpr (List.mem_cons_self _ _))
        exact h1
      have hRw : (R.map (fun p => p.1)).Perm
          ((b :: R.map (fun p => p.1)).foldl min a :: R₀.map (fun p => p.1)) := by
        have h1 := hperm.map (fun p => p.1)
        simpa using h1
      have hRd : (R.map (fun p => p.2)).Perm (d :: R₀.map (fun p => p.2)) := by
        have h1 := hperm.map (fun p => p.2)
        simpa using h1
      have hR₀d : ∀ p ∈ (a, d) :: R₀, p.2 ≤ D := by
        intro p hp
        rcases List.mem_cons.mp hp with rfl | hp
        · exact hdD
        · exact hd p (hperm.mem_iff.mpr (List.mem_cons_of_mem _ hp))
      obtain ⟨y, R', h1, h2, h3, h4, h5, h6⟩ := pull_min_front b D ((a, d) :: R₀) hR₀d
      have hxw : ∀ w ∈ b :: R.map (fun p => p.1),
          (b :: R.map (fun p => p.1)).foldl min a ≤ w := hall
      refine ⟨(b :: R.map (fun p => p.1)).foldl min a, y, R', ?_, ?_, h3, ?_, h4, ?_⟩
      · refine List.Perm.trans (h1.cons _) ?_
        simp only [List.map_cons]
        -- goal: m :: b :: a :: R₀.w ~ a :: b :: R.w
        refine List.Perm.trans ?_ (((hRw.symm).cons b).cons a)
        -- goal: m :: b :: a :: R₀.w ~ a :: b :: m :: R₀.w
        refine List.Perm.trans (List.Perm.swap b _ _) ?_
        refine List.Perm.trans (List.Perm.cons b (List.Perm.swap a _ _)) ?_
        exact List.Perm.swap a b _
      · refine h2.trans ?_
        simp only [List.map_cons]
        exact hRd.symm
      · have hymem : y ∈ b :: ((a, d) :: R₀).map (fun p => p.1) :=
          h1.mem_iff.mp (List.mem_cons_self _ _)
        simp only [List.map_cons] at hymem
        rcases List.mem_cons.mp hymem with h7 | h7
        · rw [h7]
          exact hxw b (List.mem_cons_self _ _)
        · rcases List.mem_cons.mp h7 with h8 | h8
          · rw [h8]
            exact hlea
          · exact hxw y (List.mem_cons_of_mem _ (hRw.symm.mem_iff.mp
              (List.mem_cons_of_mem _ h8)))
      · have hsumR : (R.map (fun p => p.1 * p.2)).sum =
            (b :: R.map (fun p => p.1)).foldl min a * d +
              (R₀.map (fun p => p.1 * p.2)).sum := by
          have h7 := (hperm.map (fun p => p.1 * p.2)).sum_eq
          simpa using h7
        simp only [List.map_cons, List.sum_cons] at h6
        have hswap := mul_swap_le (x := (b :: R.map (fun p => p.1)).foldl min a)
          (a := a) hlea hdD
        omega

/-! ## Two entries at the maximum depth -/

/-- In a depth profile meeting the Kraft equality with at least one positive
depth attained as the maximum, the maximum depth is attained at least
twice. -/
theorem two_at_max_depth (P : List (Nat × Nat)) (L D : Nat)
    (hD1 : 1 ≤ D) (hDL : D ≤ L)
    (hle : ∀ p ∈ P, p.2 ≤ D)
    (hmax : ∃ p ∈ P, p.2 = D)
    (hkraft : (P.map (fun p => 2 ^ (L - p.2))).sum = 2 ^ L) :
    2 ≤ (P.filter (fun p => decide (p.2 = D))).length := by
  have hsplit := sum_map_split (fun p => decide (p.2 = D)) (fun p => 2 ^ (L - p.2)) P
  have hfirst : ((P.filter (fun p => decide (p.2 = D))).map (fun p => 2 ^ (L - p.2))).sum =
      (P.filter (fun p => decide (p.2 = D))).length * 2 ^ (L - D) := by
    have hmapc : (P.filter (fun p => decide (p.2 = D))).map (fun p => 2 ^ (L - p.2)) =
        (P.filter (fun p => decide (p.2 = D))).map (fun _ => 2 ^ (L - D)) :=
      List.map_congr_left (fun p hp => by
        have h1 := List.of_mem_filter hp
        rw [decide_eq_true_eq] at h1
        rw [h1])
    rw [hmapc, List.map_const', List.sum_replicate, smul_eq_mul]
  have hdvdS : 2 ^ (L - D + 1) ∣
      ((P.filter (fun p => !(decide (p.2 = D)))).map (fun p => 2 ^ (L - p.2))).sum := by
    apply List.dvd_sum
    intro x hx
    rcases List.mem_map.mp hx with ⟨p, hp, rfl⟩
    have hpd : ¬ p.2 = D := by
      have h1 := List.of_mem_filter hp
      simpa using h1
    have hple : p.2 ≤ D := hle p (List.mem_of_mem_filter hp)
    apply pow_dvd_pow
    omega
  have hdvdL : (2:Nat) ^ (L - D + 1) ∣ 2 ^ L := pow_dvd_pow 2 (by omega)
  obtain ⟨S, hS⟩ := hdvdS
  have hEq : (P.filter (fun p => decide (p.2 = D))).length * 2 ^ (L - D) +
      2 ^ (L - D + 1) * S = 2 ^ L := by
    rw [← hS, ← hfirst]
    rw [hsplit] at hkraft
    exact hkraft
  obtain ⟨T, hT⟩ := hdvdL
  have h2k : 2 ∣ (P.filter (fun p => decide (p.2 = D))).length := by
    have hpow : (2:Nat) ^ (L - D + 1) = 2 ^ (L - D) * 2 := by rw [pow_succ]
    rw [hpow] at hEq hT
    have hpos : 0 < (2:Nat) ^ (L - D) := by positivity
    have hc : 2 ^ (L - D) * ((P.filter (fun p => decide (p.2 = D))).length + 2 * S) =
        2 ^ (L - D) * (2 * T) := by
      have h1 : 2 ^ (L - D) * ((P.filter (fun p => decide (p.2 = D))).length + 2 * S) =
          (P.filter (fun p => decide (p.2 = D))).length * 2 ^ (L - D) +
            2 ^ (L - D) * 2 * S := by ring
      rw [h1, hEq, hT]
      ring
    have hk := Nat.eq_of_mul_eq_mul_left hpos hc
    omega
  have hk1 : 1 ≤ (P.filter (fun p => decide (p.2 = D))).length := by
    obtain ⟨p, hp, hpD⟩ := hmax
    have hmem : p ∈ P.filter (fun p => decide (p.2 = D)) :=
      List.mem_filter.mpr ⟨hp, by rw [decide_eq_true_eq]; exact hpD⟩
    exact List.length_pos.mpr (fun hcon => by rw [hcon] at hmem; cases hmem)
  omega

/-! ## Minimality of the merge cost over Kraft-feasible depth profiles -/

/-- The weight-level merge cost of a weight multiset bounds from below the
weighted sum of every depth profile for those weights that meets the Kraft
equality. -/
theorem huffman_cost_min (n : Nat) :
    ∀ (P : List (Nat × Nat)) (L : Nat),
      P.length = n →
      (∀ p ∈ P, p.2 ≤ L) →
      (P.map (fun p => 2 ^ (L - p.2))).sum = 2 ^ L →
      hqueue P.length (wqueue (P.map (fun p => p.1))) ≤
        (P.map (fun p => p.1 * p.2)).sum := by
  induction n with
  | zero =>
      intro P L hlen _ hkraft
      exfalso
      rw [List.length_eq_zero] at hlen
      subst hlen
      simp only [List.map_nil, List.sum_nil] at hkraft
      have h1 : (0:Nat) < 2 ^ L := by positivity
      omega
  | succ n ih =>
      intro P L hlen hle hkraft
      cases n with
      | zero =>
          obtain ⟨p, rfl⟩ := List.length_eq_one.mp hlen
          simp [wqueue, winsert, hqueue]
      | succ m =>
          obtain ⟨D, hD⟩ : ∃ D, D = (P.map (fun p => p.2)).foldl max 0 := ⟨_, rfl⟩
          obtain ⟨hor, _, hallmax⟩ := foldl_max_spec (P.map (fun p => p.2)) 0
          rw [← hD] at hor hallmax
          have hDub : ∀ p ∈ P, p.2 ≤ D :=
            fun p hp => hallmax p.2 (List.mem_map.mpr ⟨p, hp, rfl⟩)
          have hPne : P ≠ [] := by
            intro hcon
            rw [hcon] at hlen
            simp at hlen
          have hDmem : ∃ p ∈ P, p.2 = D := by
            rcases hor with h | h
            · obtain ⟨q, P', hQ⟩ := List.exists_cons_of_ne_nil hPne
              have hq : q ∈ P := by
                rw [hQ]
                exact List.mem_cons_self _ _
              refine ⟨q, hq, ?_⟩
              have h1 := hDub q hq
              omega
            · rcases List.mem_map.mp h with ⟨p, hp, hpD⟩
              exact ⟨p, hp, hpD⟩
          obtain ⟨pm, hpmmem, hpmD⟩ := hDmem
          have hDL : D ≤ L := by
            have h1 := hle pm hpmmem
            omega
          have hD1 : 1 ≤ D := by
            by_contra hcon
            push_neg at hcon
            have hzero : ∀ p ∈ P, p.2 = 0 := by
              intro p hp
              have h1 := hDub p hp
              omega
            have hall : P.map (fun p => 2 ^ (L - p.2)) = P.map (fun _ => 2 ^ L) :=
              List.map_congr_left (fun p hp => by rw [hzero p hp, Nat.sub_zero])
            rw [hall, List.map_const', List.sum_replicate, smul_eq_mul, hlen] at hkraft
            have h1 : (0:Nat) < 2 ^ L := by positivity
            have h3 : (m + 1 + 1) * 2 ^ L = 2 ^ L + (m + 1) * 2 ^ L := by ring
            have h4 : 2 ^ L ≤ (m + 1) * 2 ^ L := Nat.le_mul_of_pos_left _ (by omega)
            omega
          have h2max := two_at_max_depth P L D hD1 hDL hDub ⟨pm, hpmmem, hpmD⟩ hkraft
          obtain ⟨e₁, e₂, R, hPp, hq₁, hq₂⟩ :=
            extract_two_filter (fun p => decide (p.2 = D)) P h2max
          rw [decide_eq_true_eq] at hq₁ hq₂
          obtain ⟨a, da⟩ := e₁
          obtain ⟨b, db⟩ := e₂
          have hda : da = D := hq₁
          have hdb : db = D := hq₂
          rw [hda, hdb] at hPp
          have hRd : ∀ p ∈ R, p.2 ≤ D := by
            intro p hp
            exact hDub p (hPp.mem_iff.mpr
              (List.mem_cons_of_mem _ (List.mem_cons_of_mem _ hp)))
          obtain ⟨x, y, R', hwperm, hdperm, hR'd, hxy, hymin, hcost⟩ :=
            swap_to_front a b D R hRd
          have hR'len : R'.length = m := by
            have h1 := hPp.length_eq
            rw [hlen] at h1
            simp only [List.length_cons] at h1
            have h2 := hwperm.length_eq
            simp only [List.length_cons, List.length_map] at h2
            omega
          have hPw : (P.map (fun p => p.1)).Perm (x :: y :: R'.map (fun p => p.1)) := by
            refine (hPp.map (fun p => p.1)).trans ?_
            simp only [List.map_cons]
            exact hwperm.symm
          have hsortedxy : List.Sorted (· ≤ ·) (x :: y :: wqueue (R'.map (fun p => p.1))) := by
            rw [List.sorted_cons]
            constructor
            · intro c hc
              rcases List.mem_cons.mp hc with rfl | hc
              · exact hxy
              · exact le_trans hxy (hymin c ((wqueue_perm _).mem_iff.mp hc))
            · rw [List.sorted_cons]
              exact ⟨fun c hc => hymin c ((wqueue_perm _).mem_iff.mp hc), wqueue_sorted _⟩
          have hwq : wqueue (P.map (fun p => p.1)) =
              x :: y :: wqueue (R'.map (fun p => p.1)) := by
            apply List.eq_of_perm_of_sorted (r := (· ≤ ·))
            · refine (wqueue_perm _).trans (hPw.trans ?_)
              exact List.Perm.cons x (List.Perm.cons y (wqueue_perm _).symm)
            · exact wqueue_sorted _
            · exact hsortedxy
          have hkraftP : 2 ^ (L - D) + 2 ^ (L - D) +
              (R.map (fun p => 2 ^ (L - p.2))).sum = 2 ^ L := by
            have h1 := (hPp.map (fun p => 2 ^ (L - p.2))).sum_eq
            rw [hkraft] at h1
            simp only [List.map_cons, List.sum_cons] at h1
            omega
          have hsndsum : (R'.map (fun p => 2 ^ (L - p.2))).sum =
              (R.map (fun p => 2 ^ (L - p.2))).sum := by
            have h1 : R'.map (fun p => 2 ^ (L - p.2)) =
                (R'.map (fun p => p.2)).map (fun d => 2 ^ (L - d)) := by
              rw [List.map_map]
              rfl
            have h2 : R.map (fun p => 2 ^ (L - p.2)) =
                (R.map (fun p => p.2)).map (fun d => 2 ^ (L - d)) := by
              rw [List.map_map]
              rfl
            rw [h1, h2]
            exact (hdperm.map _).sum_eq
          have hkraft1 : (((x + y, D - 1) :: R').map (fun p => 2 ^ (L - p.2))).sum =
              2 ^ L := by
            simp only [List.map_cons, List.sum_cons]
            have hpow : (2:Nat) ^ (L - (D - 1)) = 2 ^ (L - D) + 2 ^ (L - D) := by
              have hexp : L - (D - 1) = (L - D) + 1 := by omega
              rw [hexp, pow_succ]
              ring
            rw [hpow, hsndsum]
            omega
          have hle1 : ∀ p ∈ (x + y, D - 1) :: R', p.2 ≤ L := by
            intro p hp
            rcases List.mem_cons.mp hp with rfl | hp
            · simp only
              omega
            · have h1 := hR'd p hp
              omega
          have hlen1 : ((x + y, D - 1) :: R').length = m + 1 := by
            simp [hR'len]
          have hIH := ih ((x + y, D - 1) :: R') L hlen1 hle1 hkraft1
          simp only [List.map_cons, List.length_cons, List.sum_cons] at hIH
          rw [hR'len] at hIH
          rw [hwq, hlen]
          simp only [hqueue]
          rw [winsert_wqueue]
          have hsum : (P.map (fun p => p.1 * p.2)).sum =
              a * D + b * D + (R.map (fun p => p.1 * p.2)).sum := by
            have h1 := (hPp.map (fun p => p.1 * p.2)).sum_eq
            simp only [List.map_cons, List.sum_cons] at h1
            omega
          have hstep : x + y + (x + y) * (D - 1) = (x + y) * D := by
            obtain ⟨E, rfl⟩ : ∃ E, D = E + 1 := ⟨D - 1, by omega⟩
            simp only [Nat.add_sub_cancel]
            ring
          have hxyD : (x + y) * D = x * D + y * D := by ring
          omega

/-! ## Leaf weight-depth bookkeeping -/

theorem leafWD_shift (n : Nat) :
    ∀ t : Node, nodeSize t ≤ n → ∀ d : Nat,
      leafWD t (d + 1) = (leafWD t d).map (fun p => (p.1, p.2 + 1)) := by
  induction n with
  | zero =>
      intro t hsz
      exact absurd hsz (by have := nodeSize_pos t; omega)
  | succ n ih =>
      intro t hsz d
      cases t with
      | mk s f l r =>
      have hsize : nodeSize (Node.mk s f l r) = 1 + optNodeSize l + optNodeSize r := by
        rw [nodeSize]
      cases l with
      | none =>
          cases r with
          | none =>
              rw [leafWD, leafWD]
              rfl
          | some rn =>
              have hsr : optNodeSize (some rn) = nodeSize rn := rfl
              rw [hsize, hsr] at hsz
              rw [leafWD, leafWD]
              exact ih rn (by omega) (d + 1)
      | some ln =>
          cases r with
          | none =>
              have hsl : optNodeSize (some ln) = nodeSize ln := rfl
              rw [hsize, hsl] at hsz
              rw [leafWD, leafWD]
              exact ih ln (by omega) (d + 1)
          | some rn =>
              have hsl : optNodeSize (some ln) = nodeSize ln := rfl
              have hsr : optNodeSize (some rn) = nodeSize rn := rfl
              rw [hsize, hsl, hsr] at hsz
              rw [leafWD, leafWD, List.map_append]
              rw [ih ln (by omega) (d + 1), ih rn (by omega) (d + 1)]

theorem sum_shift (l : List (Nat × Nat)) :
    ((l.map (fun p => (p.1, p.2 + 1))).map (fun p => p.1 * p.2)).sum =
      (l.map (fun p => p.1 * p.2)).sum + (l.map (fun p => p.1)).sum := by
  induction l with
  | nil => rfl
  | cons q l ih =>
      simp only [List.map_cons, List.sum_cons, ih]
      ring

/-- Merging two subtrees under a fresh parent adds each leaf weight once to
the weighted external path length. -/
theorem WEPL_merge (s f : Nat) (a b : Node) :
    WEPL (Node.mk s f (some a) (some b)) =
      WEPL a + WEPL b +
        (((leafWD a 0).map (fun p => p.1)).sum +
          ((leafWD b 0).map (fun p => p.1)).sum) := by
  unfold WEPL
  rw [leafWD]
  rw [leafWD_shift (nodeSize a) a (Nat.le_refl _) 0,
      leafWD_shift (nodeSize b) b (Nat.le_refl _) 0]
  rw [List.map_append, List.sum_append, sum_shift, sum_shift]
  omega

theorem leafWD_fst (n : Nat) :
    ∀ t : Node, nodeSize t ≤ n → ∀ d : Nat,
      (leafWD t d).map (fun p => p.1) = (leafSyms t).map (fun p => p.2) := by
  induction n with
  | zero =>
      intro t hsz
      exact absurd hsz (by have := nodeSize_pos t; omega)
  | succ n ih =>
      intro t hsz d
      cases t with
      | mk s f l r =>
      have hsize : nodeSize (Node.mk s f l r) = 1 + optNodeSize l + optNodeSize r := by
        rw [nodeSize]
      cases l with
      | none =>
          cases r with
          | none =>
              rw [leafWD, leafSyms]
              rfl
          | some rn =>
              have hsr : optNodeSize (some rn) = nodeSize rn := rfl
              rw [hsize, hsr] at hsz
              rw [leafWD, leafSyms]
              exact ih rn (by omega) (d + 1)
      | some ln =>
          cases r with
          | none =>
              have hsl : optNodeSize (some ln) = nodeSize ln := rfl
              rw [hsize, hsl] at hsz
              rw [leafWD, leafSyms]
              exact ih ln (by omega) (d + 1)
          | some rn =>
              have hsl : optNodeSize (some ln) = nodeSize ln := rfl
              have hsr : optNodeSize (some rn) = nodeSize rn := rfl
              rw [hsize, hsl, hsr] at hsz
              rw [leafWD, leafSyms, List.map_append, List.map_append]
              rw [ih ln (by omega) (d + 1), ih rn (by omega) (d + 1)]

/-- For weight-consistent trees, a node's stored frequency is the sum of the
leaf weights below it. -/
theorem wc_frequency (n : Nat) :
    ∀ t : Node, nodeSize t ≤ n → WeightsConsistent t →
      t.frequency = ((leafWD t 0).map (fun p => p.1)).sum := by
  induction n with
  | zero =>
      intro t hsz
      exact absurd hsz (by have := nodeSize_pos t; omega)
  | succ n ih =>
      intro t hsz hwc
      cases t with
      | mk s f l r =>
      have hsize : nodeSize (Node.mk s f l r) = 1 + optNodeSize l + optNodeSize r := by
        rw [nodeSize]
      cases l with
      | none =>
          cases r with
          | none =>
              rw [Node.frequency, leafWD]
              simp
          | some rn => exact hwc.elim
      | some ln =>
          cases r with
          | none => exact hwc.elim
          | some rn =>
              have hsl : optNodeSize (some ln) = nodeSize ln := rfl
              have hsr : optNodeSize (some rn) = nodeSize rn := rfl
              rw [hsize, hsl, hsr] at hsz
              obtain ⟨hf, hwl, hwr⟩ := hwc
              have hfst : ∀ u : Node,
                  ((leafWD u 0).map (fun p => (p.1, p.2 + 1))).map (fun p => p.1) =
                    (leafWD u 0).map (fun p => p.1) := by
                intro u
                rw [List.map_map]
                rfl
              rw [Node.frequency, leafWD,
                leafWD_shift (nodeSize ln) ln (Nat.le_refl _) 0,
                leafWD_shift (nodeSize rn) rn (Nat.le_refl _) 0,
                List.map_append, List.sum_append, hfst, hfst]
              rw [hf, ih ln (by omega) hwl, ih rn (by omega) hwr]

/-! ## Shape and weight consistency of the merge loop -/

theorem huffLoop_SBWC (n : Nat) :
    ∀ q : List Node, q.length ≤ n → q ≠ [] →
      (∀ t ∈ q, StrictBinary t ∧ WeightsConsistent t) →
      StrictBinary (huffLoop q) ∧ WeightsConsistent (huffLoop q) := by
  induction n with
  | zero =>
      intro q hq hne _
      cases q with
      | nil => exact absurd rfl hne
      | cons a rest => simp at hq
  | succ n ih =>
      intro q hq hne hsw
      match q with
      | [a] =>
          have ha : huffLoop [a] = a := by simp [huffLoop, huffLoopF]
          rw [ha]
          exact hsw a (List.mem_cons_self _ _)
      | a :: b :: rest =>
          rw [huffLoop_cons2]
          have hq' :
              (qpush (Node.mk 0 (a.frequency + b.frequency) (some a) (some b)) rest).length ≤
                n := by
            rw [qpush_length]
            simp at hq
            omega
          apply ih _ hq'
          · intro hcon
            have hl := congrArg List.length hcon
            rw [qpush_length] at hl
            simp at hl
          · intro t ht
            have hmem := (qpush_perm _ _).mem_iff.mp ht
            rcases List.mem_cons.mp hmem with h | h
            · subst h
              obtain ⟨hsa, hwa⟩ := hsw a (List.mem_cons_self _ _)
              obtain ⟨hsb, hwb⟩ := hsw b (List.mem_cons_of_mem _ (List.mem_cons_self _ _))
              exact ⟨⟨hsa, hsb⟩, ⟨rfl, hwa, hwb⟩⟩
            · exact hsw t (List.mem_cons_of_mem _ (List.mem_cons_of_mem _ h))

theorem build_SBWC (freqs : List (Nat × Nat)) (hne : freqs ≠ []) :
    StrictBinary (build_huffman_tree freqs) ∧
      WeightsConsistent (build_huffman_tree freqs) := by
  unfold build_huffman_tree
  apply huffLoop_SBWC freqs.length
  · rw [buildQueue_length]
    simp
  · intro hcon
    have hl := congrArg List.length hcon
    rw [buildQueue_length] at hl
    simp at hl
    exact hne hl
  · intro t ht
    rcases buildQueue_mem freqs [] t ht with h | ⟨sf, _, rfl⟩
    · cases h
    · exact ⟨trivial, trivial⟩

/-! ## The merge loop's cost is the weighted external path length -/

theorem map_freq_qpush (m : Node) :
    ∀ q : List Node,
      (qpush m q).map Node.frequency = winsert m.frequency (q.map Node.frequency) := by
  intro q
  induction q with
  | nil => rfl
  | cons t q ih =>
      by_cases h : t.frequency ≤ m.frequency <;>
        simp [qpush, winsert, h, ih]

theorem map_freq_buildQueue (fs : List (Nat × Nat)) :
    ∀ q0 : List Node,
      (fs.foldl (fun q sf => qpush (Node.mk sf.1 sf.2 none none) q) q0).map Node.frequency =
        (fs.map (fun p => p.2)).foldl (fun q w => winsert w q)
          (q0.map Node.frequency) := by
  induction fs with
  | nil => intro q0; rfl
  | cons sf fs ih =>
      intro q0
      rw [List.foldl_cons, ih, map_freq_qpush, List.map_cons, List.foldl_cons]
      rfl

theorem huffLoop_WEPL (n : Nat) :
    ∀ q : List Node, q.length ≤ n → q ≠ [] →
      (∀ t ∈ q, WeightsConsistent t) →
      WEPL (huffLoop q) =
        (q.map (fun t => WEPL t)).sum + hqueue q.length (q.map Node.frequency) := by
  induction n with
  | zero =>
      intro q hq hne _
      cases q with
      | nil => exact absurd rfl hne
      | cons a rest => simp at hq
  | succ n ih =>
      intro q hq hne hwc
      match q with
      | [t] =>
          have h1 : huffLoop [t] = t := by simp [huffLoop, huffLoopF]
          rw [h1]
          simp [hqueue]
      | a :: b :: rest =>
          rw [huffLoop_cons2]
          have hwa := hwc a (List.mem_cons_self _ _)
          have hwb := hwc b (List.mem_cons_of_mem _ (List.mem_cons_self _ _))
          have hqlen :
              (qpush (Node.mk 0 (a.frequency + b.frequency) (some a) (some b)) rest).length =
                rest.length + 1 := qpush_length _ _
          have hne2 :
              qpush (Node.mk 0 (a.frequency + b.frequency) (some a) (some b)) rest ≠ [] := by
            intro hcon
            have hl := congrArg List.length hcon
            rw [hqlen] at hl
            simp at hl
          have hwc2 : ∀ t ∈ qpush (Node.mk 0 (a.frequency + b.frequency) (some a) (some b))
              rest, WeightsConsistent t := by
            intro t ht
            have hmem := (qpush_perm _ _).mem_iff.mp ht
            rcases List.mem_cons.mp hmem with h | h
            · subst h
              exact ⟨rfl, hwa, hwb⟩
            · exact hwc t (List.mem_cons_of_mem _ (List.mem_cons_of_mem _ h))
          rw [ih _ (by rw [hqlen]; simp at hq; omega) hne2 hwc2]
          have hsumq :
              ((qpush (Node.mk 0 (a.frequency + b.frequency) (some a) (some b)) rest).map
                (fun t => WEPL t)).sum =
              WEPL (Node.mk 0 (a.frequency + b.frequency) (some a) (some b)) +
                (rest.map (fun t => WEPL t)).sum := by
            have h2 := ((qpush_perm (Node.mk 0 (a.frequency + b.frequency) (some a) (some b))
              rest).map (fun t => WEPL t)).sum_eq
            simpa using h2
          rw [hqlen, hsumq, map_freq_qpush, WEPL_merge, Node.frequency]
          have hfa : ((leafWD a 0).map (fun p => p.1)).sum = a.frequency :=
            (wc_frequency (nodeSize a) a (Nat.le_refl _) hwa).symm
          have hfb : ((leafWD b 0).map (fun p => p.1)).sum = b.frequency :=
            (wc_frequency (nodeSize b) b (Nat.le_refl _) hwb).symm
          rw [hfa, hfb]
          simp only [List.map_cons, List.sum_cons, List.length_cons]
          simp only [hqueue]
          omega

/-- The built tree's weighted external path length is the weight-level merge
cost of the table's counts. -/
theorem build_WEPL (freqs : List (Nat × Nat)) (hne : freqs ≠ []) :
    WEPL (build_huffman_tree freqs) =
      hqueue freqs.length (wqueue (freqs.map (fun p => p.2))) := by
  unfold build_huffman_tree
  have hlen : (freqs.foldl (fun q sf => qpush (Node.mk sf.1 sf.2 none none) q) []).length =
      freqs.length := by
    rw [buildQueue_length]
    simp
  have hne2 : freqs.foldl (fun q sf => qpush (Node.mk sf.1 sf.2 none none) q) [] ≠ [] := by
    intro hcon
    have hl := congrArg List.length hcon
    rw [hlen] at hl
    exact hne (List.length_eq_zero.mp hl)
  have hwc : ∀ t ∈ freqs.foldl (fun q sf => qpush (Node.mk sf.1 sf.2 none none) q) [],
      WeightsConsistent t := by
    intro t ht
    rcases buildQueue_mem freqs [] t ht with h | ⟨sf, _, rfl⟩
    · cases h
    · trivial
  rw [huffLoop_WEPL (freqs.foldl (fun q sf => qpush (Node.mk sf.1 sf.2 none none) q) []).length
    _ (Nat.le_refl _) hne2 hwc]
  have hzero : ((freqs.foldl (fun q sf => qpush (Node.mk sf.1 sf.2 none none) q) []).map
      (fun t => WEPL t)).sum = 0 := by
    apply List.sum_eq_zero
    intro x hx
    rcases List.mem_map.mp hx with ⟨t, ht, rfl⟩
    rcases buildQueue_mem freqs [] t ht with h | ⟨sf, _, rfl⟩
    · cases h
    · simp [WEPL, leafWD]
  have hfreq := map_freq_buildQueue freqs []
  simp only [List.map_nil] at hfreq
  rw [hzero, hlen, hfreq]
  simp [wqueue]

/-! ## Kraft equality and depth bounds for strict binary trees -/

theorem leafWD_le (n : Nat) :
    ∀ t : Node, nodeSize t ≤ n → ∀ d, ∀ p ∈ leafWD t d, p.2 ≤ d + treeDepth t := by
  induction n with
  | zero =>
      intro t hsz
      exact absurd hsz (by have := nodeSize_pos t; omega)
  | succ n ih =>
      intro t hsz d p hp
      cases t with
      | mk s f l r =>
      have hsize : nodeSize (Node.mk s f l r) = 1 + optNodeSize l + optNodeSize r := by
        rw [nodeSize]
      cases l with
      | none =>
          cases r with
          | none =>
              rw [leafWD] at hp
              rcases List.mem_singleton.mp hp with rfl
              simp [treeDepth]
          | some rn =>
              have hsr : optNodeSize (some rn) = nodeSize rn := rfl
              rw [hsize, hsr] at hsz
              rw [leafWD] at hp
              have h1 := ih rn (by omega) (d + 1) p hp
              rw [treeDepth]
              omega
      | some ln =>
          cases r with
          | none =>
              have hsl : optNodeSize (some ln) = nodeSize ln := rfl
              rw [hsize, hsl] at hsz
              rw [leafWD] at hp
              have h1 := ih ln (by omega) (d + 1) p hp
              rw [treeDepth]
              omega
          | some rn =>
              have hsl : optNodeSize (some ln) = nodeSize ln := rfl
              have hsr : optNodeSize (some rn) = nodeSize rn := rfl
              rw [hsize, hsl, hsr] at hsz
              rw [leafWD] at hp
              rw [treeDepth]
              have hml := Nat.le_max_left (treeDepth ln) (treeDepth rn)
              have hmr := Nat.le_max_right (treeDepth ln) (treeDepth rn)
              rcases List.mem_append.mp hp with h | h
              · have h1 := ih ln (by omega) (d + 1) p h
                omega
              · have h1 := ih rn (by omega) (d + 1) p h
                omega

theorem kraft_leafWD_aux (n : Nat) :
    ∀ t : Node, nodeSize t ≤ n → StrictBinary t → ∀ (d L : Nat),
      d + treeDepth t ≤ L →
      ((leafWD t d).map (fun p => 2 ^ (L - p.2))).sum = 2 ^ (L - d) := by
  induction n with
  | zero =>
      intro t hsz
      exact absurd hsz (by have := nodeSize_pos t; omega)
  | succ n ih =>
      intro t hsz hsb d L hdL
      cases t with
      | mk s f l r =>
      have hsize : nodeSize (Node.mk s f l r) = 1 + optNodeSize l + optNodeSize r := by
        rw [nodeSize]
      cases l with
      | none =>
          cases r with
          | none =>
              rw [leafWD]
              simp
          | some rn => exact hsb.elim
      | some ln =>
          cases r with
          | none => exact hsb.elim
          | some rn =>
              have hsl : optNodeSize (some ln) = nodeSize ln := rfl
              have hsr : optNodeSize (some rn) = nodeSize rn := rfl
              rw [hsize, hsl, hsr] at hsz
              obtain ⟨hsbl, hsbr⟩ := hsb
              rw [treeDepth] at hdL
              have hml := Nat.le_max_left (treeDepth ln) (treeDepth rn)
              have hmr := Nat.le_max_right (treeDepth ln) (treeDepth rn)
              rw [leafWD, List.map_append, List.sum_append]
              rw [ih ln (by omega) hsbl (d + 1) L (by omega),
                  ih rn (by omega) hsbr (d + 1) L (by omega)]
              rw [show L - d = (L - (d + 1)) + 1 from by omega, pow_succ]
              omega

theorem kraft_leafWD (t : Node) (hsb : StrictBinary t) :
    ((leafWD t 0).map (fun p => 2 ^ (treeDepth t - p.2))).sum = 2 ^ treeDepth t := by
  have h := kraft_leafWD_aux (nodeSize t) t (Nat.le_refl _) hsb 0 (treeDepth t) (by omega)
  simpa using h

/-! ## Claim C7: the built tree and its optimality -/

/-- Claim C7: on every non-empty frequency table `build_huffman_tree` returns
a strict binary tree (every inner node has exactly two children) whose leaf
(symbol, count) pairs are exactly the table's entries, whose every inner
weight is the sum of its children's weights — so the root's weight is the
total of all counts — and whose weighted external path length is minimal
among all strict binary trees carrying the same multiset of leaf weights. -/
theorem c7_tree_optimality (freqs : List (Nat × Nat)) (hne : freqs ≠ []) :
    StrictBinary (build_huffman_tree freqs)
    ∧ (leafSyms (build_huffman_tree freqs)).Perm freqs
    ∧ WeightsConsistent (build_huffman_tree freqs)
    ∧ (build_huffman_tree freqs).frequency = (freqs.map (fun p => p.2)).sum
    ∧ ∀ u : Node, StrictBinary u →
        ((leafWD u 0).map (fun p => p.1)).Perm (freqs.map (fun p => p.2)) →
        WEPL (build_huffman_tree freqs) ≤ WEPL u := by
  obtain ⟨hsb, hwc⟩ := build_SBWC freqs hne
  have hleaf := build_leafSyms freqs hne
  refine ⟨hsb, hleaf, hwc, ?_, ?_⟩
  · rw [wc_frequency (nodeSize (build_huffman_tree freqs)) _ (Nat.le_refl _) hwc]
    rw [leafWD_fst (nodeSize (build_huffman_tree freqs)) _ (Nat.le_refl _) 0]
    exact (hleaf.map (fun p => p.2)).sum_eq
  · intro u hsbu hperm
    have hkraft := kraft_leafWD u hsbu
    have hleu : ∀ p ∈ leafWD u 0, p.2 ≤ treeDepth u := by
      intro p hp
      have h1 := leafWD_le (nodeSize u) u (Nat.le_refl _) 0 p hp
      omega
    have hmin := huffman_cost_min (leafWD u 0).length (leafWD u 0) (treeDepth u) rfl
      hleu hkraft
    rw [build_WEPL freqs hne]
    have hlq : wqueue ((leafWD u 0).map (fun p => p.1)) =
        wqueue (freqs.map (fun p => p.2)) := wqueue_congr hperm
    have hlen : (leafWD u 0).length = freqs.length := by
      have h1 := hperm.length_eq
      simpa using h1
    rw [← hlq, ← hlen]
    exact hmin

/-- Witness for C7 at the two-entry table mapping `a` to count 1 and `b` to
count 2. -/
theorem c7_tree_optimality_witness :
    StrictBinary (build_huffman_tree [(97, 1), (98, 2)])
    ∧ (leafSyms (build_huffman_tree [(97, 1), (98, 2)])).Perm [(97, 1), (98, 2)]
    ∧ WeightsConsistent (build_huffman_tree [(97, 1), (98, 2)])
    ∧ (build_huffman_tree [(97, 1), (98, 2)]).frequency =
        (([(97, 1), (98, 2)] : List (Nat × Nat)).map (fun p => p.2)).sum
    ∧ ∀ u : Node, StrictBinary u →
        ((leafWD u 0).map (fun p => p.1)).Perm
          (([(97, 1), (98, 2)] : List (Nat × Nat)).map (fun p => p.2)) →
        WEPL (build_huffman_tree [(97, 1), (98, 2)]) ≤ WEPL u :=
  c7_tree_optimality [(97, 1), (98, 2)] (by decide)
